import Mathlib

/-!
Verification of the boolean-expression indexing engine (`src/indexer.h`).

The C++ source is shallowly embedded here:
* `Entry` packs `(document_id, conjunction_index, polarity)` into a single
  64-bit word; machine words are modelled as `Nat` with an explicit `% 2 ^ 64`.
* `PostingList` is a cursor over a sorted slice of entries.
* `PostingListGroup` is a union of posting lists exposing the minimum current
  entry.
* `Indexer.build` distributes entries into per-conjunction-size inverted
  indices, and `Indexer.retrieve` runs the size-by-size k-way merge.

Hash maps of the source are modelled extensionally as functions with pointwise
update; `std::sort` (which may produce any sorted permutation) is refined to
the deterministic `List.insertionSort` on the same ordering; the unbounded inner
`for (;;)` loop is modelled with explicit fuel, instantiated at the top level
with a bound (total number of remaining entries) that is provably sufficient.
-/

namespace Indexing

/-- `detail::Entry`: value class packing
`(docId << 17) | (index << 1) | positive` into a `uint64_t`. -/
structure Entry where
  value : Nat
deriving DecidableEq, Repr

/-- The `Entry(docId, index, positive)` constructor from the source.  There is
no bounds check in the source; `uint64_t` overflow is the `% 2 ^ 64`. -/
def Entry.make (docId index : Nat) (positive : Bool) : Entry :=
  ⟨(docId <<< 17 ||| index <<< 1 ||| (if positive then 1 else 0)) % 2 ^ 64⟩

/-- `Entry::id()`: `value_ >> 1`. -/
def Entry.id (e : Entry) : Nat := e.value >>> 1

/-- `Entry::documentId()`: `value_ >> 17`. -/
def Entry.documentId (e : Entry) : Nat := e.value >>> 17

/-- `Entry::conjunctionIndex()`: `(value_ >> 1) & 0xFFFF`. -/
def Entry.conjunctionIndex (e : Entry) : Nat := (e.value >>> 1) &&& 0xFFFF

/-- `Entry::isNegative()`: `!(value_ & 1)`. -/
def Entry.isNegative (e : Entry) : Bool := e.value &&& 1 == 0

/-- `Entry::max()`: the sentinel `numeric_limits<uint64_t>::max()`. -/
def Entry.max : Entry := ⟨2 ^ 64 - 1⟩

/-- `Entry::operator<`: unsigned comparison of the packed words. -/
def Entry.lt (a b : Entry) : Prop := a.value < b.value

instance : DecidablePred fun p : Entry × Entry => Entry.lt p.1 p.2 :=
  fun _ => Nat.decLt _ _

instance (a b : Entry) : Decidable (Entry.lt a b) := Nat.decLt _ _

/-- The packed word of an in-bounds entry, as plain arithmetic. -/
theorem Entry.make_value (d i : Nat) (p : Bool) (hd : d < 2 ^ 47) (hi : i < 2 ^ 16) :
    (Entry.make d i p).value = d * 2 ^ 17 + i * 2 + (if p then 1 else 0) := by
  have hb : (if p then 1 else 0) < 2 ^ 1 := by cases p <;> norm_num
  have h2i : i * 2 < 2 ^ 17 := by omega
  have step1 : d <<< 17 ||| i <<< 1 = d * 2 ^ 17 + i * 2 := by
    rw [Nat.shiftLeft_eq, Nat.shiftLeft_eq]
    rw [Nat.mul_comm d (2 ^ 17)]
    rw [← Nat.mul_add_lt_is_or h2i d]
  have step2 : d * 2 ^ 17 + i * 2 ||| (if p then 1 else 0)
      = d * 2 ^ 17 + i * 2 + (if p then 1 else 0) := by
    have : d * 2 ^ 17 + i * 2 = 2 ^ 1 * (d * 2 ^ 16 + i) := by ring
    rw [this, ← Nat.mul_add_lt_is_or hb (d * 2 ^ 16 + i)]
  have hlt : d * 2 ^ 17 + i * 2 + (if p then 1 else 0) < 2 ^ 64 := by
    have : (if p then 1 else 0) ≤ 1 := by cases p <;> norm_num
    nlinarith [hd, hi, this]
  unfold Entry.make
  rw [step1, step2, Nat.mod_eq_of_lt hlt]

theorem Entry.make_documentId (d i : Nat) (p : Bool) (hd : d < 2 ^ 47) (hi : i < 2 ^ 16) :
    (Entry.make d i p).documentId = d := by
  unfold Entry.documentId
  rw [Entry.make_value d i p hd hi, Nat.shiftRight_eq_div_pow]
  have hb : (if p then (1 : Nat) else 0) ≤ 1 := by cases p <;> norm_num
  omega

theorem Entry.make_id (d i : Nat) (p : Bool) (hd : d < 2 ^ 47) (hi : i < 2 ^ 16) :
    (Entry.make d i p).id = d * 2 ^ 16 + i := by
  unfold Entry.id
  rw [Entry.make_value d i p hd hi, Nat.shiftRight_eq_div_pow]
  have hb : (if p then (1 : Nat) else 0) ≤ 1 := by cases p <;> norm_num
  omega

theorem Entry.make_conjunctionIndex (d i : Nat) (p : Bool)
    (hd : d < 2 ^ 47) (hi : i < 2 ^ 16) :
    (Entry.make d i p).conjunctionIndex = i := by
  unfold Entry.conjunctionIndex
  have hid : (Entry.make d i p).value >>> 1 = d * 2 ^ 16 + i :=
    Entry.make_id d i p hd hi
  rw [hid]
  have hmask : (0xFFFF : Nat) = 2 ^ 16 - 1 := by norm_num
  rw [hmask, Nat.and_pow_two_sub_one_eq_mod]
  omega

theorem Entry.make_isNegative (d i : Nat) (p : Bool) (hd : d < 2 ^ 47) (hi : i < 2 ^ 16) :
    (Entry.make d i p).isNegative = !p := by
  unfold Entry.isNegative
  rw [Entry.make_value d i p hd hi, Nat.and_one_is_mod]
  have hb : (d * 2 ^ 17 + i * 2 + (if p then 1 else 0)) % 2 = (if p then 1 else 0) := by
    have : (if p then (1 : Nat) else 0) ≤ 1 := by cases p <;> norm_num
    omega
  rw [hb]
  cases p <;> rfl

/-- In-bounds entries with distinct `(documentId, conjunctionIndex)` have
distinct ids. -/
theorem Entry.id_inj {d₁ i₁ d₂ i₂ : Nat} {p₁ p₂ : Bool}
    (hd₁ : d₁ < 2 ^ 47) (hi₁ : i₁ < 2 ^ 16) (hd₂ : d₂ < 2 ^ 47) (hi₂ : i₂ < 2 ^ 16)
    (h : (Entry.make d₁ i₁ p₁).id = (Entry.make d₂ i₂ p₂).id) : d₁ = d₂ ∧ i₁ = i₂ := by
  rw [Entry.make_id d₁ i₁ p₁ hd₁ hi₁, Entry.make_id d₂ i₂ p₂ hd₂ hi₂] at h
  omega

/-- C2, counterexample to "constructing an Entry with out-of-range indices
fails": the packed constructor is total; `docId = 2^47` wraps around and is
indistinguishable from `docId = 0`, and `index = 2^16` bleeds into the
document-id bits. -/
theorem claim_C2_counterexample :
    Entry.make (2 ^ 47) 0 true = Entry.make 0 0 true ∧
      (Entry.make 0 (2 ^ 16) true).documentId = 1 :=
  ⟨rfl, rfl⟩

/-- C2 (amended): Entry construction performs no bounds check and never
fails; an out-of-range document id simply wraps modulo the 64-bit packing,
aliasing the entry whose document id is `2^47` smaller. -/
theorem claim_C2_amended (d i : Nat) (p : Bool) :
    Entry.make (d + 2 ^ 47) i p = Entry.make d i p := by
  unfold Entry.make
  have hmod : ∀ x : Nat, x % 2 ^ 64 = x &&& (2 ^ 64 - 1) := fun x =>
    (Nat.and_pow_two_sub_one_eq_mod x 64).symm
  have key : (d + 2 ^ 47) <<< 17 &&& (2 ^ 64 - 1) = d <<< 17 &&& (2 ^ 64 - 1) := by
    rw [Nat.and_pow_two_sub_one_eq_mod, Nat.and_pow_two_sub_one_eq_mod,
      Nat.shiftLeft_eq, Nat.shiftLeft_eq]
    have hexp : (d + 2 ^ 47) * 2 ^ 17 = d * 2 ^ 17 + 2 ^ 64 := by ring
    rw [hexp, Nat.add_mod_right]
  have := congrArg Entry.mk (by
    rw [hmod, hmod, Nat.and_distrib_right, Nat.and_distrib_right,
      Nat.and_distrib_right, Nat.and_distrib_right, key] :
    ((d + 2 ^ 47) <<< 17 ||| i <<< 1 ||| (if p then 1 else 0)) % 2 ^ 64 =
      (d <<< 17 ||| i <<< 1 ||| (if p then 1 else 0)) % 2 ^ 64)
  exact this

/-- C4, counterexample: the maximal in-bounds positive Entry packs to exactly
`2^64 - 1`, which equals (not "is strictly less than") the sentinel
`Entry::max()`. -/
theorem claim_C4_counterexample :
    (2 ^ 47 - 1 < 2 ^ 47 ∧ 2 ^ 16 - 1 < 2 ^ 16) ∧
      ¬Entry.lt (Entry.make (2 ^ 47 - 1) (2 ^ 16 - 1) true) Entry.max := by
  refine ⟨⟨by norm_num, by norm_num⟩, ?_⟩
  unfold Entry.lt
  have h : (Entry.make (2 ^ 47 - 1) (2 ^ 16 - 1) true).value = 2 ^ 64 - 1 := by
    rw [Entry.make_value _ _ _ (by norm_num) (by norm_num)]
    norm_num
  rw [h]
  have hm : Entry.max.value = 2 ^ 64 - 1 := rfl
  rw [hm]
  omega

/-- C4 (amended): `Entry::max()` is greater than or equal to every in-bounds
Entry in the Entry order, and strictly greater than all of them except the
positive Entry with `document_id = 2^47 - 1` and `conjunction_index = 2^16 - 1`,
which is equal to the sentinel. -/
theorem claim_C4_amended (d i : Nat) (p : Bool) (hd : d < 2 ^ 47) (hi : i < 2 ^ 16) :
    ¬Entry.lt Entry.max (Entry.make d i p) ∧
      (Entry.lt (Entry.make d i p) Entry.max ↔
        ¬(d = 2 ^ 47 - 1 ∧ i = 2 ^ 16 - 1 ∧ p = true)) := by
  unfold Entry.lt
  have hm : Entry.max.value = 2 ^ 64 - 1 := rfl
  rw [Entry.make_value d i p hd hi, hm]
  cases p <;> simp <;> omega

theorem claim_C4_amended_witness :
    ¬Entry.lt Entry.max (Entry.make 3 2 false) ∧
      (Entry.lt (Entry.make 3 2 false) Entry.max ↔
        ¬((3 : Nat) = 2 ^ 47 - 1 ∧ (2 : Nat) = 2 ^ 16 - 1 ∧ false = true)) :=
  claim_C4_amended 3 2 false (by norm_num) (by norm_num)

/-- C5: for in-bounds Entries, the packed-word order is exactly the
lexicographic order on (document_id, conjunction_index, polarity) with
negative before positive; in particular the negative variant of an id sorts
strictly before the positive variant. -/
theorem claim_C5 (d₁ i₁ d₂ i₂ : Nat) (p₁ p₂ : Bool)
    (hd₁ : d₁ < 2 ^ 47) (hi₁ : i₁ < 2 ^ 16) (hd₂ : d₂ < 2 ^ 47) (hi₂ : i₂ < 2 ^ 16) :
    (Entry.lt (Entry.make d₁ i₁ p₁) (Entry.make d₂ i₂ p₂) ↔
      (d₁ < d₂ ∨ (d₁ = d₂ ∧ i₁ < i₂) ∨ (d₁ = d₂ ∧ i₁ = i₂ ∧ p₁ = false ∧ p₂ = true))) ∧
      Entry.lt (Entry.make d₁ i₁ false) (Entry.make d₁ i₁ true) := by
  constructor
  · unfold Entry.lt
    rw [Entry.make_value d₁ i₁ p₁ hd₁ hi₁, Entry.make_value d₂ i₂ p₂ hd₂ hi₂]
    cases p₁ <;> cases p₂ <;> simp <;> omega
  · unfold Entry.lt
    rw [Entry.make_value d₁ i₁ false hd₁ hi₁, Entry.make_value d₁ i₁ true hd₁ hi₁]
    simp only [if_true, Bool.false_eq_true, if_false]
    omega

theorem claim_C5_witness :
    (Entry.lt (Entry.make 1 5 true) (Entry.make 2 0 false) ↔
      ((1 : Nat) < 2 ∨ ((1 : Nat) = 2 ∧ (5 : Nat) < 0) ∨
        ((1 : Nat) = 2 ∧ (5 : Nat) = 0 ∧ true = false ∧ false = true))) ∧
      Entry.lt (Entry.make 1 5 false) (Entry.make 1 5 true) :=
  claim_C5 1 5 2 0 true false (by norm_num) (by norm_num) (by norm_num) (by norm_num)

/-- C10: in-bounds Entries round-trip through the accessors, and positive and
negative variants of the same (document_id, conjunction_index) share `id()`. -/
theorem claim_C10 (d i : Nat) (p : Bool) (hd : d < 2 ^ 47) (hi : i < 2 ^ 16) :
    (Entry.make d i p).documentId = d ∧
      (Entry.make d i p).conjunctionIndex = i ∧
      (Entry.make d i p).isNegative = !p ∧
      (Entry.make d i false).id = (Entry.make d i true).id :=
  ⟨Entry.make_documentId d i p hd hi, Entry.make_conjunctionIndex d i p hd hi,
    Entry.make_isNegative d i p hd hi, by
      rw [Entry.make_id d i false hd hi, Entry.make_id d i true hd hi]⟩

theorem claim_C10_witness :
    (Entry.make 7 3 true).documentId = 7 ∧
      (Entry.make 7 3 true).conjunctionIndex = 3 ∧
      (Entry.make 7 3 true).isNegative = !true ∧
      (Entry.make 7 3 false).id = (Entry.make 7 3 true).id :=
  claim_C10 7 3 true (by norm_num) (by norm_num)

/-! ### Posting lists -/

/-- `detail::PostingList`: a non-owning cursor over a slice of entries.  The
slice is `all`; the C++ pointers `current_` and `end_` are the index `cursor`
into `all` and `all.length`. -/
structure PostingList where
  all : List Entry
  cursor : Nat
deriving DecidableEq, Repr

/-- `PostingList(begin, end)`: cursor at the slice start. -/
def PostingList.ofList (l : List Entry) : PostingList := ⟨l, 0⟩

/-- `PostingList::empty()`: `current_ == end_`. -/
def PostingList.empty (p : PostingList) : Bool := decide (p.all.length ≤ p.cursor)

/-- `PostingList::current()`: `*current_`.  Dereferencing past the end is
undefined in the source and guarded at every call site; the total model
returns the sentinel there. -/
def PostingList.current (p : PostingList) : Entry := p.all.getD p.cursor Entry.max

/-- Cursor advance of `PostingList::skipTo`, one step per loop iteration of
`while (current_ != end_ && current().id() < id) ++current_;`, expressed over
the suffix of the slice that starts at the cursor. -/
def PostingList.skipAux (target : Nat) : List Entry → Nat → Nat
  | [], c => c
  | e :: rest, c => if e.id < target then PostingList.skipAux target rest (c + 1) else c

/-- `PostingList::skipTo(id)`. -/
def PostingList.skipTo (p : PostingList) (target : Nat) : PostingList :=
  ⟨p.all, PostingList.skipAux target (p.all.drop p.cursor) p.cursor⟩

/-- The suffix of the slice at or after the cursor (proof-side abbreviation). -/
def PostingList.rem (p : PostingList) : List Entry := p.all.drop p.cursor

theorem PostingList.skipAux_eq (t : Nat) :
    ∀ (l : List Entry) (c : Nat),
      PostingList.skipAux t l c = c + (l.takeWhile (fun e => decide (e.id < t))).length := by
  intro l
  induction l with
  | nil => intro c; simp [PostingList.skipAux]
  | cons e rest ih =>
    intro c
    by_cases h : e.id < t
    · rw [PostingList.skipAux, if_pos h, ih, List.takeWhile_cons, if_pos (by simpa using h)]
      simp
      omega
    · rw [PostingList.skipAux, if_neg h, List.takeWhile_cons, if_neg (by simpa using h)]
      simp

theorem List.dropWhile_eq_drop_len {α : Type _} (f : α → Bool) :
    ∀ l : List α, l.dropWhile f = l.drop (l.takeWhile f).length := by
  intro l
  induction l with
  | nil => rfl
  | cons x xs ih =>
    rw [List.dropWhile_cons, List.takeWhile_cons]
    by_cases h : f x
    · rw [if_pos h, if_pos h]
      simpa using ih
    · rw [if_neg h, if_neg h]
      simp

theorem List.takeWhile_getD {α : Type _} (f : α → Bool) (d : α) :
    ∀ (l : List α) (m : Nat), m < (l.takeWhile f).length → f (l.getD m d) = true := by
  intro l
  induction l with
  | nil => intro m h; simp [List.takeWhile] at h
  | cons x xs ih =>
    intro m h
    rw [List.takeWhile_cons] at h
    by_cases hx : f x
    · rw [if_pos hx] at h
      match m with
      | 0 => simpa using hx
      | m + 1 =>
        simp only [List.length_cons] at h
        simpa using ih m (by omega)
    · rw [if_neg hx] at h
      simp at h

theorem PostingList.skipTo_cursor (p : PostingList) (t : Nat) :
    (p.skipTo t).cursor =
      p.cursor + ((p.rem).takeWhile (fun e => decide (e.id < t))).length := by
  unfold PostingList.skipTo PostingList.rem
  rw [PostingList.skipAux_eq]

@[simp] theorem PostingList.skipTo_all (p : PostingList) (t : Nat) :
    (p.skipTo t).all = p.all := rfl

theorem PostingList.rem_skipTo (p : PostingList) (t : Nat) :
    (p.skipTo t).rem = (p.rem).dropWhile (fun e => decide (e.id < t)) := by
  unfold PostingList.rem
  rw [PostingList.skipTo_all, PostingList.skipTo_cursor]
  rw [← List.drop_drop, List.dropWhile_eq_drop_len]
  rfl

theorem PostingList.cursor_le_skipTo (p : PostingList) (t : Nat) :
    p.cursor ≤ (p.skipTo t).cursor := by
  rw [PostingList.skipTo_cursor]; omega

theorem PostingList.skipTo_cursor_le (p : PostingList) (t : Nat)
    (h : p.cursor ≤ p.all.length) : (p.skipTo t).cursor ≤ p.all.length := by
  rw [PostingList.skipTo_cursor]
  have h1 : ((p.rem).takeWhile (fun e => decide (e.id < t))).length ≤ (p.rem).length :=
    (List.takeWhile_sublist _).length_le
  have h2 : (p.rem).length = p.all.length - p.cursor := by
    unfold PostingList.rem; simp
  omega

theorem PostingList.current_eq_headD (p : PostingList) :
    p.current = (p.rem).headD Entry.max := by
  unfold PostingList.current PostingList.rem
  rcases Nat.lt_or_ge p.cursor p.all.length with h | h
  · rw [List.drop_eq_getElem_cons h, List.getD_eq_getElem?_getD, List.getElem?_eq_getElem h]
    rfl
  · rw [List.drop_eq_nil_of_le h, List.getD_eq_getElem?_getD, List.getElem?_eq_none h]
    rfl

theorem PostingList.empty_iff_rem (p : PostingList) :
    p.empty = true ↔ p.rem = [] := by
  unfold PostingList.empty PostingList.rem
  simp [List.drop_eq_nil_iff]

theorem List.drop_getElem? {α : Type _} :
    ∀ (l : List α) (c m : Nat), (l.drop c)[m]? = l[c + m]? := by
  intro l
  induction l with
  | nil => intro c m; simp
  | cons x xs ih =>
    intro c m
    match c with
    | 0 => simp
    | c + 1 =>
      rw [List.drop_succ_cons, ih c m]
      have : c + 1 + m = c + m + 1 := by omega
      rw [this, List.getElem?_cons_succ]

theorem List.getD_drop {α : Type _} (l : List α) (c m : Nat) (d : α) :
    (l.drop c).getD m d = l.getD (c + m) d := by
  rw [List.getD_eq_getElem?_getD, List.getD_eq_getElem?_getD, List.drop_getElem?]

/-- C7: `skip_to(target_id)` moves the cursor (never backward) to the first
position at or after the old cursor whose entry has `id() ≥ target_id`, or to
the end when no such entry remains: every strictly skipped position has
`id() < target_id`, and the landing position (when in range) has
`id() ≥ target_id`. -/
theorem claim_C7 (p : PostingList) (t : Nat)
    (hs : p.all.Pairwise (fun a b => a.value ≤ b.value)) (hc : p.cursor ≤ p.all.length) :
    (p.skipTo t).all = p.all ∧
      p.cursor ≤ (p.skipTo t).cursor ∧
      (p.skipTo t).cursor ≤ p.all.length ∧
      (∀ j < (p.skipTo t).cursor, p.cursor ≤ j → (p.all.getD j Entry.max).id < t) ∧
      ((p.skipTo t).cursor < p.all.length →
        t ≤ (p.all.getD ((p.skipTo t).cursor) Entry.max).id) := by
  refine ⟨rfl, PostingList.cursor_le_skipTo p t, PostingList.skipTo_cursor_le p t hc, ?_, ?_⟩
  · intro j hj hcj
    rw [PostingList.skipTo_cursor] at hj
    obtain ⟨m, rfl⟩ : ∃ m, j = p.cursor + m := ⟨j - p.cursor, by omega⟩
    have hm : m < ((p.rem).takeWhile (fun e => decide (e.id < t))).length := by omega
    have h2 := List.takeWhile_getD (fun e => decide (e.id < t)) Entry.max (p.rem) m hm
    unfold PostingList.rem at h2
    rw [List.getD_drop] at h2
    simpa using h2
  · intro hlt
    have hcur : (p.skipTo t).current = ((p.skipTo t).rem).headD Entry.max :=
      PostingList.current_eq_headD (p.skipTo t)
    have hne : (p.skipTo t).rem ≠ [] := by
      unfold PostingList.rem
      rw [PostingList.skipTo_all]
      intro hnil
      rw [List.drop_eq_nil_iff] at hnil
      omega
    rw [PostingList.rem_skipTo] at hcur hne
    match hdw : (p.rem).dropWhile (fun e => decide (e.id < t)) with
    | [] => exact absurd hdw hne
    | h₀ :: rest =>
      have hhead := List.head_dropWhile_not (fun e => decide (e.id < t)) (p.rem)
        (by rw [hdw]; simp)
      rw [hdw] at hcur
      simp only [hdw, List.head_cons] at hhead
      have hle : t ≤ h₀.id := by simpa using hhead
      have : (p.skipTo t).current = h₀ := by rw [hcur]; rfl
      unfold PostingList.current at this
      rw [PostingList.skipTo_all] at this
      rw [this]
      exact hle

theorem claim_C7_witness :
    ((PostingList.ofList [Entry.make 0 0 true, Entry.make 1 0 false, Entry.make 2 1 true]).all.Pairwise
        (fun a b => a.value ≤ b.value) ∧
      (PostingList.ofList [Entry.make 0 0 true, Entry.make 1 0 false, Entry.make 2 1 true]).cursor ≤
        (PostingList.ofList [Entry.make 0 0 true, Entry.make 1 0 false, Entry.make 2 1 true]).all.length) ∧
      (((PostingList.ofList [Entry.make 0 0 true, Entry.make 1 0 false, Entry.make 2 1 true]).skipTo
            (Entry.make 1 0 false).id).all =
          (PostingList.ofList [Entry.make 0 0 true, Entry.make 1 0 false, Entry.make 2 1 true]).all ∧
        (PostingList.ofList [Entry.make 0 0 true, Entry.make 1 0 false, Entry.make 2 1 true]).cursor ≤
          ((PostingList.ofList [Entry.make 0 0 true, Entry.make 1 0 false, Entry.make 2 1 true]).skipTo
            (Entry.make 1 0 false).id).cursor ∧
        ((PostingList.ofList [Entry.make 0 0 true, Entry.make 1 0 false, Entry.make 2 1 true]).skipTo
            (Entry.make 1 0 false).id).cursor ≤
          (PostingList.ofList [Entry.make 0 0 true, Entry.make 1 0 false, Entry.make 2 1 true]).all.length ∧
        (∀ j < ((PostingList.ofList [Entry.make 0 0 true, Entry.make 1 0 false, Entry.make 2 1 true]).skipTo
            (Entry.make 1 0 false).id).cursor,
          (PostingList.ofList [Entry.make 0 0 true, Entry.make 1 0 false, Entry.make 2 1 true]).cursor ≤ j →
            ((PostingList.ofList [Entry.make 0 0 true, Entry.make 1 0 false, Entry.make 2 1 true]).all.getD j
              Entry.max).id < (Entry.make 1 0 false).id) ∧
        (((PostingList.ofList [Entry.make 0 0 true, Entry.make 1 0 false, Entry.make 2 1 true]).skipTo
            (Entry.make 1 0 false).id).cursor <
            (PostingList.ofList [Entry.make 0 0 true, Entry.make 1 0 false, Entry.make 2 1 true]).all.length →
          (Entry.make 1 0 false).id ≤
            ((PostingList.ofList [Entry.make 0 0 true, Entry.make 1 0 false, Entry.make 2 1 true]).all.getD
              ((PostingList.ofList [Entry.make 0 0 true, Entry.make 1 0 false,
                Entry.make 2 1 true]).skipTo (Entry.make 1 0 false).id).cursor Entry.max).id)) :=
  ⟨⟨by decide, by decide⟩,
    claim_C7 (PostingList.ofList [Entry.make 0 0 true, Entry.make 1 0 false, Entry.make 2 1 true])
      (Entry.make 1 0 false).id (by decide) (by decide)⟩

/-! ### Posting list groups -/

/-- `std::min` on entries: `(b < a) ? b : a`. -/
def Entry.minE (a b : Entry) : Entry := if b.value < a.value then b else a

/-- `detail::PostingListGroup`: a union of posting lists exposing the minimum
current entry (`current_`). -/
structure PostingListGroup where
  current : Entry
  plists : List PostingList
deriving DecidableEq, Repr

/-- `PostingListGroup()`: empty group, `current_ = Entry::max()`. -/
def PostingListGroup.new : PostingListGroup := ⟨Entry.max, []⟩

/-- `PostingListGroup::add`. -/
def PostingListGroup.add (g : PostingListGroup) (p : PostingList) : PostingListGroup :=
  if p.empty then g else ⟨Entry.minE g.current p.current, g.plists ++ [p]⟩

/-- `PostingListGroup::empty()`: `current_ == Entry::max()`. -/
def PostingListGroup.empty (g : PostingListGroup) : Bool := decide (g.current = Entry.max)

/-- The `min` recomputation loop inside `PostingListGroup::skipTo`. -/
def PostingListGroup.minCurrent (ps : List PostingList) : Entry :=
  ps.foldl (fun m p => if p.empty then m else if p.current.value < m.value then p.current else m)
    Entry.max

/-- `PostingListGroup::skipTo(id)`: early return when already exhausted,
otherwise advance every (non-exhausted) member and recompute the minimum. -/
def PostingListGroup.skipTo (g : PostingListGroup) (target : Nat) : PostingListGroup :=
  if g.current = Entry.max then g
  else
    let ps := g.plists.map (fun p => if p.empty then p else p.skipTo target)
    ⟨PostingListGroup.minCurrent ps, ps⟩

/-- Well-formedness of a posting list: sorted slice, cursor in range, no
entry packs to the sentinel value. -/
def PostingList.WF (p : PostingList) : Prop :=
  p.all.Pairwise (fun a b => a.value ≤ b.value) ∧ p.cursor ≤ p.all.length ∧
    ∀ e ∈ p.all, e.value < Entry.max.value

instance (p : PostingList) : Decidable p.WF := by
  unfold PostingList.WF
  infer_instance

/-- Representation invariant of a group: `current_` is the minimum of the
members' currents, and all members are well-formed. -/
def PostingListGroup.WF (g : PostingListGroup) : Prop :=
  g.current = PostingListGroup.minCurrent g.plists ∧ ∀ p ∈ g.plists, p.WF

instance (g : PostingListGroup) : Decidable g.WF := by
  unfold PostingListGroup.WF
  infer_instance

theorem PostingListGroup.minCurrent_facts :
    ∀ (ps : List PostingList) (m : Entry),
      (ps.foldl
          (fun m p => if p.empty then m else if p.current.value < m.value then p.current else m)
          m).value ≤ m.value ∧
        (∀ p ∈ ps, p.empty = false →
          (ps.foldl
              (fun m p => if p.empty then m else if p.current.value < m.value then p.current else m)
              m).value ≤ p.current.value) ∧
        ((ps.foldl
            (fun m p => if p.empty then m else if p.current.value < m.value then p.current else m)
            m) = m ∨
          ∃ p ∈ ps, p.empty = false ∧
            (ps.foldl
              (fun m p => if p.empty then m else if p.current.value < m.value then p.current else m)
              m) = p.current) := by
  intro ps
  induction ps with
  | nil => intro m; exact ⟨Nat.le_refl _, by simp, Or.inl rfl⟩
  | cons q qs ih =>
    intro m
    simp only [List.foldl_cons]
    by_cases hq : q.empty
    · rw [if_pos hq]
      obtain ⟨h1, h2, h3⟩ := ih m
      refine ⟨h1, ?_, ?_⟩
      · intro p hp hpe
        rcases hp with _ | hp
        · rw [hq] at hpe; cases hpe
        · exact h2 p (by assumption) hpe
      · rcases h3 with h | ⟨p, hp, hpe, hval⟩
        · exact Or.inl h
        · exact Or.inr ⟨p, List.mem_cons_of_mem _ hp, hpe, hval⟩
    · rw [if_neg hq]
      by_cases hlt : q.current.value < m.value
      · rw [if_pos hlt]
        obtain ⟨h1, h2, h3⟩ := ih q.current
        refine ⟨by omega, ?_, ?_⟩
        · intro p hp hpe
          rcases List.mem_cons.mp hp with rfl | hp
          · exact h1
          · exact h2 p hp hpe
        · rcases h3 with h | ⟨p, hp, hpe, hval⟩
          · exact Or.inr ⟨q, List.mem_cons_self _ _, Bool.eq_false_iff.mpr hq, h⟩
          · exact Or.inr ⟨p, List.mem_cons_of_mem _ hp, hpe, hval⟩
      · rw [if_neg hlt]
        obtain ⟨h1, h2, h3⟩ := ih m
        refine ⟨h1, ?_, ?_⟩
        · intro p hp hpe
          rcases List.mem_cons.mp hp with rfl | hp
          · omega
          · exact h2 p hp hpe
        · rcases h3 with h | ⟨p, hp, hpe, hval⟩
          · exact Or.inl h
          · exact Or.inr ⟨p, List.mem_cons_of_mem _ hp, hpe, hval⟩

theorem PostingListGroup.minCurrent_le {ps : List PostingList} {p : PostingList}
    (hp : p ∈ ps) (hpe : p.empty = false) :
    (PostingListGroup.minCurrent ps).value ≤ p.current.value :=
  ((PostingListGroup.minCurrent_facts ps Entry.max).2.1) p hp hpe

theorem PostingListGroup.minCurrent_cases (ps : List PostingList) :
    PostingListGroup.minCurrent ps = Entry.max ∨
      ∃ p ∈ ps, p.empty = false ∧ PostingListGroup.minCurrent ps = p.current := by
  rcases (PostingListGroup.minCurrent_facts ps Entry.max).2.2 with h | h
  · exact Or.inl h
  · exact Or.inr h

theorem PostingListGroup.minCurrent_le_max (ps : List PostingList) :
    (PostingListGroup.minCurrent ps).value ≤ Entry.max.value :=
  (PostingListGroup.minCurrent_facts ps Entry.max).1

/-- A non-exhausted well-formed posting list's current entry is an element of
its slice. -/
theorem PostingList.current_mem {p : PostingList} (h : p.empty = false) :
    p.current ∈ p.all := by
  rw [PostingList.current_eq_headD]
  have hne : p.rem ≠ [] := by
    intro hnil
    rw [← PostingList.empty_iff_rem] at hnil
    rw [h] at hnil
    cases hnil
  match hrem : p.rem with
  | [] => exact absurd hrem hne
  | e :: rest =>
    have : e ∈ p.rem := by rw [hrem]; exact List.mem_cons_self _ _
    have hmem : e ∈ p.all := by
      unfold PostingList.rem at this
      exact List.mem_of_mem_drop this
    simpa using hmem

/-- In a well-formed group, `current_ = Entry::max()` means every member is
exhausted. -/
theorem PostingListGroup.empty_all_members {g : PostingListGroup} (hwf : g.WF)
    (h : g.current = Entry.max) : ∀ p ∈ g.plists, p.empty = true := by
  intro p hp
  by_contra hne
  have hpe : p.empty = false := Bool.eq_false_iff.mpr hne
  have h1 := PostingListGroup.minCurrent_le hp hpe
  have h2 : p.current.value < Entry.max.value :=
    hwf.2 p hp |>.2.2 p.current (PostingList.current_mem hpe)
  rw [← hwf.1, h] at h1
  omega

/-- `skipTo` on an exhausted posting list does not move the cursor. -/
theorem PostingList.skipTo_of_empty {p : PostingList} (h : p.empty = true) (t : Nat) :
    p.skipTo t = p := by
  have : p.rem = [] := (PostingList.empty_iff_rem p).mp h
  unfold PostingList.skipTo
  unfold PostingList.rem at this
  rw [this]
  rfl

theorem List.map_eq_self {α : Type _} {l : List α} {f : α → α} (h : ∀ x ∈ l, f x = x) :
    l.map f = l := by
  induction l with
  | nil => rfl
  | cons x xs ih =>
    rw [List.map_cons, h x (List.mem_cons_self _ _), ih (fun y hy => h y (List.mem_cons_of_mem _ hy))]

theorem PostingListGroup.minCurrent_of_all_empty {ps : List PostingList}
    (h : ∀ p ∈ ps, p.empty = true) : PostingListGroup.minCurrent ps = Entry.max := by
  rcases PostingListGroup.minCurrent_cases ps with hmax | ⟨p, hp, hpe, _⟩
  · exact hmax
  · rw [h p hp] at hpe; cases hpe

theorem PostingList.WF_skipTo {p : PostingList} (h : p.WF) (t : Nat) : (p.skipTo t).WF := by
  obtain ⟨h1, h2, h3⟩ := h
  exact ⟨h1, PostingList.skipTo_cursor_le p t h2, h3⟩

/-- C8: `PostingListGroup::skipTo(target)` advances each member posting list
with `skip_to(target)`, and afterwards `current()` is the minimum over the
still-non-empty members' currents (a lower bound that is attained); if every
member is exhausted, `current()` is the sentinel and `empty()` is true. -/
theorem claim_C8 (g : PostingListGroup) (t : Nat) (hwf : g.WF) :
    (g.skipTo t).plists = g.plists.map (fun p => p.skipTo t) ∧
      (∀ p ∈ (g.skipTo t).plists, p.empty = false →
        (g.skipTo t).current.value ≤ p.current.value) ∧
      ((g.skipTo t).current = Entry.max ∨
        ∃ p ∈ (g.skipTo t).plists, p.empty = false ∧ (g.skipTo t).current = p.current) ∧
      ((∀ p ∈ (g.skipTo t).plists, p.empty = true) →
        (g.skipTo t).current = Entry.max ∧ (g.skipTo t).empty = true) := by
  by_cases hmax : g.current = Entry.max
  · have hall : ∀ p ∈ g.plists, p.empty = true := PostingListGroup.empty_all_members hwf hmax
    have hskip : g.skipTo t = g := by unfold PostingListGroup.skipTo; rw [if_pos hmax]
    rw [hskip]
    refine ⟨(List.map_eq_self fun p hp => PostingList.skipTo_of_empty (hall p hp) t).symm,
      ?_, Or.inl hmax, fun _ => ⟨hmax, ?_⟩⟩
    · intro p hp hpe
      rw [hall p hp] at hpe
      cases hpe
    · unfold PostingListGroup.empty
      rw [hmax]
      simp
  · have hskip : g.skipTo t =
        ⟨PostingListGroup.minCurrent (g.plists.map fun p => if p.empty then p else p.skipTo t),
          g.plists.map fun p => if p.empty then p else p.skipTo t⟩ := by
      unfold PostingListGroup.skipTo
      rw [if_neg hmax]
    have hmapeq : (g.plists.map fun p => if p.empty then p else p.skipTo t) =
        g.plists.map fun p => p.skipTo t := by
      apply List.map_congr_left
      intro p hp
      by_cases hpe : p.empty
      · rw [if_pos hpe, PostingList.skipTo_of_empty hpe]
      · rw [if_neg hpe]
    rw [hskip, hmapeq]
    refine ⟨rfl, ?_, ?_, ?_⟩
    · intro p hp hpe
      exact PostingListGroup.minCurrent_le hp hpe
    · exact PostingListGroup.minCurrent_cases _
    · intro hall
      refine ⟨PostingListGroup.minCurrent_of_all_empty hall, ?_⟩
      unfold PostingListGroup.empty
      rw [PostingListGroup.minCurrent_of_all_empty hall]
      simp

theorem claim_C8_witness :
    (PostingListGroup.new.add
        (PostingList.ofList [Entry.make 0 0 true, Entry.make 2 0 true])).WF ∧
      ((PostingListGroup.new.add
          (PostingList.ofList [Entry.make 0 0 true, Entry.make 2 0 true])).skipTo
            (Entry.make 1 0 false).id).plists =
        (PostingListGroup.new.add
          (PostingList.ofList [Entry.make 0 0 true, Entry.make 2 0 true])).plists.map
            (fun p => p.skipTo (Entry.make 1 0 false).id) :=
  ⟨by decide,
    (claim_C8
      (PostingListGroup.new.add (PostingList.ofList [Entry.make 0 0 true, Entry.make 2 0 true]))
      (Entry.make 1 0 false).id (by decide)).1⟩

/-- `add` preserves the group invariant. -/
theorem PostingListGroup.WF_add {g : PostingListGroup} (hwf : g.WF) {p : PostingList}
    (hp : p.WF) : (g.add p).WF := by
  unfold PostingListGroup.add
  by_cases hpe : p.empty
  · rw [if_pos hpe]; exact hwf
  · rw [if_neg hpe]
    constructor
    · show Entry.minE g.current p.current = PostingListGroup.minCurrent (g.plists ++ [p])
      unfold PostingListGroup.minCurrent
      rw [List.foldl_append]
      show _ = if p.empty then _ else if p.current.value < _ then _ else _
      rw [if_neg hpe]
      rw [hwf.1]
      unfold Entry.minE PostingListGroup.minCurrent
      rfl
    · intro q hq
      rcases List.mem_append.mp hq with h | h
      · exact hwf.2 q h
      · rw [List.mem_singleton.mp h]; exact hp

theorem PostingListGroup.WF_new : PostingListGroup.new.WF :=
  ⟨rfl, by intro p hp; cases hp⟩

/-- `skipTo` preserves the group invariant. -/
theorem PostingListGroup.skipTo_WF {g : PostingListGroup} (hwf : g.WF) (t : Nat) :
    (g.skipTo t).WF := by
  unfold PostingListGroup.skipTo
  by_cases hmax : g.current = Entry.max
  · rw [if_pos hmax]; exact hwf
  · rw [if_neg hmax]
    constructor
    · rfl
    · intro q hq
      simp only [List.mem_map] at hq
      obtain ⟨p, hp, rfl⟩ := hq
      by_cases hpe : p.empty
      · rw [if_pos hpe]; exact hwf.2 p hp
      · rw [if_neg hpe]; exact PostingList.WF_skipTo (hwf.2 p hp) t

/-! ### The inner k-way merge of `Indexer::retrieve` -/

/-- `std::sort(plists.begin(), plists.end())` on groups
(`operator<` compares `current()`); the unspecified sorted permutation of
`std::sort` is refined to the deterministic `insertionSort`. -/
def sortGroups (gs : List PostingListGroup) : List PostingListGroup :=
  gs.insertionSort (fun a b => a.current.value ≤ b.current.value)

/-- The veto loop of `Indexer::retrieve`:
`for (l = k; l < size; ++l) { if (current id == rejectId) skipTo(rejectId+1); else break; }`,
acting on the sub-list of groups from index `k` on. -/
def vetoAdvance (rejectId : Nat) : List PostingListGroup → List PostingListGroup
  | [] => []
  | g :: rest =>
    if g.current.id = rejectId then g.skipTo (rejectId + 1) :: vetoAdvance rejectId rest
    else g :: rest

/-- The closing pass of a merge round:
`for (l = 0; l < k; ++l) plists[l].skipTo(nextId);`. -/
def uniformSkip (required nextId : Nat) (gs : List PostingListGroup) : List PostingListGroup :=
  (gs.take required).map (fun g => g.skipTo nextId) ++ gs.drop required

/-- One iteration of the inner `for (;;)` loop of `Indexer::retrieve`, after
the sort and the termination check (`ps` is the sorted working set). -/
def innerBody (required : Nat) (ps : List PostingListGroup) (result : Finset Nat) :
    List PostingListGroup × Finset Nat :=
  if (ps.getD 0 PostingListGroup.new).current.id =
      (ps.getD (required - 1) PostingListGroup.new).current.id then
    if (ps.getD 0 PostingListGroup.new).current.isNegative then
      (uniformSkip required
        (((ps.take required ++ vetoAdvance ((ps.getD 0 PostingListGroup.new).current.id)
            (ps.drop required)).getD (required - 1) PostingListGroup.new).current.id + 1)
        (ps.take required ++ vetoAdvance ((ps.getD 0 PostingListGroup.new).current.id)
          (ps.drop required)), result)
    else
      (uniformSkip required ((ps.getD (required - 1) PostingListGroup.new).current.id + 1) ps,
        insert ((ps.getD (required - 1) PostingListGroup.new).current.documentId) result)
  else
    (uniformSkip required ((ps.getD (required - 1) PostingListGroup.new).current.id) ps, result)

/-- The inner `for (;;)` loop, with explicit fuel (the source loop has no
bound; the caller passes fuel that is provably sufficient). -/
def innerLoop (required : Nat) : Nat → List PostingListGroup → Finset Nat → Finset Nat
  | 0, _, result => result
  | fuel + 1, gs, result =>
    let ps := sortGroups gs
    if (ps.getD (required - 1) PostingListGroup.new).empty then result
    else
      let step := innerBody required ps result
      innerLoop required fuel step.1 step.2

theorem vetoAdvance_length (rejectId : Nat) :
    ∀ gs : List PostingListGroup, (vetoAdvance rejectId gs).length = gs.length := by
  intro gs
  induction gs with
  | nil => rfl
  | cons g rest ih =>
    unfold vetoAdvance
    by_cases h : g.current.id = rejectId
    · rw [if_pos h]; simpa using ih
    · rw [if_neg h]

theorem vetoAdvance_getD (rejectId : Nat) :
    ∀ (gs : List PostingListGroup) (m : Nat), m < gs.length →
      (vetoAdvance rejectId gs).getD m PostingListGroup.new =
        if ∀ n < m + 1, (gs.getD n PostingListGroup.new).current.id = rejectId
        then (gs.getD m PostingListGroup.new).skipTo (rejectId + 1)
        else gs.getD m PostingListGroup.new := by
  intro gs
  induction gs with
  | nil => intro m hm; cases hm
  | cons g rest ih =>
    intro m hm
    unfold vetoAdvance
    by_cases hg : g.current.id = rejectId
    · rw [if_pos hg]
      match m with
      | 0 =>
        have hcond : ∀ n < 0 + 1,
            ((g :: rest).getD n PostingListGroup.new).current.id = rejectId := by
          intro n hn
          interval_cases n
          simpa using hg
        rw [if_pos hcond]
        rfl
      | m + 1 =>
        have hrec := ih m (by simpa using Nat.lt_of_succ_lt_succ hm)
        have hshift : (∀ n < m + 1 + 1,
            ((g :: rest).getD n PostingListGroup.new).current.id = rejectId) ↔
            (∀ n < m + 1, (rest.getD n PostingListGroup.new).current.id = rejectId) := by
          constructor
          · intro h n hn
            exact h (n + 1) (by omega)
          · intro h n hn
            match n with
            | 0 => simpa using hg
            | n + 1 => exact h n (by omega)
        show (vetoAdvance rejectId rest).getD m _ = _
        rw [hrec]
        by_cases hall : ∀ n < m + 1, (rest.getD n PostingListGroup.new).current.id = rejectId
        · rw [if_pos hall, if_pos (hshift.mpr hall)]
          rfl
        · rw [if_neg hall, if_neg (fun hcon => hall (hshift.mp hcon))]
          rfl
    · rw [if_neg hg]
      have hcond : ¬∀ n < m + 1,
          ((g :: rest).getD n PostingListGroup.new).current.id = rejectId := by
        intro hcon
        exact hg (by simpa using hcon 0 (by omega))
      rw [if_neg hcond]

theorem uniformSkip_length (required t : Nat) (gs : List PostingListGroup) :
    (uniformSkip required t gs).length = gs.length := by
  unfold uniformSkip
  simp
  omega

theorem uniformSkip_getD_lt {required l : Nat} (t : Nat) {gs : List PostingListGroup}
    (hl : l < required) (hlen : l < gs.length) :
    (uniformSkip required t gs).getD l PostingListGroup.new =
      (gs.getD l PostingListGroup.new).skipTo t := by
  unfold uniformSkip
  rw [List.getD_eq_getElem?_getD, List.getElem?_append_left (by simp; omega)]
  rw [List.getElem?_map]
  rw [List.getElem?_take_of_lt hl]
  rw [List.getD_eq_getElem?_getD, List.getElem?_eq_getElem hlen]
  simp

theorem uniformSkip_getD_ge {required l : Nat} (t : Nat) {gs : List PostingListGroup}
    (hl : required ≤ l) :
    (uniformSkip required t gs).getD l PostingListGroup.new = gs.getD l PostingListGroup.new := by
  unfold uniformSkip
  by_cases hlen : l < gs.length
  · have hr : required ≤ gs.length := le_trans hl (le_of_lt hlen)
    rw [List.getD_eq_getElem?_getD, List.getElem?_append_right (by simp; omega)]
    rw [List.getElem?_drop]
    rw [List.getD_eq_getElem?_getD]
    congr 2
    simp
    omega
  · have h1 : ((gs.take required).map (fun g => g.skipTo t) ++ gs.drop required).length ≤ l := by
      simp only [List.length_append, List.length_map, List.length_take, List.length_drop]
      omega
    rw [List.getD_eq_getElem?_getD, List.getD_eq_getElem?_getD,
      List.getElem?_eq_none h1, List.getElem?_eq_none (by omega)]

theorem getD_take_append_left {required n : Nat} {ps : List PostingListGroup}
    (rest : List PostingListGroup) (hn : n < required) (hr : required ≤ ps.length) :
    (ps.take required ++ rest).getD n PostingListGroup.new = ps.getD n PostingListGroup.new := by
  have hlen : n < (ps.take required).length := by
    rw [List.length_take]
    omega
  rw [List.getD_eq_getElem?_getD, List.getElem?_append_left hlen,
    List.getElem?_take_of_lt hn, ← List.getD_eq_getElem?_getD]

/-- C6: in the veto branch of the inner merge (the first `required` groups
agree on an id and group 0's current entry is negative), the groups at index
`required` onward that are changed are exactly the contiguous prefix sharing
the reject id — each is advanced past it with `skip_to(reject_id + 1)`, and
every group after the first mismatch is untouched — while groups
`0 .. required - 1` are advanced exactly once, by the closing uniform
`skip_to(next)` pass with `next = reject_id + 1`; the result set is unchanged
by the round. -/
theorem claim_C6 (required : Nat) (ps : List PostingListGroup) (result : Finset Nat)
    (hreq : 1 ≤ required) (hlen : required ≤ ps.length)
    (hagree : (ps.getD 0 PostingListGroup.new).current.id =
      (ps.getD (required - 1) PostingListGroup.new).current.id)
    (hneg : (ps.getD 0 PostingListGroup.new).current.isNegative = true) :
    (∀ l < ps.length, required ≤ l →
      (innerBody required ps result).1.getD l PostingListGroup.new =
        if ∀ m < l + 1, required ≤ m →
            (ps.getD m PostingListGroup.new).current.id =
              (ps.getD 0 PostingListGroup.new).current.id
        then (ps.getD l PostingListGroup.new).skipTo
          ((ps.getD 0 PostingListGroup.new).current.id + 1)
        else ps.getD l PostingListGroup.new) ∧
      (∀ l < required, (innerBody required ps result).1.getD l PostingListGroup.new =
        (ps.getD l PostingListGroup.new).skipTo
          ((ps.getD 0 PostingListGroup.new).current.id + 1)) ∧
      (innerBody required ps result).2 = result := by
  have hbody : innerBody required ps result =
      (uniformSkip required ((ps.getD 0 PostingListGroup.new).current.id + 1)
        (ps.take required ++ vetoAdvance ((ps.getD 0 PostingListGroup.new).current.id)
          (ps.drop required)), result) := by
    unfold innerBody
    rw [if_pos hagree, if_pos hneg]
    rw [getD_take_append_left _ (by omega) hlen, ← hagree]
  have hlen' : (ps.take required ++ vetoAdvance ((ps.getD 0 PostingListGroup.new).current.id)
      (ps.drop required)).length = ps.length := by
    rw [List.length_append, List.length_take, vetoAdvance_length, List.length_drop]
    omega
  refine ⟨?_, ?_, by rw [hbody]⟩
  · intro l hl hrl
    rw [hbody]
    show (uniformSkip required _ _).getD l _ = _
    rw [uniformSkip_getD_ge _ hrl]
    have hidx : l - required < (ps.drop required).length := by
      rw [List.length_drop]
      omega
    have happright : (ps.take required ++ vetoAdvance ((ps.getD 0 PostingListGroup.new).current.id)
        (ps.drop required)).getD l PostingListGroup.new =
        (vetoAdvance ((ps.getD 0 PostingListGroup.new).current.id) (ps.drop required)).getD
          (l - required) PostingListGroup.new := by
      have htl : (ps.take required).length ≤ l := by
        rw [List.length_take]
        omega
      rw [List.getD_eq_getElem?_getD, List.getElem?_append_right htl,
        ← List.getD_eq_getElem?_getD, List.length_take]
      congr 1
      omega
    rw [happright, vetoAdvance_getD _ _ _ hidx]
    have hdropget : ∀ n, (ps.drop required).getD n PostingListGroup.new =
        ps.getD (required + n) PostingListGroup.new := fun n =>
      List.getD_drop ps required n PostingListGroup.new
    have hcondiff : (∀ n < l - required + 1,
        ((ps.drop required).getD n PostingListGroup.new).current.id =
          (ps.getD 0 PostingListGroup.new).current.id) ↔
        (∀ m < l + 1, required ≤ m →
          (ps.getD m PostingListGroup.new).current.id =
            (ps.getD 0 PostingListGroup.new).current.id) := by
      constructor
      · intro h m hm hrm
        have := h (m - required) (by omega)
        rw [hdropget] at this
        have heq : required + (m - required) = m := by omega
        rw [heq] at this
        exact this
      · intro h n hn
        rw [hdropget]
        exact h (required + n) (by omega) (by omega)
    by_cases hc : ∀ m < l + 1, required ≤ m →
        (ps.getD m PostingListGroup.new).current.id =
          (ps.getD 0 PostingListGroup.new).current.id
    · rw [if_pos (hcondiff.mpr hc), if_pos hc, hdropget]
      have heq : required + (l - required) = l := by omega
      rw [heq]
    · rw [if_neg (fun hcon => hc (hcondiff.mp hcon)), if_neg hc, hdropget]
      have heq : required + (l - required) = l := by omega
      rw [heq]
  · intro l hl
    rw [hbody]
    show (uniformSkip required _ _).getD l _ = _
    rw [uniformSkip_getD_lt _ hl (by omega), getD_take_append_left _ hl hlen]

theorem claim_C6_witness :
    ((1 : Nat) ≤ 1 ∧ (1 : Nat) ≤
        [PostingListGroup.new.add (PostingList.ofList [Entry.make 0 0 false]),
          PostingListGroup.new.add (PostingList.ofList [Entry.make 0 0 true]),
          PostingListGroup.new.add (PostingList.ofList [Entry.make 1 0 true])].length) ∧
      (∀ l < [PostingListGroup.new.add (PostingList.ofList [Entry.make 0 0 false]),
          PostingListGroup.new.add (PostingList.ofList [Entry.make 0 0 true]),
          PostingListGroup.new.add (PostingList.ofList [Entry.make 1 0 true])].length, 1 ≤ l →
        (innerBody 1
          [PostingListGroup.new.add (PostingList.ofList [Entry.make 0 0 false]),
            PostingListGroup.new.add (PostingList.ofList [Entry.make 0 0 true]),
            PostingListGroup.new.add (PostingList.ofList [Entry.make 1 0 true])] ∅).1.getD l
            PostingListGroup.new =
          if ∀ m < l + 1, 1 ≤ m →
              ([PostingListGroup.new.add (PostingList.ofList [Entry.make 0 0 false]),
                PostingListGroup.new.add (PostingList.ofList [Entry.make 0 0 true]),
                PostingListGroup.new.add (PostingList.ofList [Entry.make 1 0 true])].getD m
                  PostingListGroup.new).current.id =
                ([PostingListGroup.new.add (PostingList.ofList [Entry.make 0 0 false]),
                  PostingListGroup.new.add (PostingList.ofList [Entry.make 0 0 true]),
                  PostingListGroup.new.add (PostingList.ofList [Entry.make 1 0 true])].getD 0
                    PostingListGroup.new).current.id
          then ([PostingListGroup.new.add (PostingList.ofList [Entry.make 0 0 false]),
              PostingListGroup.new.add (PostingList.ofList [Entry.make 0 0 true]),
              PostingListGroup.new.add (PostingList.ofList [Entry.make 1 0 true])].getD l
                PostingListGroup.new).skipTo
            (([PostingListGroup.new.add (PostingList.ofList [Entry.make 0 0 false]),
              PostingListGroup.new.add (PostingList.ofList [Entry.make 0 0 true]),
              PostingListGroup.new.add (PostingList.ofList [Entry.make 1 0 true])].getD 0
                PostingListGroup.new).current.id + 1)
          else [PostingListGroup.new.add (PostingList.ofList [Entry.make 0 0 false]),
            PostingListGroup.new.add (PostingList.ofList [Entry.make 0 0 true]),
            PostingListGroup.new.add (PostingList.ofList [Entry.make 1 0 true])].getD l
              PostingListGroup.new) :=
  ⟨⟨le_refl 1, by norm_num⟩,
    (claim_C6 1
      [PostingListGroup.new.add (PostingList.ofList [Entry.make 0 0 false]),
        PostingListGroup.new.add (PostingList.ofList [Entry.make 0 0 true]),
        PostingListGroup.new.add (PostingList.ofList [Entry.make 1 0 true])] ∅
      (le_refl 1) (by norm_num) (by decide) (by decide)).1⟩

/-! ### Documents, the inverted index, build and retrieve

The source is templated over the key type; the development is parametric in
`Key` with decidable equality.  A predicate's values are
`std::variant<std::vector<std::string>, std::vector<int64_t>>`, modelled as a
sum of lists; `int64_t` values are only stored and compared for equality, so
`Int` is a faithful model.  The two hash maps of `InvertedIndexImpl` are
modelled extensionally as total functions — an absent key maps to the empty
vector, which is observationally identical for `trigger`. -/

section IndexerModel

variable {Key : Type} [DecidableEq Key]

/-- `Expression<Key>`. -/
structure Expression (Key : Type) where
  key : Key
  values : Sum (List String) (List Int)
  positive : Bool

/-- `Conjunction<Key>`. -/
structure Conjunction (Key : Type) where
  expressions : List (Expression Key)

/-- `Document<Key>`. -/
structure Document (Key : Type) where
  conjunctions : List (Conjunction Key)

/-- `getConjunctionSize`: the number of positive predicates. -/
def getConjunctionSize (c : Conjunction Key) : Nat :=
  (c.expressions.filter fun e => e.positive).length

/-- `detail::InvertedIndexImpl<Key, T>.indexs_`, as a total function. -/
def InvertedIndexImpl (Key T : Type) : Type := Key → T → List Entry

/-- A default-constructed `InvertedIndexImpl`: all posting vectors empty. -/
def InvertedIndexImpl.emptyImpl {T : Type} : InvertedIndexImpl Key T := fun _ _ => []

/-- `InvertedIndexImpl::addEntry`: `for v in [beg, end): indexs_[key][v].push_back(entry)`. -/
def InvertedIndexImpl.addEntry {T : Type} [DecidableEq T] (idx : InvertedIndexImpl Key T)
    (entry : Entry) (key : Key) (vals : List T) : InvertedIndexImpl Key T :=
  vals.foldl
    (fun m v => fun k' v' => if k' = key ∧ v' = v then m k' v' ++ [entry] else m k' v') idx

/-- `InvertedIndexImpl::trigger`: add to `group` one posting list per present
`(key, v)` pair (an absent pair contributes the empty vector, which `add`
discards just as the `continue` in the source skips it). -/
def InvertedIndexImpl.trigger {T : Type} (idx : InvertedIndexImpl Key T)
    (g : PostingListGroup) (key : Key) (vals : List T) : PostingListGroup :=
  vals.foldl (fun g v => g.add (PostingList.ofList (idx key v))) g

/-- `InvertedIndexImpl::build`: sort every posting vector. -/
def InvertedIndexImpl.buildSort {T : Type} (idx : InvertedIndexImpl Key T) :
    InvertedIndexImpl Key T :=
  fun k v => (idx k v).insertionSort fun a b => a.value ≤ b.value

/-- `detail::InvertedIndex<Key>`: the int and string sub-indices. -/
structure InvertedIndex (Key : Type) where
  intIndex : InvertedIndexImpl Key Int
  stringIndex : InvertedIndexImpl Key String

/-- A default-constructed `InvertedIndex`. -/
def InvertedIndex.emptyIdx : InvertedIndex Key :=
  ⟨InvertedIndexImpl.emptyImpl, InvertedIndexImpl.emptyImpl⟩

/-- `InvertedIndex::addEntry`: dispatch on the value domain. -/
def InvertedIndex.addEntry (idx : InvertedIndex Key) (entry : Entry) (key : Key)
    (values : Sum (List String) (List Int)) : InvertedIndex Key :=
  match values with
  | Sum.inl svals => { idx with stringIndex := idx.stringIndex.addEntry entry key svals }
  | Sum.inr ivals => { idx with intIndex := idx.intIndex.addEntry entry key ivals }

/-- `InvertedIndex::trigger`: dispatch on the value domain. -/
def InvertedIndex.trigger (idx : InvertedIndex Key) (g : PostingListGroup) (key : Key)
    (values : Sum (List String) (List Int)) : PostingListGroup :=
  match values with
  | Sum.inl svals => idx.stringIndex.trigger g key svals
  | Sum.inr ivals => idx.intIndex.trigger g key ivals

/-- `InvertedIndex::build`. -/
def InvertedIndex.buildSort (idx : InvertedIndex Key) : InvertedIndex Key :=
  ⟨idx.intIndex.buildSort, idx.stringIndex.buildSort⟩

/-- The caller-supplied `Assignment`: `trigger` hands the callback one
`(key, values)` tuple per element of `pairs`, and `size()` is the number of
bound keys. -/
structure Assignment (Key : Type) where
  pairs : List (Key × Sum (List String) (List Int))

/-- `Assignment::size()`. -/
def Assignment.size (s : Assignment Key) : Nat := s.pairs.length

/-- `Indexer<Key, Assignment>`: per-size inverted indices and the zero list. -/
structure Indexer (Key : Type) where
  indexs : List (InvertedIndex Key)
  z : List Entry

/-- `indexs_.resize(n)` when `indexs_.size() < n` (growing with
default-constructed elements), else unchanged. -/
def resizeTo (idxs : List (InvertedIndex Key)) (n : Nat) : List (InvertedIndex Key) :=
  if idxs.length < n then idxs ++ List.replicate (n - idxs.length) InvertedIndex.emptyIdx
  else idxs

/-- One expression of `Indexer::build`'s inner loop: grow the per-size vector
on demand, then add the entry under the expression's key and values. -/
def buildAddExpr (st : List (InvertedIndex Key)) (entry : Entry) (size : Nat)
    (e : Expression Key) : List (InvertedIndex Key) :=
  (resizeTo st (size + 1)).set size
    (((resizeTo st (size + 1)).getD size InvertedIndex.emptyIdx).addEntry entry e.key e.values)

/-- One conjunction of `Indexer::build`: all its expressions, then the zero
list contribution for size-0 conjunctions. -/
def buildAddConjunction (st : List (InvertedIndex Key) × List Entry) (i j : Nat)
    (c : Conjunction Key) : List (InvertedIndex Key) × List Entry :=
  (c.expressions.foldl
      (fun acc e => buildAddExpr acc (Entry.make i j e.positive) (getConjunctionSize c) e) st.1,
    if getConjunctionSize c = 0 then st.2 ++ [Entry.make i j true] else st.2)

/-- `Indexer::build`: distribute all entries, then sort every posting vector
and the zero list. -/
def Indexer.build (docs : List (Document Key)) : Indexer Key :=
  let st := docs.enum.foldl
    (fun st p =>
      p.2.conjunctions.enum.foldl (fun st2 q => buildAddConjunction st2 p.1 q.1 q.2) st)
    ([], [])
  ⟨st.1.map InvertedIndex.buildSort, st.2.insertionSort fun a b => a.value ≤ b.value⟩

/-- `Indexer::create`. -/
def Indexer.create (docs : List (Document Key)) : Indexer Key := Indexer.build docs

/-- `Indexer::getPostingLists`: trigger the assignment against the size-`k`
index, keeping the non-empty groups; at `k = 0` additionally push the
zero-list group when `z_` is non-empty. -/
def Indexer.getPostingLists (idx : Indexer Key) (k : Nat) (s : Assignment Key) :
    List PostingListGroup :=
  (s.pairs.foldl
      (fun acc pr =>
        if ((idx.indexs.getD k InvertedIndex.emptyIdx).trigger PostingListGroup.new pr.1
            pr.2).empty then acc
        else acc ++ [(idx.indexs.getD k InvertedIndex.emptyIdx).trigger PostingListGroup.new pr.1
          pr.2]) [])
    ++ (if k = 0 ∧ idx.z ≠ [] then [PostingListGroup.new.add (PostingList.ofList idx.z)] else [])

/-- Number of entries at or after the cursor. -/
def PostingList.remLength (p : PostingList) : Nat := p.all.length - p.cursor

/-- Total number of unconsumed entries of a group. -/
def PostingListGroup.totalRem (g : PostingListGroup) : Nat :=
  (g.plists.map PostingList.remLength).sum

/-- Total number of unconsumed entries of a working set;
`innerLoop` provably terminates within this many rounds. -/
def totalRem (gs : List PostingListGroup) : Nat := (gs.map PostingListGroup.totalRem).sum

/-- One size `k` of the outer loop of `Indexer::retrieve`: collect the
groups, require `max(k, 1)` of them, and run the inner merge. -/
def Indexer.sizeIter (idx : Indexer Key) (s : Assignment Key) (k : Nat)
    (result : Finset Nat) : Finset Nat :=
  if (idx.getPostingLists k s).length < (if k = 0 then 1 else k) then result
  else innerLoop (if k = 0 then 1 else k) (totalRem (idx.getPostingLists k s) + 1)
    (idx.getPostingLists k s) result

/-- The outer loop `for (i = min(indexs_.size()-1, s.size()); i >= 0; --i)`. -/
def Indexer.retrieveGo (idx : Indexer Key) (s : Assignment Key) :
    Nat → Finset Nat → Finset Nat
  | 0, r => Indexer.sizeIter idx s 0 r
  | i + 1, r => Indexer.retrieveGo idx s i (Indexer.sizeIter idx s (i + 1) r)

/-- `Indexer::retrieve(result, s)`.  When `indexs_` is empty the C++ start
index `std::min<int>(indexs_.size() - 1, s.size())` is `-1` (the `size_t`
value `2^64 - 1` converted to `int`), so the loop body never runs. -/
def Indexer.retrieve (idx : Indexer Key) (result : Finset Nat) (s : Assignment Key) :
    Finset Nat :=
  if idx.indexs.length = 0 then result
  else Indexer.retrieveGo idx s (min (idx.indexs.length - 1) s.size) result

end IndexerModel

/-! ### Result accumulation -/

theorem innerBody_fst (required : Nat) (ps : List PostingListGroup) (r : Finset Nat) :
    (innerBody required ps r).1 = (innerBody required ps ∅).1 := by
  unfold innerBody
  by_cases h1 : (ps.getD 0 PostingListGroup.new).current.id =
      (ps.getD (required - 1) PostingListGroup.new).current.id
  · rw [if_pos h1, if_pos h1]
    by_cases h2 : (ps.getD 0 PostingListGroup.new).current.isNegative
    · rw [if_pos h2, if_pos h2]
    · rw [if_neg h2, if_neg h2]
  · rw [if_neg h1, if_neg h1]

theorem innerBody_snd (required : Nat) (ps : List PostingListGroup) (r : Finset Nat) :
    (innerBody required ps r).2 = r ∪ (innerBody required ps ∅).2 := by
  unfold innerBody
  by_cases h1 : (ps.getD 0 PostingListGroup.new).current.id =
      (ps.getD (required - 1) PostingListGroup.new).current.id
  · rw [if_pos h1, if_pos h1]
    by_cases h2 : (ps.getD 0 PostingListGroup.new).current.isNegative
    · rw [if_pos h2, if_pos h2]
      simp
    · rw [if_neg h2, if_neg h2]
      show insert _ r = r ∪ insert _ ∅
      ext x
      simp [or_comm]
  · rw [if_neg h1, if_neg h1]
    simp

theorem innerLoop_union (required : Nat) :
    ∀ (fuel : Nat) (gs : List PostingListGroup) (r : Finset Nat),
      innerLoop required fuel gs r = r ∪ innerLoop required fuel gs ∅ := by
  intro fuel
  induction fuel with
  | zero => intro gs r; simp [innerLoop]
  | succ fuel ih =>
    intro gs r
    show innerLoop required (fuel + 1) gs r = r ∪ innerLoop required (fuel + 1) gs ∅
    unfold innerLoop
    by_cases h : ((sortGroups gs).getD (required - 1) PostingListGroup.new).empty
    · rw [if_pos h, if_pos h]
      simp
    · rw [if_neg h, if_neg h]
      show innerLoop required fuel (innerBody required (sortGroups gs) r).1
          (innerBody required (sortGroups gs) r).2 = r ∪ innerLoop required fuel
          (innerBody required (sortGroups gs) ∅).1 (innerBody required (sortGroups gs) ∅).2
      rw [innerBody_fst required (sortGroups gs) r, innerBody_snd required (sortGroups gs) r]
      rw [ih _ (r ∪ (innerBody required (sortGroups gs) ∅).2)]
      rw [ih _ (innerBody required (sortGroups gs) ∅).2]
      ext x
      simp

section ResultUnion

variable {Key : Type} [DecidableEq Key]

theorem sizeIter_union (idx : Indexer Key) (s : Assignment Key) (k : Nat) (r : Finset Nat) :
    Indexer.sizeIter idx s k r = r ∪ Indexer.sizeIter idx s k ∅ := by
  unfold Indexer.sizeIter
  by_cases h : (idx.getPostingLists k s).length < (if k = 0 then 1 else k)
  · rw [if_pos h, if_pos h]
    simp
  · rw [if_neg h, if_neg h]
    exact innerLoop_union _ _ _ r

theorem retrieveGo_union (idx : Indexer Key) (s : Assignment Key) :
    ∀ (i : Nat) (r : Finset Nat),
      Indexer.retrieveGo idx s i r = r ∪ Indexer.retrieveGo idx s i ∅ := by
  intro i
  induction i with
  | zero => intro r; exact sizeIter_union idx s 0 r
  | succ i ih =>
    intro r
    show Indexer.retrieveGo idx s i (Indexer.sizeIter idx s (i + 1) r) = _
    rw [sizeIter_union idx s (i + 1) r, ih (r ∪ Indexer.sizeIter idx s (i + 1) ∅)]
    show _ = r ∪ Indexer.retrieveGo idx s i (Indexer.sizeIter idx s (i + 1) ∅)
    rw [ih (Indexer.sizeIter idx s (i + 1) ∅)]
    ext x
    simp

/-- `retrieve` only adds: the final result set is the initial one united with
the ids the call itself produces (which do not depend on the accumulator). -/
theorem retrieve_union (idx : Indexer Key) (s : Assignment Key) (r : Finset Nat) :
    idx.retrieve r s = r ∪ idx.retrieve ∅ s := by
  unfold Indexer.retrieve
  by_cases h : idx.indexs.length = 0
  · rw [if_pos h, if_pos h]
    simp
  · rw [if_neg h, if_neg h]
    exact retrieveGo_union idx s _ r

end ResultUnion

/-- C9: retrieval is deterministic and idempotent — calling `retrieve` twice
with the same assignment yields equal result sets: feeding the result of one
call back as the accumulator of a second call changes nothing, and in
particular two calls into fresh empty result sets produce the same set. -/
theorem claim_C9 {Key : Type} [DecidableEq Key] (idx : Indexer Key) (s : Assignment Key) :
    idx.retrieve (idx.retrieve ∅ s) s = idx.retrieve ∅ s ∧
      ∀ r : Finset Nat, idx.retrieve r s = r ∪ idx.retrieve ∅ s := by
  refine ⟨?_, fun r => retrieve_union idx s r⟩
  rw [retrieve_union idx s (idx.retrieve ∅ s)]
  simp

/-! ### Facts about entries, remaining suffixes and groups -/

theorem Entry.value_decomp (e : Entry) :
    e.value = 2 * e.id + (if e.isNegative then 0 else 1) := by
  unfold Entry.id Entry.isNegative
  rw [Nat.shiftRight_eq_div_pow]
  have h1 : e.value &&& 1 = e.value % 2 := Nat.and_one_is_mod _
  rw [h1]
  by_cases hb : e.value % 2 = 0
  · simp only [hb, beq_self_eq_true, if_true]
    omega
  · have hb1 : e.value % 2 = 1 := by omega
    simp only [hb1]
    norm_num
    omega

theorem Entry.id_le_of_value_le {a b : Entry} (h : a.value ≤ b.value) : a.id ≤ b.id := by
  unfold Entry.id
  rw [Nat.shiftRight_eq_div_pow, Nat.shiftRight_eq_div_pow]
  exact Nat.div_le_div_right h

theorem Entry.documentId_eq_id_shift (e : Entry) : e.documentId = e.id >>> 16 := by
  unfold Entry.documentId Entry.id
  rw [Nat.shiftRight_eq_div_pow, Nat.shiftRight_eq_div_pow, Nat.shiftRight_eq_div_pow,
    Nat.div_div_eq_div_mul]

theorem Entry.value_le_two_mul_id_add_one (e : Entry) : e.value ≤ 2 * e.id + 1 := by
  have := Entry.value_decomp e
  by_cases h : e.isNegative <;> simp [h] at this <;> omega

theorem Entry.two_mul_id_le_value (e : Entry) : 2 * e.id ≤ e.value := by
  have := Entry.value_decomp e
  by_cases h : e.isNegative <;> simp [h] at this <;> omega

theorem Entry.value_of_not_negative {e : Entry} (h : e.isNegative = false) :
    e.value = 2 * e.id + 1 := by
  have := Entry.value_decomp e
  rw [h] at this
  simpa using this

theorem Entry.value_of_negative {e : Entry} (h : e.isNegative = true) :
    e.value = 2 * e.id := by
  have := Entry.value_decomp e
  rw [h] at this
  simpa using this

/-- In a sorted suffix, `dropWhile (id < t)` keeps exactly the entries with
`id ≥ t`. -/
theorem mem_dropWhile_sorted {l : List Entry}
    (hs : l.Pairwise (fun a b => a.value ≤ b.value)) (t : Nat) (e : Entry) :
    e ∈ l.dropWhile (fun x => decide (x.id < t)) ↔ (e ∈ l ∧ t ≤ e.id) := by
  induction l with
  | nil => simp
  | cons x xs ih =>
    have hx : ∀ y ∈ xs, x.value ≤ y.value := fun y hy => List.rel_of_pairwise_cons hs hy
    have hxs : xs.Pairwise (fun a b => a.value ≤ b.value) := hs.of_cons
    rw [List.dropWhile_cons]
    by_cases hxid : x.id < t
    · rw [if_pos (by simpa using hxid), ih hxs]
      constructor
      · rintro ⟨hmem, hle⟩
        exact ⟨List.mem_cons_of_mem _ hmem, hle⟩
      · rintro ⟨hmem, hle⟩
        rcases List.mem_cons.mp hmem with rfl | hmem
        · omega
        · exact ⟨hmem, hle⟩
    · rw [if_neg (by simpa using hxid)]
      constructor
      · intro hmem
        refine ⟨hmem, ?_⟩
        rcases List.mem_cons.mp hmem with rfl | hmem
        · omega
        · have := Entry.id_le_of_value_le (hx e hmem)
          omega
      · exact fun h => h.1

/-- The remaining suffix of a well-formed posting list is sorted. -/
theorem PostingList.rem_sorted {p : PostingList} (h : p.WF) :
    (p.rem).Pairwise (fun a b => a.value ≤ b.value) :=
  h.1.sublist (List.drop_sublist _ _)

/-- Remaining-suffix membership after `skipTo`, for a well-formed list. -/
theorem PostingList.mem_rem_skipTo {p : PostingList} (h : p.WF) (t : Nat) (e : Entry) :
    e ∈ (p.skipTo t).rem ↔ (e ∈ p.rem ∧ t ≤ e.id) := by
  rw [PostingList.rem_skipTo]
  exact mem_dropWhile_sorted (PostingList.rem_sorted h) t e

/-- The head of a sorted suffix is a lower bound for its members. -/
theorem head_le_of_sorted {l : List Entry}
    (hs : l.Pairwise (fun a b => a.value ≤ b.value)) {x e : Entry}
    (hhead : l.headD Entry.max = x) (hne : l ≠ []) (he : e ∈ l) : x.value ≤ e.value := by
  match l with
  | [] => exact absurd rfl hne
  | y :: ys =>
    have : y = x := hhead
    subst this
    rcases List.mem_cons.mp he with rfl | he
    · exact Nat.le_refl _
    · exact List.rel_of_pairwise_cons hs he

/-- In a well-formed non-exhausted posting list, `current()` is a lower bound
for every remaining entry. -/
theorem PostingList.current_le_rem {p : PostingList} (h : p.WF) {e : Entry}
    (he : e ∈ p.rem) : p.current.value ≤ e.value := by
  have hne : p.rem ≠ [] := by
    intro hnil
    rw [hnil] at he
    cases he
  exact head_le_of_sorted (PostingList.rem_sorted h) (PostingList.current_eq_headD p).symm hne he

/-- Remaining membership in a group. -/
def PostingListGroup.remMem (g : PostingListGroup) (e : Entry) : Prop :=
  ∃ p ∈ g.plists, e ∈ p.rem

/-- In a well-formed group, `current()` is a lower bound for every remaining
entry of every member. -/
theorem PostingListGroup.current_le_remMem {g : PostingListGroup} (h : g.WF) {e : Entry}
    (he : g.remMem e) : g.current.value ≤ e.value := by
  obtain ⟨p, hp, hep⟩ := he
  have hpe : p.empty = false := by
    rw [Bool.eq_false_iff]
    intro habs
    have := (PostingList.empty_iff_rem p).mp habs
    rw [this] at hep
    cases hep
  have h1 : g.current.value ≤ p.current.value := by
    rw [h.1]
    exact PostingListGroup.minCurrent_le hp hpe
  have h2 := PostingList.current_le_rem (h.2 p hp) hep
  omega

/-- In a well-formed non-exhausted group, `current()` is itself a remaining
entry of some member. -/
theorem PostingListGroup.current_remMem {g : PostingListGroup} (h : g.WF)
    (hne : ¬g.current = Entry.max) : g.remMem g.current := by
  have := h.1
  rcases PostingListGroup.minCurrent_cases g.plists with hmax | ⟨p, hp, hpe, hval⟩
  · rw [← this] at hmax
    exact absurd hmax hne
  · refine ⟨p, hp, ?_⟩
    rw [this, hval]
    have hrem : p.rem ≠ [] := by
      intro hnil
      have := (PostingList.empty_iff_rem p).mpr hnil
      rw [this] at hpe
      cases hpe
    have := PostingList.current_eq_headD p
    match hr : p.rem with
    | [] => exact absurd hr hrem
    | x :: xs =>
      rw [hr] at this
      rw [this]
      simp

/-- A remaining entry of a well-formed group keeps the group non-exhausted. -/
theorem PostingListGroup.not_max_of_remMem {g : PostingListGroup} (h : g.WF) {e : Entry}
    (he : g.remMem e) (hev : e.value < Entry.max.value) : ¬g.current = Entry.max := by
  intro habs
  have := PostingListGroup.current_le_remMem h he
  rw [habs] at this
  omega

/-! ### Counting and sorting support -/

theorem countP_ge_of_first {α : Type _} [Inhabited α] (P : α → Bool) :
    ∀ (l : List α) (n : Nat), n ≤ l.length → (∀ i < n, P (l.getD i default) = true) →
      n ≤ l.countP P := by
  intro l
  induction l with
  | nil => intro n hn _; simpa using hn
  | cons x xs ih =>
    intro n hn h
    match n with
    | 0 => exact Nat.zero_le _
    | n + 1 =>
      have hx : P x = true := h 0 (by omega)
      rw [List.countP_cons, hx]
      have := ih n (by simpa using hn) (fun i hi => h (i + 1) (by omega))
      simpa using Nat.add_le_add this (Nat.le_refl 1)

theorem countP_le_of_positions {α : Type _} [Inhabited α] (P : α → Bool) :
    ∀ (l : List α) (m : Nat), (∀ i < l.length, P (l.getD i default) = true → i < m) →
      l.countP P ≤ m := by
  intro l
  induction l with
  | nil => intro m _; simp
  | cons x xs ih =>
    intro m h
    rw [List.countP_cons]
    by_cases hx : P x = true
    · have h0 : 0 < m := h 0 (by simp) hx
      match m with
      | 0 => omega
      | m + 1 =>
        have := ih m (fun i hi hP => by
          have := h (i + 1) (by simpa using Nat.succ_lt_succ hi) hP
          omega)
        rw [hx]
        simp only [if_true]
        omega
    · rw [Bool.eq_false_iff.mpr hx]
      have := ih m (fun i hi hP => by
        have := h (i + 1) (by simpa using Nat.succ_lt_succ hi) hP
        omega)
      simp only [Bool.false_eq_true, if_false]
      omega

theorem countP_mono_pointwise {α : Type _} [Inhabited α] (P Q : α → Bool) :
    ∀ (l₁ l₂ : List α), l₁.length = l₂.length →
      (∀ i < l₁.length, P (l₁.getD i default) = true → Q (l₂.getD i default) = true) →
      l₁.countP P ≤ l₂.countP Q := by
  intro l₁
  induction l₁ with
  | nil => intro l₂ _ _; simp
  | cons x xs ih =>
    intro l₂ hlen h
    match l₂ with
    | [] => simp at hlen
    | y :: ys =>
      rw [List.countP_cons, List.countP_cons]
      have hrec := ih ys (by simpa using hlen) (fun i hi hP =>
        h (i + 1) (by simpa using Nat.succ_lt_succ hi) hP)
      by_cases hx : P x = true
      · have hy : Q y = true := h 0 (by simp) hx
        rw [hx, hy]
        simp only [if_true]
        omega
      · rw [Bool.eq_false_iff.mpr hx]
        simp only [Bool.false_eq_true, if_false]
        omega

theorem sum_le_pointwise {α : Type _} [Inhabited α] (f : α → Nat) :
    ∀ (l₁ l₂ : List α), l₁.length = l₂.length →
      (∀ i < l₁.length, f (l₁.getD i default) ≤ f (l₂.getD i default)) →
      (l₁.map f).sum ≤ (l₂.map f).sum := by
  intro l₁
  induction l₁ with
  | nil => intro l₂ _ _; simp
  | cons x xs ih =>
    intro l₂ hlen h
    match l₂ with
    | [] => simp at hlen
    | y :: ys =>
      simp only [List.map_cons, List.sum_cons]
      have h0 : f x ≤ f y := h 0 (by simp)
      have := ih ys (by simpa using hlen) (fun i hi =>
        h (i + 1) (by simpa using Nat.succ_lt_succ hi))
      omega

theorem sum_lt_pointwise {α : Type _} [Inhabited α] (f : α → Nat) :
    ∀ (l₁ l₂ : List α), l₁.length = l₂.length →
      (∀ i < l₁.length, f (l₁.getD i default) ≤ f (l₂.getD i default)) →
      (∃ i < l₁.length, f (l₁.getD i default) < f (l₂.getD i default)) →
      (l₁.map f).sum < (l₂.map f).sum := by
  intro l₁
  induction l₁ with
  | nil =>
    intro l₂ _ _ h2
    obtain ⟨i, hi, _⟩ := h2
    simp at hi
  | cons x xs ih =>
    intro l₂ hlen h hex
    match l₂ with
    | [] => simp at hlen
    | y :: ys =>
      simp only [List.map_cons, List.sum_cons]
      obtain ⟨i, hi, hstrict⟩ := hex
      match i with
      | 0 =>
        have := sum_le_pointwise f xs ys (by simpa using hlen) (fun i hi =>
          h (i + 1) (by simpa using Nat.succ_lt_succ hi))
        simp only [List.getD_cons_zero] at hstrict
        omega
      | i + 1 =>
        have h0 : f x ≤ f y := h 0 (by simp)
        have := ih ys (by simpa using hlen) (fun j hj =>
          h (j + 1) (by simpa using Nat.succ_lt_succ hj))
          ⟨i, by simpa using Nat.lt_of_succ_lt_succ hi, by simpa using hstrict⟩
        omega

instance : Inhabited PostingListGroup := ⟨PostingListGroup.new⟩

theorem sortGroups_perm (gs : List PostingListGroup) : List.Perm (sortGroups gs) gs :=
  List.perm_insertionSort _ gs

theorem sortGroups_length (gs : List PostingListGroup) :
    (sortGroups gs).length = gs.length :=
  (sortGroups_perm gs).length_eq

theorem sortGroups_sorted (gs : List PostingListGroup) :
    (sortGroups gs).Pairwise fun a b => a.current.value ≤ b.current.value := by
  haveI : IsTotal PostingListGroup fun a b => a.current.value ≤ b.current.value :=
    ⟨fun a b => Nat.le_total _ _⟩
  haveI : IsTrans PostingListGroup fun a b => a.current.value ≤ b.current.value :=
    ⟨fun a b c hab hbc => Nat.le_trans hab hbc⟩
  exact List.sorted_insertionSort _ gs

theorem sorted_getD_mono {gs : List PostingListGroup}
    (hs : gs.Pairwise fun a b => a.current.value ≤ b.current.value)
    {i j : Nat} (hij : i ≤ j) (hj : j < gs.length) :
    (gs.getD i default).current.value ≤ (gs.getD j default).current.value := by
  rcases Nat.lt_or_ge i j with hlt | hge
  · have hi : i < gs.length := by omega
    have := (List.pairwise_iff_getElem
      (R := fun a b : PostingListGroup => a.current.value ≤ b.current.value)).mp
      hs i j hi hj hlt
    rw [List.getD_eq_getElem?_getD, List.getD_eq_getElem?_getD,
      List.getElem?_eq_getElem hi, List.getElem?_eq_getElem hj]
    simpa using this
  · have : i = j := by omega
    subst this
    exact Nat.le_refl _

/-! ### Remaining entries across `skipTo`, and the emission predicate -/

theorem PostingListGroup.remMem_skipTo {g : PostingListGroup} (h : g.WF) (t : Nat) (e : Entry) :
    (g.skipTo t).remMem e ↔ (g.remMem e ∧ t ≤ e.id) := by
  unfold PostingListGroup.skipTo
  by_cases hmax : g.current = Entry.max
  · rw [if_pos hmax]
    have hall := PostingListGroup.empty_all_members h hmax
    have hnone : ¬g.remMem e := by
      rintro ⟨p, hp, hep⟩
      have := (PostingList.empty_iff_rem p).mp (hall p hp)
      rw [this] at hep
      cases hep
    constructor
    · intro habs; exact absurd habs hnone
    · rintro ⟨habs, _⟩; exact absurd habs hnone
  · rw [if_neg hmax]
    show (∃ p ∈ _, e ∈ PostingList.rem p) ↔ _
    constructor
    · rintro ⟨p', hp', hep'⟩
      rw [List.mem_map] at hp'
      obtain ⟨p, hp, rfl⟩ := hp'
      by_cases hpe : p.empty
      · rw [if_pos hpe] at hep'
        have := (PostingList.empty_iff_rem p).mp hpe
        rw [this] at hep'
        cases hep'
      · rw [if_neg hpe] at hep'
        have := (PostingList.mem_rem_skipTo (h.2 p hp) t e).mp hep'
        exact ⟨⟨p, hp, this.1⟩, this.2⟩
    · rintro ⟨⟨p, hp, hep⟩, hte⟩
      refine ⟨if p.empty then p else p.skipTo t, List.mem_map.mpr ⟨p, hp, rfl⟩, ?_⟩
      by_cases hpe : p.empty
      · rw [if_pos hpe]; exact hep
      · rw [if_neg hpe]
        exact (PostingList.mem_rem_skipTo (h.2 p hp) t e).mpr ⟨hep, hte⟩

theorem PostingList.remLength_skipTo_le (p : PostingList) (t : Nat) :
    (p.skipTo t).remLength ≤ p.remLength := by
  unfold PostingList.remLength
  rw [PostingList.skipTo_all, PostingList.skipTo_cursor]
  omega

theorem PostingListGroup.totalRem_skipTo_le (g : PostingListGroup) (t : Nat) :
    (g.skipTo t).totalRem ≤ g.totalRem := by
  unfold PostingListGroup.skipTo
  by_cases hmax : g.current = Entry.max
  · rw [if_pos hmax]
  · rw [if_neg hmax]
    unfold PostingListGroup.totalRem
    show ((g.plists.map fun p => if p.empty then p else p.skipTo t).map
      PostingList.remLength).sum ≤ _
    rw [List.map_map]
    apply List.sum_le_sum
    intro p hp
    show PostingList.remLength (if p.empty then p else p.skipTo t) ≤ p.remLength
    by_cases hpe : p.empty
    · rw [if_pos hpe]
    · rw [if_neg hpe]
      exact PostingList.remLength_skipTo_le p t

theorem PostingList.remLength_eq_rem_length {p : PostingList} (h : p.cursor ≤ p.all.length) :
    p.remLength = (p.rem).length := by
  unfold PostingList.remLength PostingList.rem
  rw [List.length_drop]

theorem PostingListGroup.totalRem_skipTo_lt {g : PostingListGroup} (h : g.WF)
    (hne : ¬g.current = Entry.max) {t : Nat} (hid : g.current.id < t) :
    (g.skipTo t).totalRem < g.totalRem := by
  rcases PostingListGroup.minCurrent_cases g.plists with hmax | ⟨p₀, hp₀, hp₀e, hval⟩
  · rw [← h.1] at hmax
    exact absurd hmax hne
  · obtain ⟨l₁, l₂, hsplit⟩ := List.append_of_mem hp₀
    have hwf₀ := h.2 p₀ hp₀
    have hrem₀ : p₀.rem ≠ [] := by
      intro hnil
      have := (PostingList.empty_iff_rem p₀).mpr hnil
      rw [this] at hp₀e
      cases hp₀e
    have hstrict : (p₀.skipTo t).remLength < p₀.remLength := by
      rw [PostingList.remLength_eq_rem_length hwf₀.2.1,
        PostingList.remLength_eq_rem_length ((PostingList.WF_skipTo hwf₀ t).2.1)]
      rw [PostingList.rem_skipTo]
      match hr : p₀.rem with
      | [] => exact absurd hr hrem₀
      | e₀ :: rest =>
        have he₀ : e₀ = p₀.current := by
          have := PostingList.current_eq_headD p₀
          rw [hr] at this
          simpa using this.symm
        have hid₀ : e₀.id < t := by
          rw [he₀]
          have : p₀.current = g.current := by
            rw [← hval, ← h.1]
          rw [this]
          exact hid
        rw [List.dropWhile_cons, if_pos (by simpa using hid₀)]
        have := (List.dropWhile_sublist (fun x : Entry => decide (x.id < t))
          (l := rest)).length_le
        simpa using Nat.lt_succ_of_le this
    unfold PostingListGroup.skipTo
    rw [if_neg hne]
    unfold PostingListGroup.totalRem
    show ((g.plists.map fun p => if p.empty then p else p.skipTo t).map
      PostingList.remLength).sum < _
    rw [List.map_map, hsplit]
    rw [List.map_append, List.map_append, List.sum_append, List.sum_append]
    rw [List.map_cons, List.map_cons, List.sum_cons, List.sum_cons]
    have hmid : PostingList.remLength ((fun p => if p.empty then p else p.skipTo t) p₀) <
        p₀.remLength := by
      show PostingList.remLength (if p₀.empty then p₀ else p₀.skipTo t) < _
      rw [Bool.eq_false_iff.mpr (by rw [hp₀e]; simp : ¬p₀.empty = true)]
      · exact hstrict
    have hside : ∀ l : List PostingList,
        ((l.map fun p => if p.empty then p else p.skipTo t).map PostingList.remLength).sum ≤
          (l.map PostingList.remLength).sum := by
      intro l
      rw [List.map_map]
      apply List.sum_le_sum
      intro p hp
      show PostingList.remLength (if p.empty then p else p.skipTo t) ≤ p.remLength
      by_cases hpe : p.empty
      · rw [if_pos hpe]
      · rw [if_neg hpe]
        exact PostingList.remLength_skipTo_le p t
    have h₁ := hside l₁
    have h₂ := hside l₂
    rw [List.map_map] at h₁ h₂
    simp only [Function.comp_apply] at hmid ⊢
    omega

/-- Does the group still hold (at or after its cursors) an entry with id `Y`? -/
def hasRemId (Y : Nat) (g : PostingListGroup) : Bool :=
  g.plists.any fun p => (p.rem).any fun e => e.id == Y

/-- Does the group still hold a negative entry with id `Y`? -/
def hasRemNegId (Y : Nat) (g : PostingListGroup) : Bool :=
  g.plists.any fun p => (p.rem).any fun e => e.id == Y && e.isNegative

theorem hasRemId_iff (Y : Nat) (g : PostingListGroup) :
    hasRemId Y g = true ↔ ∃ e, g.remMem e ∧ e.id = Y := by
  unfold hasRemId PostingListGroup.remMem
  simp only [List.any_eq_true, beq_iff_eq]
  constructor
  · rintro ⟨p, hp, e, he, hid⟩
    exact ⟨e, ⟨p, hp, he⟩, hid⟩
  · rintro ⟨e, ⟨p, hp, he⟩, hid⟩
    exact ⟨p, hp, e, he, hid⟩

theorem hasRemNegId_iff (Y : Nat) (g : PostingListGroup) :
    hasRemNegId Y g = true ↔ ∃ e, g.remMem e ∧ e.id = Y ∧ e.isNegative = true := by
  unfold hasRemNegId PostingListGroup.remMem
  simp only [List.any_eq_true, Bool.and_eq_true, beq_iff_eq]
  constructor
  · rintro ⟨p, hp, e, he, hid, hneg⟩
    exact ⟨e, ⟨p, hp, he⟩, hid, hneg⟩
  · rintro ⟨e, ⟨p, hp, he⟩, hid, hneg⟩
    exact ⟨p, hp, e, he, hid, hneg⟩

/-- The declarative emission condition of the inner merge over a working set:
at least `required` groups still hold an entry with id `Y`, and no group
still holds a negative entry with id `Y`. -/
def emitOK (required : Nat) (gs : List PostingListGroup) (Y : Nat) : Prop :=
  required ≤ gs.countP (hasRemId Y) ∧ ∀ g ∈ gs, hasRemNegId Y g = false

theorem emitOK_perm {gs gs' : List PostingListGroup} (hp : List.Perm gs gs')
    (required Y : Nat) : emitOK required gs Y ↔ emitOK required gs' Y := by
  unfold emitOK
  rw [hp.countP_eq]
  constructor
  · rintro ⟨h1, h2⟩
    exact ⟨h1, fun g hg => h2 g (hp.mem_iff.mpr hg)⟩
  · rintro ⟨h1, h2⟩
    exact ⟨h1, fun g hg => h2 g (hp.mem_iff.mp hg)⟩

/-! ### Branch equations and preservation facts for `innerBody` -/

theorem getD_eq_getElem {α : Type _} [Inhabited α] (l : List α) (i : Nat) (h : i < l.length) :
    l.getD i default = l[i] := by
  rw [List.getD_eq_getElem?_getD, List.getElem?_eq_getElem h]
  rfl

theorem mem_iff_getD {α : Type _} [Inhabited α] {l : List α} {a : α} :
    a ∈ l ↔ ∃ i, ∃ _ : i < l.length, l.getD i default = a := by
  rw [List.mem_iff_getElem]
  constructor
  · rintro ⟨i, hi, rfl⟩
    exact ⟨i, hi, getD_eq_getElem l i hi⟩
  · rintro ⟨i, hi, rfl⟩
    exact ⟨i, hi, (getD_eq_getElem l i hi).symm⟩

theorem innerBody_eq_match {required : Nat} {ps : List PostingListGroup} (r : Finset Nat)
    (hagree : (ps.getD 0 PostingListGroup.new).current.id =
      (ps.getD (required - 1) PostingListGroup.new).current.id)
    (hpos : (ps.getD 0 PostingListGroup.new).current.isNegative = false) :
    innerBody required ps r =
      (uniformSkip required ((ps.getD (required - 1) PostingListGroup.new).current.id + 1) ps,
        insert ((ps.getD (required - 1) PostingListGroup.new).current.documentId) r) := by
  unfold innerBody
  rw [if_pos hagree, if_neg (by rw [hpos]; simp)]

theorem innerBody_eq_diff {required : Nat} {ps : List PostingListGroup} (r : Finset Nat)
    (hdiff : ¬(ps.getD 0 PostingListGroup.new).current.id =
      (ps.getD (required - 1) PostingListGroup.new).current.id) :
    innerBody required ps r =
      (uniformSkip required ((ps.getD (required - 1) PostingListGroup.new).current.id) ps, r) := by
  unfold innerBody
  rw [if_neg hdiff]

theorem innerBody_eq_veto {required : Nat} {ps : List PostingListGroup} (r : Finset Nat)
    (hreq : 1 ≤ required) (hlen : required ≤ ps.length)
    (hagree : (ps.getD 0 PostingListGroup.new).current.id =
      (ps.getD (required - 1) PostingListGroup.new).current.id)
    (hneg : (ps.getD 0 PostingListGroup.new).current.isNegative = true) :
    innerBody required ps r =
      (uniformSkip required ((ps.getD 0 PostingListGroup.new).current.id + 1)
        (ps.take required ++ vetoAdvance ((ps.getD 0 PostingListGroup.new).current.id)
          (ps.drop required)), r) := by
  unfold innerBody
  rw [if_pos hagree, if_pos hneg]
  rw [getD_take_append_left _ (by omega) hlen, ← hagree]

/-- The working set after the veto branch, position by position. -/
theorem innerBody_veto_getD {required : Nat} {ps : List PostingListGroup} (r : Finset Nat)
    (hreq : 1 ≤ required) (hlen : required ≤ ps.length)
    (hagree : (ps.getD 0 PostingListGroup.new).current.id =
      (ps.getD (required - 1) PostingListGroup.new).current.id)
    (hneg : (ps.getD 0 PostingListGroup.new).current.isNegative = true) :
    (∀ l < required, (innerBody required ps r).1.getD l PostingListGroup.new =
      (ps.getD l PostingListGroup.new).skipTo
        ((ps.getD 0 PostingListGroup.new).current.id + 1)) ∧
      (∀ l < ps.length, required ≤ l →
        (innerBody required ps r).1.getD l PostingListGroup.new =
          if ∀ m < l + 1, required ≤ m →
              (ps.getD m PostingListGroup.new).current.id =
                (ps.getD 0 PostingListGroup.new).current.id
          then (ps.getD l PostingListGroup.new).skipTo
            ((ps.getD 0 PostingListGroup.new).current.id + 1)
          else ps.getD l PostingListGroup.new) := by
  have hbody := innerBody_eq_veto r hreq hlen hagree hneg
  have hlen' : (ps.take required ++ vetoAdvance ((ps.getD 0 PostingListGroup.new).current.id)
      (ps.drop required)).length = ps.length := by
    rw [List.length_append, List.length_take, vetoAdvance_length, List.length_drop]
    omega
  constructor
  · intro l hl
    rw [hbody]
    show (uniformSkip required _ _).getD l _ = _
    rw [uniformSkip_getD_lt _ hl (by omega), getD_take_append_left _ hl hlen]
  · intro l hl hrl
    rw [hbody]
    show (uniformSkip required _ _).getD l _ = _
    rw [uniformSkip_getD_ge _ hrl]
    have hidx : l - required < (ps.drop required).length := by
      rw [List.length_drop]
      omega
    have happright : (ps.take required ++ vetoAdvance ((ps.getD 0 PostingListGroup.new).current.id)
        (ps.drop required)).getD l PostingListGroup.new =
        (vetoAdvance ((ps.getD 0 PostingListGroup.new).current.id) (ps.drop required)).getD
          (l - required) PostingListGroup.new := by
      have htl : (ps.take required).length ≤ l := by
        rw [List.length_take]
        omega
      rw [List.getD_eq_getElem?_getD, List.getElem?_append_right htl,
        ← List.getD_eq_getElem?_getD, List.length_take]
      congr 1
      omega
    rw [happright, vetoAdvance_getD _ _ _ hidx]
    have hdropget : ∀ n, (ps.drop required).getD n PostingListGroup.new =
        ps.getD (required + n) PostingListGroup.new := fun n =>
      List.getD_drop ps required n PostingListGroup.new
    have hcondiff : (∀ n < l - required + 1,
        ((ps.drop required).getD n PostingListGroup.new).current.id =
          (ps.getD 0 PostingListGroup.new).current.id) ↔
        (∀ m < l + 1, required ≤ m →
          (ps.getD m PostingListGroup.new).current.id =
            (ps.getD 0 PostingListGroup.new).current.id) := by
      constructor
      · intro h m hm hrm
        have := h (m - required) (by omega)
        rw [hdropget] at this
        have heq : required + (m - required) = m := by omega
        rw [heq] at this
        exact this
      · intro h n hn
        rw [hdropget]
        exact h (required + n) (by omega) (by omega)
    by_cases hc : ∀ m < l + 1, required ≤ m →
        (ps.getD m PostingListGroup.new).current.id =
          (ps.getD 0 PostingListGroup.new).current.id
    · rw [if_pos (hcondiff.mpr hc), if_pos hc, hdropget]
      have heq : required + (l - required) = l := by omega
      rw [heq]
    · rw [if_neg (fun hcon => hc (hcondiff.mp hcon)), if_neg hc, hdropget]
      have heq : required + (l - required) = l := by omega
      rw [heq]

/-- The length of the working set is unchanged by a merge round. -/
theorem innerBody_length {required : Nat} {ps : List PostingListGroup} (r : Finset Nat)
    (hreq : 1 ≤ required) (hlen : required ≤ ps.length) :
    (innerBody required ps r).1.length = ps.length := by
  by_cases hagree : (ps.getD 0 PostingListGroup.new).current.id =
      (ps.getD (required - 1) PostingListGroup.new).current.id
  · by_cases hneg : (ps.getD 0 PostingListGroup.new).current.isNegative
    · rw [innerBody_eq_veto r hreq hlen hagree hneg]
      show (uniformSkip _ _ _).length = _
      rw [uniformSkip_length, List.length_append, List.length_take, vetoAdvance_length,
        List.length_drop]
      omega
    · rw [innerBody_eq_match r hagree (Bool.eq_false_iff.mpr hneg)]
      exact uniformSkip_length _ _ _
  · rw [innerBody_eq_diff r hagree]
    exact uniformSkip_length _ _ _

/-- Position by position, a merge round leaves each group alone or advances
it with some `skipTo`. -/
theorem innerBody_getD_cases {required : Nat} {ps : List PostingListGroup} (r : Finset Nat)
    (hreq : 1 ≤ required) (hlen : required ≤ ps.length) :
    ∀ l < ps.length,
      (innerBody required ps r).1.getD l PostingListGroup.new = ps.getD l PostingListGroup.new ∨
        ∃ t, (innerBody required ps r).1.getD l PostingListGroup.new =
          (ps.getD l PostingListGroup.new).skipTo t := by
  intro l hl
  by_cases hagree : (ps.getD 0 PostingListGroup.new).current.id =
      (ps.getD (required - 1) PostingListGroup.new).current.id
  · by_cases hneg : (ps.getD 0 PostingListGroup.new).current.isNegative
    · obtain ⟨h1, h2⟩ := innerBody_veto_getD r hreq hlen hagree hneg
      by_cases hlr : l < required
      · exact Or.inr ⟨_, h1 l hlr⟩
      · rw [h2 l hl (by omega)]
        by_cases hc : ∀ m < l + 1, required ≤ m →
            (ps.getD m PostingListGroup.new).current.id =
              (ps.getD 0 PostingListGroup.new).current.id
        · rw [if_pos hc]
          exact Or.inr ⟨_, rfl⟩
        · rw [if_neg hc]
          exact Or.inl rfl
    · rw [innerBody_eq_match r hagree (Bool.eq_false_iff.mpr hneg)]
      by_cases hlr : l < required
      · exact Or.inr ⟨_, uniformSkip_getD_lt _ hlr hl⟩
      · exact Or.inl (uniformSkip_getD_ge _ (by omega))
  · rw [innerBody_eq_diff r hagree]
    by_cases hlr : l < required
    · exact Or.inr ⟨_, uniformSkip_getD_lt _ hlr hl⟩
    · exact Or.inl (uniformSkip_getD_ge _ (by omega))

/-- A merge round preserves well-formedness of every group. -/
theorem innerBody_WF {required : Nat} {ps : List PostingListGroup} (r : Finset Nat)
    (hreq : 1 ≤ required) (hlen : required ≤ ps.length) (hwf : ∀ g ∈ ps, g.WF) :
    ∀ g ∈ (innerBody required ps r).1, g.WF := by
  intro g hg
  obtain ⟨i, hi, hget⟩ := mem_iff_getD.mp hg
  rw [innerBody_length r hreq hlen] at hi
  have hwf_i : (ps.getD i PostingListGroup.new).WF := by
    apply hwf
    exact mem_iff_getD.mpr ⟨i, hi, rfl⟩
  rcases innerBody_getD_cases r hreq hlen i hi with hsame | ⟨t, hskip⟩
  · rw [← hget]
    show ((innerBody required ps r).1.getD i PostingListGroup.new).WF
    rw [hsame]
    exact hwf_i
  · rw [← hget]
    show ((innerBody required ps r).1.getD i PostingListGroup.new).WF
    rw [hskip]
    exact PostingListGroup.skipTo_WF hwf_i t

/-- A merge round never grows the total number of unconsumed entries. -/
theorem innerBody_totalRem_le {required : Nat} {ps : List PostingListGroup} (r : Finset Nat)
    (hreq : 1 ≤ required) (hlen : required ≤ ps.length) :
    totalRem (innerBody required ps r).1 ≤ totalRem ps := by
  unfold totalRem
  apply sum_le_pointwise
  · exact innerBody_length r hreq hlen
  · intro i hi
    rw [innerBody_length r hreq hlen] at hi
    rw [show (default : PostingListGroup) = PostingListGroup.new from rfl]
    rcases innerBody_getD_cases r hreq hlen i hi with hsame | ⟨t, hskip⟩
    · rw [hsame]
    · rw [hskip]
      exact PostingListGroup.totalRem_skipTo_le _ t

/-- A merge round can only lose id-`Y` holders. -/
theorem innerBody_countP_le {required : Nat} {ps : List PostingListGroup} (r : Finset Nat)
    (hreq : 1 ≤ required) (hlen : required ≤ ps.length) (hwf : ∀ g ∈ ps, g.WF) (Y : Nat) :
    (innerBody required ps r).1.countP (hasRemId Y) ≤ ps.countP (hasRemId Y) := by
  apply countP_mono_pointwise
  · exact innerBody_length r hreq hlen
  · intro i hi hP
    rw [innerBody_length r hreq hlen] at hi
    rw [show (default : PostingListGroup) = PostingListGroup.new from rfl] at hP ⊢
    have hwf_i : (ps.getD i PostingListGroup.new).WF := by
      apply hwf
      exact mem_iff_getD.mpr ⟨i, hi, rfl⟩
    rcases innerBody_getD_cases r hreq hlen i hi with hsame | ⟨t, hskip⟩
    · rw [hsame] at hP
      exact hP
    · rw [hskip] at hP
      rw [hasRemId_iff] at hP ⊢
      obtain ⟨e, hmem, hid⟩ := hP
      exact ⟨e, ((PostingListGroup.remMem_skipTo hwf_i t e).mp hmem).1, hid⟩

/-! ### Holder facts -/

theorem rem_subset_all {p : PostingList} {e : Entry} (h : e ∈ p.rem) : e ∈ p.all := by
  unfold PostingList.rem at h
  exact List.mem_of_mem_drop h

theorem holder_current_le {Y : Nat} {g : PostingListGroup} (hwf : g.WF)
    (h : hasRemId Y g = true) : g.current.value ≤ 2 * Y + 1 := by
  obtain ⟨e, hmem, hid⟩ := (hasRemId_iff Y g).mp h
  have h1 := PostingListGroup.current_le_remMem hwf hmem
  have h2 := Entry.value_le_two_mul_id_add_one e
  omega

theorem negholder_current_le {Y : Nat} {g : PostingListGroup} (hwf : g.WF)
    (h : hasRemNegId Y g = true) : g.current.value ≤ 2 * Y := by
  obtain ⟨e, hmem, hid, hneg⟩ := (hasRemNegId_iff Y g).mp h
  have h1 := PostingListGroup.current_le_remMem hwf hmem
  have h2 := Entry.value_of_negative hneg
  omega

theorem holder_current_lt_max {Y : Nat} {g : PostingListGroup} (hwf : g.WF)
    (h : hasRemId Y g = true) : g.current.value < Entry.max.value := by
  obtain ⟨e, hmem, _⟩ := (hasRemId_iff Y g).mp h
  obtain ⟨p, hp, hep⟩ := hmem
  have h1 := PostingListGroup.current_le_remMem hwf ⟨p, hp, hep⟩
  have h2 := (hwf.2 p hp).2.2 e (rem_subset_all hep)
  omega

theorem holder_persist {Y t : Nat} {g : PostingListGroup} (hwf : g.WF) (ht : t ≤ Y)
    (h : hasRemId Y g = true) : hasRemId Y (g.skipTo t) = true := by
  obtain ⟨e, hmem, hid⟩ := (hasRemId_iff Y g).mp h
  exact (hasRemId_iff Y _).mpr
    ⟨e, (PostingListGroup.remMem_skipTo hwf t e).mpr ⟨hmem, by omega⟩, hid⟩

theorem negholder_persist {Y t : Nat} {g : PostingListGroup} (hwf : g.WF) (ht : t ≤ Y)
    (h : hasRemNegId Y g = true) : hasRemNegId Y (g.skipTo t) = true := by
  obtain ⟨e, hmem, hid, hneg⟩ := (hasRemNegId_iff Y g).mp h
  exact (hasRemNegId_iff Y _).mpr
    ⟨e, (PostingListGroup.remMem_skipTo hwf t e).mpr ⟨hmem, by omega⟩, hid, hneg⟩

theorem negholder_back {Y t : Nat} {g : PostingListGroup} (hwf : g.WF)
    (h : hasRemNegId Y (g.skipTo t) = true) : hasRemNegId Y g = true := by
  obtain ⟨e, hmem, hid, hneg⟩ := (hasRemNegId_iff Y _).mp h
  exact (hasRemNegId_iff Y g).mpr
    ⟨e, ((PostingListGroup.remMem_skipTo hwf t e).mp hmem).1, hid, hneg⟩

theorem no_holder_skipTo_high {Y t : Nat} {g : PostingListGroup} (hwf : g.WF) (ht : Y < t) :
    hasRemId Y (g.skipTo t) = false := by
  rw [Bool.eq_false_iff]
  intro habs
  obtain ⟨e, hmem, hid⟩ := (hasRemId_iff Y _).mp habs
  have := ((PostingListGroup.remMem_skipTo hwf t e).mp hmem).2
  omega

theorem sorted_min_le_mem {ps : List PostingListGroup}
    (hs : ps.Pairwise fun a b => a.current.value ≤ b.current.value)
    {g : PostingListGroup} (hg : g ∈ ps) :
    (ps.getD 0 PostingListGroup.new).current.value ≤ g.current.value := by
  obtain ⟨i, hi, hget⟩ := mem_iff_getD.mp hg
  rw [← hget]
  exact sorted_getD_mono hs (Nat.zero_le i) hi

theorem countP_pos_exists {α : Type _} [Inhabited α] {P : α → Bool} {l : List α}
    (h : 1 ≤ l.countP P) : ∃ i, ∃ _ : i < l.length, P (l.getD i default) = true := by
  have : ∃ a ∈ l, P a := by
    rw [← List.countP_pos_iff]
    omega
  obtain ⟨a, ha, hPa⟩ := this
  obtain ⟨i, hi, hget⟩ := mem_iff_getD.mp ha
  exact ⟨i, hi, by rw [hget]; exact hPa⟩

/-- With at least `required` holders of id `Y` in a sorted working set, the
group at position `required - 1` has current value at most `2Y + 1`. -/
theorem value_bound_at_req {required Y : Nat} {ps : List PostingListGroup}
    (hs : ps.Pairwise fun a b => a.current.value ≤ b.current.value)
    (hwf : ∀ g ∈ ps, g.WF) (hreq : 1 ≤ required) (hlen : required ≤ ps.length)
    (hcount : required ≤ ps.countP (hasRemId Y)) :
    (ps.getD (required - 1) PostingListGroup.new).current.value ≤ 2 * Y + 1 := by
  by_contra habs
  push_neg at habs
  have hpos : ∀ i < ps.length, hasRemId Y (ps.getD i default) = true → i < required - 1 := by
    intro i hi hP
    by_contra hge
    push_neg at hge
    have h1 : (ps.getD (required - 1) PostingListGroup.new).current.value ≤
        (ps.getD i PostingListGroup.new).current.value :=
      sorted_getD_mono hs hge hi
    have h2 : (ps.getD i PostingListGroup.new).current.value ≤ 2 * Y + 1 := by
      apply holder_current_le
      · apply hwf
        exact mem_iff_getD.mpr ⟨i, hi, rfl⟩
      · exact hP
    omega
  have := countP_le_of_positions (hasRemId Y) ps (required - 1) hpos
  omega

/-- With at least `required` holders (all of which are non-exhausted), the
group at position `required - 1` of the sorted working set is non-exhausted. -/
theorem guard_ok_of_count {required Y : Nat} {ps : List PostingListGroup}
    (hs : ps.Pairwise fun a b => a.current.value ≤ b.current.value)
    (hwf : ∀ g ∈ ps, g.WF) (hreq : 1 ≤ required) (hlen : required ≤ ps.length)
    (hcount : required ≤ ps.countP (hasRemId Y)) :
    (ps.getD (required - 1) PostingListGroup.new).empty = false := by
  suffices hne : ¬(ps.getD (required - 1) PostingListGroup.new).current = Entry.max by
    unfold PostingListGroup.empty
    simpa using hne
  intro habs
  have hpos : ∀ i < ps.length, hasRemId Y (ps.getD i default) = true → i < required - 1 := by
    intro i hi hP
    by_contra hge
    push_neg at hge
    have h1 : (ps.getD (required - 1) PostingListGroup.new).current.value ≤
        (ps.getD i PostingListGroup.new).current.value :=
      sorted_getD_mono hs hge hi
    have hwf_i : (ps.getD i PostingListGroup.new).WF := by
      apply hwf
      exact mem_iff_getD.mpr ⟨i, hi, rfl⟩
    have h2 := holder_current_lt_max hwf_i hP
    rw [habs] at h1
    omega
  have := countP_le_of_positions (hasRemId Y) ps (required - 1) hpos
  omega

theorem Entry.ne_iff_value {a b : Entry} : a ≠ b ↔ a.value ≠ b.value := by
  constructor
  · intro h hv
    exact h (by cases a; cases b; simpa using hv)
  · intro hv h
    exact hv (by rw [h])

theorem WF_current_le_max {g : PostingListGroup} (hwf : g.WF) :
    g.current.value ≤ Entry.max.value := by
  rw [hwf.1]
  exact PostingListGroup.minCurrent_le_max _

theorem Entry.id_le_of_value_le_double {e : Entry} {Y : Nat} (h : e.value ≤ 2 * Y + 1) :
    e.id ≤ Y := by
  have := Entry.two_mul_id_le_value e
  omega

theorem group_not_max_of_not_empty {g : PostingListGroup} (h : g.empty = false) :
    g.current ≠ Entry.max := by
  unfold PostingListGroup.empty at h
  simpa using h

/-- If the `required - 1` position of the sorted working set is beyond value
`2Y + 1`, fewer than `required` groups hold id `Y`. -/
theorem count_lt_of_value_gt {required Y : Nat} {ps : List PostingListGroup}
    (hs : ps.Pairwise fun a b => a.current.value ≤ b.current.value)
    (hwf : ∀ g ∈ ps, g.WF) (hreq : 1 ≤ required) (hlen : required ≤ ps.length)
    (hval : 2 * Y + 1 < (ps.getD (required - 1) PostingListGroup.new).current.value) :
    ps.countP (hasRemId Y) ≤ required - 1 := by
  apply countP_le_of_positions
  intro i hi hP
  by_contra hge
  push_neg at hge
  have h1 : (ps.getD (required - 1) PostingListGroup.new).current.value ≤
      (ps.getD i PostingListGroup.new).current.value :=
    sorted_getD_mono hs hge hi
  have h2 : (ps.getD i PostingListGroup.new).current.value ≤ 2 * Y + 1 := by
    apply holder_current_le
    · apply hwf
      exact mem_iff_getD.mpr ⟨i, hi, rfl⟩
    · exact hP
  omega

theorem innerLoop_succ (required fuel : Nat) (gs : List PostingListGroup) (r : Finset Nat) :
    innerLoop required (fuel + 1) gs r =
      if ((sortGroups gs).getD (required - 1) PostingListGroup.new).empty then r
      else innerLoop required fuel (innerBody required (sortGroups gs) r).1
        (innerBody required (sortGroups gs) r).2 := rfl

/-- If a group at position `i₀` of the working set holds a remaining negative
entry with id `Y` and the round leaves position `i₀` alone or advances it with
a target at most `Y`, the negative entry is still held after the round. -/
theorem negholder_in_body {required Y : Nat} {ps : List PostingListGroup} {r : Finset Nat}
    (hreq : 1 ≤ required) (hlen : required ≤ ps.length) (hwf : ∀ g ∈ ps, g.WF)
    {i₀ : Nat} (hi₀ : i₀ < ps.length)
    (hupdate : (innerBody required ps r).1.getD i₀ PostingListGroup.new =
        ps.getD i₀ PostingListGroup.new ∨
      ∃ t, t ≤ Y ∧ (innerBody required ps r).1.getD i₀ PostingListGroup.new =
        (ps.getD i₀ PostingListGroup.new).skipTo t)
    (hneg : hasRemNegId Y (ps.getD i₀ PostingListGroup.new) = true) :
    ∃ g' ∈ (innerBody required ps r).1, hasRemNegId Y g' = true := by
  have hwf_i : (ps.getD i₀ PostingListGroup.new).WF := by
    apply hwf
    exact mem_iff_getD.mpr ⟨i₀, hi₀, rfl⟩
  have hmem : (innerBody required ps r).1.getD i₀ PostingListGroup.new ∈
      (innerBody required ps r).1 := by
    apply mem_iff_getD.mpr
    refine ⟨i₀, ?_, rfl⟩
    rw [innerBody_length r hreq hlen]
    exact hi₀
  refine ⟨_, hmem, ?_⟩
  rcases hupdate with hsame | ⟨t, ht, hskip⟩
  · rw [hsame]
    exact hneg
  · rw [hskip]
    exact negholder_persist hwf_i ht hneg

/-- Soundness of the inner merge: every id the loop adds (beyond the incoming
result set) satisfies the emission condition of the entry working set. -/
theorem innerLoop_sound (required : Nat) (hreq : 1 ≤ required) :
    ∀ (fuel : Nat) (gs : List PostingListGroup) (r : Finset Nat),
      (∀ g ∈ gs, g.WF) → required ≤ gs.length →
      ∀ d ∈ innerLoop required fuel gs r,
        d ∈ r ∨ ∃ Y, emitOK required gs Y ∧ d = Y >>> 16 := by
  intro fuel
  induction fuel with
  | zero =>
    intro gs r _ _ d hd
    exact Or.inl (by simpa [innerLoop] using hd)
  | succ fuel ih =>
    intro gs r hwf hlen d hd
    rw [innerLoop_succ] at hd
    have hperm := sortGroups_perm gs
    have hs := sortGroups_sorted gs
    have hwf' : ∀ g ∈ sortGroups gs, g.WF := fun g hg => hwf g (hperm.mem_iff.mp hg)
    have hlen' : required ≤ (sortGroups gs).length := by
      rw [sortGroups_length]
      exact hlen
    by_cases hguard : ((sortGroups gs).getD (required - 1) PostingListGroup.new).empty
    · rw [if_pos hguard] at hd
      exact Or.inl hd
    · rw [if_neg hguard] at hd
      set ps := sortGroups gs with hps
      have hwfb : ∀ g ∈ (innerBody required ps r).1, g.WF := innerBody_WF r hreq hlen' hwf'
      have hlenb : required ≤ (innerBody required ps r).1.length := by
        rw [innerBody_length r hreq hlen']
        exact hlen'
      rcases ih (innerBody required ps r).1 (innerBody required ps r).2 hwfb hlenb d hd with
        hdr | ⟨Y, hok, hdY⟩
      · -- the id was added by this round (or was already in `r`)
        by_cases hagree : (ps.getD 0 PostingListGroup.new).current.id =
            (ps.getD (required - 1) PostingListGroup.new).current.id
        · by_cases hneg : (ps.getD 0 PostingListGroup.new).current.isNegative
          · rw [innerBody_eq_veto r hreq hlen' hagree hneg] at hdr
            exact Or.inl hdr
          · have hnegF : (ps.getD 0 PostingListGroup.new).current.isNegative = false :=
              Bool.eq_false_iff.mpr hneg
            rw [innerBody_eq_match r hagree hnegF] at hdr
            rcases Finset.mem_insert.mp hdr with rfl | hdr
            · -- the match emission
              refine Or.inr ⟨(ps.getD (required - 1) PostingListGroup.new).current.id, ?_, ?_⟩
              · rw [← emitOK_perm hperm]
                constructor
                · -- at least `required` holders: the first `required` sorted groups
                  apply countP_ge_of_first _ _ required hlen'
                  intro i hi
                  have hi' : i < ps.length := by omega
                  have hmono1 : (ps.getD 0 PostingListGroup.new).current.value ≤
                      (ps.getD i PostingListGroup.new).current.value :=
                    sorted_getD_mono hs (Nat.zero_le i) hi'
                  have hmono2 : (ps.getD i PostingListGroup.new).current.value ≤
                      (ps.getD (required - 1) PostingListGroup.new).current.value :=
                    sorted_getD_mono hs (by omega) (by omega)
                  have hwf_r : (ps.getD (required - 1) PostingListGroup.new).WF := by
                    apply hwf'
                    exact mem_iff_getD.mpr ⟨required - 1, by omega, rfl⟩
                  have hwf_i : (ps.getD i PostingListGroup.new).WF := by
                    apply hwf'
                    exact mem_iff_getD.mpr ⟨i, hi', rfl⟩
                  have hrmax : (ps.getD (required - 1) PostingListGroup.new).current.value <
                      Entry.max.value := by
                    have h1 := WF_current_le_max hwf_r
                    have h2 := Entry.ne_iff_value.mp (group_not_max_of_not_empty
                      (Bool.eq_false_iff.mpr hguard))
                    omega
                  have himax : (ps.getD i PostingListGroup.new).current ≠ Entry.max := by
                    rw [Entry.ne_iff_value]
                    omega
                  have hcur := PostingListGroup.current_remMem hwf_i himax
                  have hidlow := Entry.id_le_of_value_le hmono1
                  have hidhigh := Entry.id_le_of_value_le hmono2
                  rw [show (default : PostingListGroup) = PostingListGroup.new from rfl]
                  apply (hasRemId_iff _ _).mpr
                  refine ⟨(ps.getD i PostingListGroup.new).current, hcur, ?_⟩
                  omega
                · -- no remaining negative entry with this id anywhere
                  intro g hg
                  rw [Bool.eq_false_iff]
                  intro habs
                  have h1 := negholder_current_le (hwf' g hg) habs
                  have h2 := sorted_min_le_mem hs hg
                  have h3 : (ps.getD 0 PostingListGroup.new).current.value =
                      2 * (ps.getD 0 PostingListGroup.new).current.id + 1 :=
                    Entry.value_of_not_negative hnegF
                  rw [hagree] at h3
                  omega
              · exact (Entry.documentId_eq_id_shift _).symm ▸ rfl
            · exact Or.inl hdr
        · rw [innerBody_eq_diff r hagree] at hdr
          exact Or.inl hdr
      · -- the id was added by a later round: transfer the emission condition
        refine Or.inr ⟨Y, ?_, hdY⟩
        rw [← emitOK_perm hperm]
        have hcount : required ≤ ps.countP (hasRemId Y) :=
          le_trans hok.1 (innerBody_countP_le r hreq hlen' hwf' Y)
        refine ⟨hcount, ?_⟩
        intro g hg
        rw [Bool.eq_false_iff]
        intro habs
        obtain ⟨i₀, hi₀, hget⟩ := mem_iff_getD.mp hg
        rw [show (default : PostingListGroup) = PostingListGroup.new from rfl] at hget
        rw [← hget] at habs
        -- the current minimum id is at most `Y`
        have hwf_0 : (ps.getD i₀ PostingListGroup.new).WF := by
          apply hwf'
          exact mem_iff_getD.mpr ⟨i₀, hi₀, rfl⟩
        have hYlow : (ps.getD 0 PostingListGroup.new).current.id ≤ Y := by
          have h1 := negholder_current_le hwf_0 habs
          have h2 : (ps.getD 0 PostingListGroup.new).current.value ≤
              (ps.getD i₀ PostingListGroup.new).current.value :=
            sorted_getD_mono hs (Nat.zero_le i₀) hi₀
          exact Entry.id_le_of_value_le_double (by omega)
        have habsurd : ∀ g' ∈ (innerBody required ps r).1, hasRemNegId Y g' = true → False := by
          intro g' hg' hneg'
          have := hok.2 g' hg'
          rw [hneg'] at this
          cases this
        by_cases hagree : (ps.getD 0 PostingListGroup.new).current.id =
            (ps.getD (required - 1) PostingListGroup.new).current.id
        · by_cases hneg : (ps.getD 0 PostingListGroup.new).current.isNegative
          · -- veto branch
            obtain ⟨hchar1, hchar2⟩ := innerBody_veto_getD r hreq hlen' hagree hneg
            by_cases hYeq : (ps.getD 0 PostingListGroup.new).current.id = Y
            · -- the veto id itself: the round removes every holder of it
              have hzero : ∀ i < ps.length,
                  hasRemId Y ((innerBody required ps r).1.getD i PostingListGroup.new) =
                    false := by
                intro i hi
                have hwf_i : (ps.getD i PostingListGroup.new).WF := by
                  apply hwf'
                  exact mem_iff_getD.mpr ⟨i, hi, rfl⟩
                by_cases hir : i < required
                · rw [hchar1 i hir, ← hYeq]
                  exact no_holder_skipTo_high hwf_i (by omega)
                · rw [hchar2 i hi (by omega)]
                  by_cases hcond : ∀ m < i + 1, required ≤ m →
                      (ps.getD m PostingListGroup.new).current.id =
                        (ps.getD 0 PostingListGroup.new).current.id
                  · rw [if_pos hcond, ← hYeq]
                    exact no_holder_skipTo_high hwf_i (by omega)
                  · rw [if_neg hcond]
                    push_neg at hcond
                    obtain ⟨m, hm, hrm, hmne⟩ := hcond
                    have hmono0 : (ps.getD 0 PostingListGroup.new).current.value ≤
                        (ps.getD m PostingListGroup.new).current.value :=
                      sorted_getD_mono hs (Nat.zero_le m) (by omega)
                    have hidm : (ps.getD 0 PostingListGroup.new).current.id ≤
                        (ps.getD m PostingListGroup.new).current.id :=
                      Entry.id_le_of_value_le hmono0
                    have hmgt : (ps.getD 0 PostingListGroup.new).current.id <
                        (ps.getD m PostingListGroup.new).current.id := by
                      rcases Nat.lt_or_ge (ps.getD 0 PostingListGroup.new).current.id
                        (ps.getD m PostingListGroup.new).current.id with h | h
                      · exact h
                      · exact absurd (by omega) hmne.symm
                    have hmonoi : (ps.getD m PostingListGroup.new).current.value ≤
                        (ps.getD i PostingListGroup.new).current.value :=
                      sorted_getD_mono hs (by omega) hi
                    have hvm := Entry.two_mul_id_le_value
                      (ps.getD m PostingListGroup.new).current
                    rw [Bool.eq_false_iff]
                    intro hP
                    have := holder_current_le hwf_i hP
                    omega
              have hcz : (innerBody required ps r).1.countP (hasRemId Y) ≤ 0 := by
                apply countP_le_of_positions
                intro i hi hP
                rw [innerBody_length r hreq hlen'] at hi
                rw [show (default : PostingListGroup) = PostingListGroup.new from rfl] at hP
                rw [hzero i hi] at hP
                cases hP
              have := hok.1
              omega
            · -- a later id: all the round's targets stay at or below `Y`
              have hYlt : (ps.getD 0 PostingListGroup.new).current.id < Y := by omega
              have hupdate : (innerBody required ps r).1.getD i₀ PostingListGroup.new =
                  ps.getD i₀ PostingListGroup.new ∨
                  ∃ t, t ≤ Y ∧ (innerBody required ps r).1.getD i₀ PostingListGroup.new =
                    (ps.getD i₀ PostingListGroup.new).skipTo t := by
                by_cases hir : i₀ < required
                · exact Or.inr ⟨(ps.getD 0 PostingListGroup.new).current.id + 1,
                    by omega, hchar1 i₀ hir⟩
                · rw [hchar2 i₀ hi₀ (by omega)]
                  by_cases hcond : ∀ m < i₀ + 1, required ≤ m →
                      (ps.getD m PostingListGroup.new).current.id =
                        (ps.getD 0 PostingListGroup.new).current.id
                  · rw [if_pos hcond]
                    exact Or.inr ⟨(ps.getD 0 PostingListGroup.new).current.id + 1,
                      by omega, rfl⟩
                  · rw [if_neg hcond]
                    exact Or.inl rfl
              obtain ⟨g', hg', hneg'⟩ := negholder_in_body hreq hlen' hwf' hi₀ hupdate habs
              exact habsurd g' hg' hneg'
          · -- match branch
            have hnegF := Bool.eq_false_iff.mpr hneg
            have hY₀lt : (ps.getD 0 PostingListGroup.new).current.id < Y := by
              have hv0 := Entry.value_of_not_negative hnegF
              have h1 := negholder_current_le hwf_0 habs
              have h2 : (ps.getD 0 PostingListGroup.new).current.value ≤
                  (ps.getD i₀ PostingListGroup.new).current.value :=
                sorted_getD_mono hs (Nat.zero_le i₀) hi₀
              omega
            have hbody := innerBody_eq_match r hagree hnegF
            have hupdate : (innerBody required ps r).1.getD i₀ PostingListGroup.new =
                ps.getD i₀ PostingListGroup.new ∨
                ∃ t, t ≤ Y ∧ (innerBody required ps r).1.getD i₀ PostingListGroup.new =
                  (ps.getD i₀ PostingListGroup.new).skipTo t := by
              rw [hbody]
              by_cases hir : i₀ < required
              · refine Or.inr ⟨(ps.getD (required - 1) PostingListGroup.new).current.id + 1,
                  by omega, ?_⟩
                exact uniformSkip_getD_lt _ hir hi₀
              · exact Or.inl (uniformSkip_getD_ge _ (by omega))
            obtain ⟨g', hg', hneg'⟩ := negholder_in_body hreq hlen' hwf' hi₀ hupdate habs
            exact habsurd g' hg' hneg'
        · -- catch-up branch
          by_cases hTY : (ps.getD (required - 1) PostingListGroup.new).current.id ≤ Y
          · have hbody := innerBody_eq_diff r hagree
            have hupdate : (innerBody required ps r).1.getD i₀ PostingListGroup.new =
                ps.getD i₀ PostingListGroup.new ∨
                ∃ t, t ≤ Y ∧ (innerBody required ps r).1.getD i₀ PostingListGroup.new =
                  (ps.getD i₀ PostingListGroup.new).skipTo t := by
              rw [hbody]
              by_cases hir : i₀ < required
              · exact Or.inr ⟨(ps.getD (required - 1) PostingListGroup.new).current.id,
                  hTY, uniformSkip_getD_lt _ hir hi₀⟩
              · exact Or.inl (uniformSkip_getD_ge _ (by omega))
            obtain ⟨g', hg', hneg'⟩ := negholder_in_body hreq hlen' hwf' hi₀ hupdate habs
            exact habsurd g' hg' hneg'
          · -- the catch-up target is beyond `Y`: too few holders remain
            push_neg at hTY
            have hvalgt : 2 * Y + 1 <
                (ps.getD (required - 1) PostingListGroup.new).current.value := by
              have := Entry.two_mul_id_le_value
                (ps.getD (required - 1) PostingListGroup.new).current
              omega
            have h1 := count_lt_of_value_gt hs hwf' hreq hlen' hvalgt
            have h2 := innerBody_countP_le r hreq hlen' hwf' Y
            have h3 := hok.1
            omega

/-- Completeness of the inner merge: with sufficient fuel, every id meeting
the emission condition of the working set gets its document id added. -/
theorem innerLoop_complete (required : Nat) (hreq : 1 ≤ required) :
    ∀ (fuel : Nat) (gs : List PostingListGroup) (r : Finset Nat) (Y : Nat),
      (∀ g ∈ gs, g.WF) → required ≤ gs.length → emitOK required gs Y →
      totalRem gs < fuel →
      Y >>> 16 ∈ innerLoop required fuel gs r := by
  intro fuel
  induction fuel with
  | zero =>
    intro gs r Y _ _ _ hfuel
    omega
  | succ fuel ih =>
    intro gs r Y hwf hlen hok hfuel
    rw [innerLoop_succ]
    have hperm := sortGroups_perm gs
    have hs := sortGroups_sorted gs
    have hwf' : ∀ g ∈ sortGroups gs, g.WF := fun g hg => hwf g (hperm.mem_iff.mp hg)
    have hlen' : required ≤ (sortGroups gs).length := by
      rw [sortGroups_length]
      exact hlen
    set ps := sortGroups gs with hps
    have hok' : emitOK required ps Y := (emitOK_perm hperm required Y).mpr hok
    have hguard := guard_ok_of_count hs hwf' hreq hlen' hok'.1
    rw [if_neg (by rw [hguard]; simp)]
    have htr : totalRem ps = totalRem gs := by
      unfold totalRem
      exact (hperm.map PostingListGroup.totalRem).sum_eq
    have hvreq := value_bound_at_req hs hwf' hreq hlen' hok'.1
    have hidreq : (ps.getD (required - 1) PostingListGroup.new).current.id ≤ Y :=
      Entry.id_le_of_value_le_double hvreq
    have h0req_val : (ps.getD 0 PostingListGroup.new).current.value ≤
        (ps.getD (required - 1) PostingListGroup.new).current.value :=
      sorted_getD_mono hs (Nat.zero_le _) (by omega)
    have hY₀req : (ps.getD 0 PostingListGroup.new).current.id ≤
        (ps.getD (required - 1) PostingListGroup.new).current.id :=
      Entry.id_le_of_value_le h0req_val
    have hwf_0 : (ps.getD 0 PostingListGroup.new).WF := by
      apply hwf'
      exact mem_iff_getD.mpr ⟨0, by omega, rfl⟩
    have h0ne : (ps.getD 0 PostingListGroup.new).current ≠ Entry.max := by
      obtain ⟨iₕ, hiₕ, hPiₕ⟩ := countP_pos_exists (le_trans hreq hok'.1)
      rw [show (default : PostingListGroup) = PostingListGroup.new from rfl] at hPiₕ
      have hwf_h : (ps.getD iₕ PostingListGroup.new).WF := by
        apply hwf'
        exact mem_iff_getD.mpr ⟨iₕ, hiₕ, rfl⟩
      have hvh := holder_current_lt_max hwf_h hPiₕ
      have hmono : (ps.getD 0 PostingListGroup.new).current.value ≤
          (ps.getD iₕ PostingListGroup.new).current.value :=
        sorted_getD_mono hs (Nat.zero_le _) hiₕ
      rw [Entry.ne_iff_value]
      omega
    by_cases hYeq : (ps.getD 0 PostingListGroup.new).current.id = Y
    · -- this round emits `Y`
      have hagree : (ps.getD 0 PostingListGroup.new).current.id =
          (ps.getD (required - 1) PostingListGroup.new).current.id := by omega
      have h0mem := PostingListGroup.current_remMem hwf_0 h0ne
      have hposF : (ps.getD 0 PostingListGroup.new).current.isNegative = false := by
        rw [Bool.eq_false_iff]
        intro hneg
        have hhneg : hasRemNegId Y (ps.getD 0 PostingListGroup.new) = true :=
          (hasRemNegId_iff Y _).mpr ⟨_, h0mem, hYeq, hneg⟩
        have hmem0 : ps.getD 0 PostingListGroup.new ∈ ps :=
          mem_iff_getD.mpr ⟨0, by omega, rfl⟩
        have hf := hok'.2 _ hmem0
        rw [hhneg] at hf
        cases hf
      rw [innerBody_eq_match r hagree hposF]
      have hdoc : (ps.getD (required - 1) PostingListGroup.new).current.documentId =
          Y >>> 16 := by
        rw [Entry.documentId_eq_id_shift]
        congr 1
        omega
      rw [innerLoop_union]
      apply Finset.mem_union_left
      rw [hdoc.symm] at *
      exact Finset.mem_insert_self _ _
    · -- the minimum id is still below `Y`: recurse
      have hY₀lt : (ps.getD 0 PostingListGroup.new).current.id < Y := by omega
      have hwfb : ∀ g ∈ (innerBody required ps r).1, g.WF := innerBody_WF r hreq hlen' hwf'
      have hlenb : required ≤ (innerBody required ps r).1.length := by
        rw [innerBody_length r hreq hlen']
        exact hlen'
      -- every target this round is at most `Y`; at position 0 it is above the
      -- current minimum id
      have hupdates : (∀ i < ps.length,
          (innerBody required ps r).1.getD i PostingListGroup.new =
            ps.getD i PostingListGroup.new ∨
          ∃ t, t ≤ Y ∧ (innerBody required ps r).1.getD i PostingListGroup.new =
            (ps.getD i PostingListGroup.new).skipTo t) ∧
          ∃ t₀, (ps.getD 0 PostingListGroup.new).current.id < t₀ ∧
            (innerBody required ps r).1.getD 0 PostingListGroup.new =
              (ps.getD 0 PostingListGroup.new).skipTo t₀ := by
        by_cases hagree : (ps.getD 0 PostingListGroup.new).current.id =
            (ps.getD (required - 1) PostingListGroup.new).current.id
        · by_cases hneg : (ps.getD 0 PostingListGroup.new).current.isNegative
          · obtain ⟨hchar1, hchar2⟩ := innerBody_veto_getD r hreq hlen' hagree hneg
            constructor
            · intro i hi
              by_cases hir : i < required
              · exact Or.inr ⟨(ps.getD 0 PostingListGroup.new).current.id + 1,
                  by omega, hchar1 i hir⟩
              · rw [hchar2 i hi (by omega)]
                by_cases hcond : ∀ m < i + 1, required ≤ m →
                    (ps.getD m PostingListGroup.new).current.id =
                      (ps.getD 0 PostingListGroup.new).current.id
                · rw [if_pos hcond]
                  exact Or.inr ⟨(ps.getD 0 PostingListGroup.new).current.id + 1,
                    by omega, rfl⟩
                · rw [if_neg hcond]
                  exact Or.inl rfl
            · exact ⟨(ps.getD 0 PostingListGroup.new).current.id + 1, by omega,
                hchar1 0 (by omega)⟩
          · have hnegF := Bool.eq_false_iff.mpr hneg
            have hbody := innerBody_eq_match r hagree hnegF
            constructor
            · intro i hi
              rw [hbody]
              by_cases hir : i < required
              · exact Or.inr ⟨(ps.getD (required - 1) PostingListGroup.new).current.id + 1,
                  by omega, uniformSkip_getD_lt _ hir hi⟩
              · exact Or.inl (uniformSkip_getD_ge _ (by omega))
            · rw [hbody]
              exact ⟨(ps.getD (required - 1) PostingListGroup.new).current.id + 1,
                by omega, uniformSkip_getD_lt _ (by omega) (by omega)⟩
        · have hbody := innerBody_eq_diff r hagree
          have hTgt : (ps.getD 0 PostingListGroup.new).current.id <
              (ps.getD (required - 1) PostingListGroup.new).current.id := by
            omega
          constructor
          · intro i hi
            rw [hbody]
            by_cases hir : i < required
            · exact Or.inr ⟨(ps.getD (required - 1) PostingListGroup.new).current.id,
                hidreq, uniformSkip_getD_lt _ hir hi⟩
            · exact Or.inl (uniformSkip_getD_ge _ (by omega))
          · rw [hbody]
            exact ⟨(ps.getD (required - 1) PostingListGroup.new).current.id, hTgt,
              uniformSkip_getD_lt _ (by omega) (by omega)⟩
      have hokb : emitOK required (innerBody required ps r).1 Y := by
        constructor
        · apply le_trans hok'.1
          apply countP_mono_pointwise
          · exact (innerBody_length r hreq hlen').symm
          · intro i hi hP
            rw [show (default : PostingListGroup) = PostingListGroup.new from rfl] at hP ⊢
            have hwf_i : (ps.getD i PostingListGroup.new).WF := by
              apply hwf'
              exact mem_iff_getD.mpr ⟨i, hi, rfl⟩
            rcases hupdates.1 i hi with hsame | ⟨t, ht, hskip⟩
            · rw [hsame]
              exact hP
            · rw [hskip]
              exact holder_persist hwf_i ht hP
        · intro g' hg'
          rw [Bool.eq_false_iff]
          intro habs
          obtain ⟨i, hi, hget⟩ := mem_iff_getD.mp hg'
          rw [show (default : PostingListGroup) = PostingListGroup.new from rfl] at hget
          rw [innerBody_length r hreq hlen'] at hi
          have hwf_i : (ps.getD i PostingListGroup.new).WF := by
            apply hwf'
            exact mem_iff_getD.mpr ⟨i, hi, rfl⟩
          have hmem_i : ps.getD i PostingListGroup.new ∈ ps :=
            mem_iff_getD.mpr ⟨i, hi, rfl⟩
          have hfalse := hok'.2 _ hmem_i
          rcases hupdates.1 i hi with hsame | ⟨t, _, hskip⟩
          · rw [← hget, hsame] at habs
            rw [habs] at hfalse
            cases hfalse
          · rw [← hget, hskip] at habs
            have := negholder_back hwf_i habs
            rw [this] at hfalse
            cases hfalse
      have hdec : totalRem (innerBody required ps r).1 < totalRem ps := by
        obtain ⟨t₀, ht₀, h0skip⟩ := hupdates.2
        unfold totalRem
        apply sum_lt_pointwise
        · exact innerBody_length r hreq hlen'
        · intro i hi
          rw [innerBody_length r hreq hlen'] at hi
          rw [show (default : PostingListGroup) = PostingListGroup.new from rfl]
          rcases innerBody_getD_cases r hreq hlen' i hi with hsame | ⟨t, hskip⟩
          · rw [hsame]
          · rw [hskip]
            exact PostingListGroup.totalRem_skipTo_le _ t
        · refine ⟨0, by rw [innerBody_length r hreq hlen']; omega, ?_⟩
          rw [show (default : PostingListGroup) = PostingListGroup.new from rfl]
          rw [h0skip]
          exact PostingListGroup.totalRem_skipTo_lt hwf_0 h0ne ht₀
      exact ih (innerBody required ps r).1 (innerBody required ps r).2 Y hwfb hlenb hokb
        (by omega)

/-! ### Declarative semantics of documents under an assignment -/

section Semantics

variable {Key : Type} [DecidableEq Key]

/-- The values of a predicate (or of one assignment binding), tagged with
their domain. -/
def exprVals (v : Sum (List String) (List Int)) : List (Sum String Int) :=
  match v with
  | Sum.inl svals => svals.map Sum.inl
  | Sum.inr ivals => ivals.map Sum.inr

/-- Domain-dispatched posting-vector lookup. -/
def InvertedIndex.lookupVal (idx : InvertedIndex Key) (key : Key) (v : Sum String Int) :
    List Entry :=
  match v with
  | Sum.inl sv => idx.stringIndex key sv
  | Sum.inr iv => idx.intIndex key iv

/-- `A[k]`: the values the assignment binds to key `k` (empty when unbound;
with distinct keys the binding is unique). -/
def Assignment.valsOf (s : Assignment Key) (k : Key) : List (Sum String Int) :=
  match s.pairs.find? fun pr => decide (pr.1 = k) with
  | some pr => exprVals pr.2
  | none => []

instance : BEq (Sum String Int) := ⟨fun a b => decide (a = b)⟩

instance : LawfulBEq (Sum String Int) :=
  ⟨fun {a b} h => by simpa [BEq.beq] using h, fun {a} => by simp [BEq.beq]⟩

/-- Satisfaction of one predicate under an assignment, as the specification
states it: a positive predicate needs some assigned value in its value set, a
negative predicate needs no assigned value in its value set. -/
def exprSatisfied (s : Assignment Key) (e : Expression Key) : Prop :=
  if e.positive then ∃ v ∈ exprVals e.values, v ∈ s.valsOf e.key
  else ∀ v ∈ s.valsOf e.key, v ∉ exprVals e.values

instance (s : Assignment Key) (e : Expression Key) : Decidable (exprSatisfied s e) :=
  if h : e.positive then
    decidable_of_iff (∃ v ∈ exprVals e.values, v ∈ s.valsOf e.key)
      (by unfold exprSatisfied; rw [if_pos h])
  else
    decidable_of_iff (∀ v ∈ s.valsOf e.key, v ∉ exprVals e.values)
      (by unfold exprSatisfied; rw [if_neg h])

/-- A conjunction holds iff every one of its predicates holds. -/
def conjSatisfied (s : Assignment Key) (c : Conjunction Key) : Prop :=
  ∀ e ∈ c.expressions, exprSatisfied s e

instance (s : Assignment Key) (c : Conjunction Key) : Decidable (conjSatisfied s c) := by
  unfold conjSatisfied
  infer_instance

/-- A document matches iff at least one of its conjunctions holds. -/
def docMatches (s : Assignment Key) (doc : Document Key) : Prop :=
  ∃ c ∈ doc.conjunctions, conjSatisfied s c

instance (s : Assignment Key) (doc : Document Key) : Decidable (docMatches s doc) := by
  unfold docMatches
  infer_instance

theorem find_eq_of_nodup {V : Type _} {pairs : List (Key × V)}
    (hnodup : (pairs.map Prod.fst).Nodup) {pr : Key × V} (hpr : pr ∈ pairs) :
    (pairs.find? fun q => decide (q.1 = pr.1)) = some pr := by
  induction pairs with
  | nil => cases hpr
  | cons q rest ih =>
    rw [List.map_cons] at hnodup
    by_cases hq : q.1 = pr.1
    · rw [List.find?_cons_of_pos _ (by simpa using hq)]
      rcases List.mem_cons.mp hpr with rfl | hmem
      · rfl
      · exfalso
        have : pr.1 ∈ rest.map Prod.fst := List.mem_map.mpr ⟨pr, hmem, rfl⟩
        rw [← hq] at this
        exact (List.nodup_cons.mp hnodup).1 this
    · rw [List.find?_cons_of_neg _ (by simpa using hq)]
      rcases List.mem_cons.mp hpr with rfl | hmem
      · exact absurd rfl hq
      · exact ih (List.nodup_cons.mp hnodup).2 hmem

theorem valsOf_of_mem {pairs : List (Key × Sum (List String) (List Int))}
    (hnodup : (pairs.map Prod.fst).Nodup) {pr : Key × Sum (List String) (List Int)}
    (hpr : pr ∈ pairs) : Assignment.valsOf ⟨pairs⟩ pr.1 = exprVals pr.2 := by
  unfold Assignment.valsOf
  show (match pairs.find? fun q => decide (q.1 = pr.1) with
    | some pr => exprVals pr.2
    | none => []) = _
  rw [find_eq_of_nodup hnodup hpr]

end Semantics

/-! ### Decomposition of the outer retrieval loop -/

section OuterLoop

variable {Key : Type} [DecidableEq Key]

theorem retrieveGo_spec (idx : Indexer Key) (s : Assignment Key) :
    ∀ (i : Nat) (r : Finset Nat) (d : Nat),
      d ∈ Indexer.retrieveGo idx s i r ↔
        d ∈ r ∨ ∃ k ≤ i, d ∈ Indexer.sizeIter idx s k ∅ := by
  intro i
  induction i with
  | zero =>
    intro r d
    show d ∈ Indexer.sizeIter idx s 0 r ↔ _
    rw [sizeIter_union idx s 0 r]
    constructor
    · intro h
      rcases Finset.mem_union.mp h with h | h
      · exact Or.inl h
      · exact Or.inr ⟨0, Nat.le_refl 0, h⟩
    · intro h
      rcases h with h | ⟨k, hk, h⟩
      · exact Finset.mem_union_left _ h
      · have : k = 0 := by omega
        subst this
        exact Finset.mem_union_right _ h
  | succ i ih =>
    intro r d
    show d ∈ Indexer.retrieveGo idx s i (Indexer.sizeIter idx s (i + 1) r) ↔ _
    rw [ih]
    rw [sizeIter_union idx s (i + 1) r]
    constructor
    · intro h
      rcases h with h | ⟨k, hk, h⟩
      · rcases Finset.mem_union.mp h with h | h
        · exact Or.inl h
        · exact Or.inr ⟨i + 1, Nat.le_refl _, h⟩
      · exact Or.inr ⟨k, by omega, h⟩
    · intro h
      rcases h with h | ⟨k, hk, h⟩
      · exact Or.inl (Finset.mem_union_left _ h)
      · rcases Nat.lt_or_ge k (i + 1) with hlt | hge
        · exact Or.inr ⟨k, by omega, h⟩
        · have : k = i + 1 := by omega
          subst this
          exact Or.inl (Finset.mem_union_right _ h)

theorem retrieve_spec (idx : Indexer Key) (s : Assignment Key) (d : Nat) :
    d ∈ idx.retrieve ∅ s ↔
      idx.indexs.length ≠ 0 ∧
        ∃ k ≤ min (idx.indexs.length - 1) s.size, d ∈ Indexer.sizeIter idx s k ∅ := by
  unfold Indexer.retrieve
  by_cases h : idx.indexs.length = 0
  · rw [if_pos h]
    simp [h]
  · rw [if_neg h]
    rw [retrieveGo_spec]
    simp only [Finset.not_mem_empty, false_or]
    constructor
    · intro hk
      exact ⟨h, hk⟩
    · intro hk
      exact hk.2

end OuterLoop

/-! ### Characterisation of `Indexer::build` -/

section BuildChar

variable {Key : Type} [DecidableEq Key]

/-- Posting-vector lookup in the per-size index vector (out-of-range sizes
read the default-constructed, i.e. empty, index). -/
def stLookup (st : List (InvertedIndex Key)) (k : Nat) (key : Key) (v : Sum String Int) :
    List Entry :=
  (st.getD k InvertedIndex.emptyIdx).lookupVal key v

theorem mem_addEntry {T : Type} [DecidableEq T] (entry : Entry) (key : Key) :
    ∀ (vals : List T) (idx : InvertedIndexImpl Key T) (k' : Key) (v' : T) (e : Entry),
      e ∈ (idx.addEntry entry key vals) k' v' ↔
        e ∈ idx k' v' ∨ (k' = key ∧ v' ∈ vals ∧ e = entry) := by
  intro vals
  induction vals with
  | nil =>
    intro idx k' v' e
    simp [InvertedIndexImpl.addEntry]
  | cons v vs ih =>
    intro idx k' v' e
    have hstep : InvertedIndexImpl.addEntry idx entry key (v :: vs) =
        InvertedIndexImpl.addEntry
          (fun k'' v'' => if k'' = key ∧ v'' = v then idx k'' v'' ++ [entry] else idx k'' v'')
          entry key vs := rfl
    rw [hstep, ih]
    by_cases hc : k' = key ∧ v' = v
    · rw [if_pos hc]
      simp only [List.mem_append, List.mem_singleton, List.mem_cons]
      constructor
      · rintro ((h | h) | h)
        · exact Or.inl h
        · rcases h with h | h
          · exact Or.inr ⟨hc.1, Or.inl hc.2, h⟩
          · cases h
        · exact Or.inr ⟨h.1, Or.inr h.2.1, h.2.2⟩
      · rintro (h | ⟨h1, h2, h3⟩)
        · exact Or.inl (Or.inl h)
        · exact Or.inl (Or.inr (Or.inl h3))
    · rw [if_neg hc]
      constructor
      · rintro (h | ⟨h1, h2, h3⟩)
        · exact Or.inl h
        · exact Or.inr ⟨h1, List.mem_cons_of_mem _ h2, h3⟩
      · rintro (h | ⟨h1, h2, h3⟩)
        · exact Or.inl h
        · rcases List.mem_cons.mp h2 with rfl | h2
          · exact absurd ⟨h1, rfl⟩ hc
          · exact Or.inr ⟨h1, h2, h3⟩

theorem mem_addEntry_lookupVal (idx : InvertedIndex Key) (entry : Entry) (key : Key)
    (values : Sum (List String) (List Int)) (k' : Key) (v' : Sum String Int) (e : Entry) :
    e ∈ (idx.addEntry entry key values).lookupVal k' v' ↔
      e ∈ idx.lookupVal k' v' ∨ (k' = key ∧ v' ∈ exprVals values ∧ e = entry) := by
  cases values with
  | inl svals =>
    cases v' with
    | inl sv =>
      show e ∈ (idx.stringIndex.addEntry entry key svals) k' sv ↔ _
      rw [mem_addEntry]
      unfold exprVals
      simp [InvertedIndex.lookupVal]
    | inr iv =>
      show e ∈ idx.intIndex k' iv ↔ _
      unfold exprVals
      simp [InvertedIndex.lookupVal]
  | inr ivals =>
    cases v' with
    | inl sv =>
      show e ∈ idx.stringIndex k' sv ↔ _
      unfold exprVals
      simp [InvertedIndex.lookupVal]
    | inr iv =>
      show e ∈ (idx.intIndex.addEntry entry key ivals) k' iv ↔ _
      rw [mem_addEntry]
      unfold exprVals
      simp [InvertedIndex.lookupVal]

theorem emptyIdx_lookupVal (key : Key) (v : Sum String Int) :
    (InvertedIndex.emptyIdx).lookupVal key v = [] := by
  cases v <;> rfl

theorem resizeTo_getD (st : List (InvertedIndex Key)) (n k : Nat) :
    (resizeTo st n).getD k InvertedIndex.emptyIdx = st.getD k InvertedIndex.emptyIdx := by
  unfold resizeTo
  by_cases h : st.length < n
  · rw [if_pos h]
    rcases Nat.lt_or_ge k st.length with hk | hk
    · rw [List.getD_eq_getElem?_getD, List.getElem?_append_left hk,
        ← List.getD_eq_getElem?_getD]
    · rw [List.getD_eq_getElem?_getD (st ++ _), List.getD_eq_getElem?_getD st,
        List.getElem?_eq_none hk]
      rcases Nat.lt_or_ge k (st.length + (n - st.length)) with hk2 | hk2
      · rw [List.getElem?_append_right hk]
        have hrep : k - st.length < n - st.length := by omega
        rw [List.getElem?_replicate]
        rw [if_pos hrep]
        rfl
      · rw [List.getElem?_eq_none (by simpa using hk2)]
  · rw [if_neg h]

theorem resizeTo_length (st : List (InvertedIndex Key)) (n : Nat) :
    (resizeTo st n).length = max st.length n := by
  unfold resizeTo
  by_cases h : st.length < n
  · rw [if_pos h]
    simp
    omega
  · rw [if_neg h]
    omega

theorem stLookup_buildAddExpr (st : List (InvertedIndex Key)) (entry : Entry)
    (size : Nat) (ex : Expression Key) (k : Nat) (key : Key) (v : Sum String Int) (e : Entry) :
    e ∈ stLookup (buildAddExpr st entry size ex) k key v ↔
      e ∈ stLookup st k key v ∨
        (k = size ∧ ex.key = key ∧ v ∈ exprVals ex.values ∧ e = entry) := by
  unfold buildAddExpr stLookup
  have hlen : size < (resizeTo st (size + 1)).length := by
    rw [resizeTo_length]
    omega
  by_cases hk : k = size
  · subst hk
    rw [List.getD_eq_getElem?_getD, List.getElem?_set_self (by omega)]
    show e ∈ (((resizeTo st (k + 1)).getD k InvertedIndex.emptyIdx).addEntry entry
      ex.key ex.values).lookupVal key v ↔ _
    rw [mem_addEntry_lookupVal, resizeTo_getD]
    constructor
    · rintro (h | ⟨h1, h2, h3⟩)
      · exact Or.inl h
      · exact Or.inr ⟨rfl, h1.symm, h2, h3⟩
    · rintro (h | ⟨_, h1, h2, h3⟩)
      · exact Or.inl h
      · exact Or.inr ⟨h1.symm, h2, h3⟩
  · rw [List.getD_eq_getElem?_getD, List.getElem?_set_ne (by omega),
      ← List.getD_eq_getElem?_getD, resizeTo_getD]
    constructor
    · exact fun h => Or.inl h
    · rintro (h | ⟨h1, _⟩)
      · exact h
      · exact absurd h1 hk

theorem buildAddExpr_length (st : List (InvertedIndex Key)) (entry : Entry) (size : Nat)
    (ex : Expression Key) :
    (buildAddExpr st entry size ex).length = max st.length (size + 1) := by
  unfold buildAddExpr
  rw [List.length_set, resizeTo_length]

/-- The state fold of `Indexer::build`, before the final sorts. -/
def buildFold (docs : List (Document Key)) : List (InvertedIndex Key) × List Entry :=
  docs.enum.foldl
    (fun st p => p.2.conjunctions.enum.foldl (fun st2 q => buildAddConjunction st2 p.1 q.1 q.2) st)
    ([], [])

theorem build_eq_buildFold (docs : List (Document Key)) :
    Indexer.build docs =
      ⟨(buildFold docs).1.map InvertedIndex.buildSort,
        (buildFold docs).2.insertionSort fun a b => a.value ≤ b.value⟩ := rfl

/-- The default conjunction used for positional access. -/
def emptyConj : Conjunction Key := ⟨[]⟩

/-- The default document used for positional access. -/
def emptyDoc : Document Key := ⟨[]⟩

/-- The conjunction `j` of document `i`. -/
def conjAt (docs : List (Document Key)) (i j : Nat) : Conjunction Key :=
  (docs.getD i emptyDoc).conjunctions.getD j emptyConj

/-- Which entries the build distributes into the size-`k` posting vector of
`(key, v)`. -/
def entrySpec (docs : List (Document Key)) (k : Nat) (key : Key) (v : Sum String Int)
    (e : Entry) : Prop :=
  ∃ i, ∃ _ : i < docs.length, ∃ j, ∃ _ : j < (docs.getD i emptyDoc).conjunctions.length,
    ∃ ex ∈ (conjAt docs i j).expressions,
      getConjunctionSize (conjAt docs i j) = k ∧ ex.key = key ∧ v ∈ exprVals ex.values ∧
        e = Entry.make i j ex.positive

/-- Which entries the build appends to the zero list. -/
def zSpec (docs : List (Document Key)) (e : Entry) : Prop :=
  ∃ i, ∃ _ : i < docs.length, ∃ j, ∃ _ : j < (docs.getD i emptyDoc).conjunctions.length,
    getConjunctionSize (conjAt docs i j) = 0 ∧ e = Entry.make i j true

theorem stLookup_exprs_fold (i j size : Nat) (k : Nat) (key : Key) (v : Sum String Int)
    (e : Entry) :
    ∀ (exprs : List (Expression Key)) (st : List (InvertedIndex Key)),
      e ∈ stLookup (exprs.foldl
          (fun acc ex => buildAddExpr acc (Entry.make i j ex.positive) size ex) st) k key v ↔
        e ∈ stLookup st k key v ∨
          ∃ ex ∈ exprs, k = size ∧ ex.key = key ∧ v ∈ exprVals ex.values ∧
            e = Entry.make i j ex.positive := by
  intro exprs
  induction exprs with
  | nil =>
    intro st
    simp
  | cons ex exs ih =>
    intro st
    rw [List.foldl_cons, ih, stLookup_buildAddExpr]
    constructor
    · rintro ((h | h) | ⟨ex', hex', h⟩)
      · exact Or.inl h
      · exact Or.inr ⟨ex, List.mem_cons_self _ _, h⟩
      · exact Or.inr ⟨ex', List.mem_cons_of_mem _ hex', h⟩
    · rintro (h | ⟨ex', hex', h⟩)
      · exact Or.inl (Or.inl h)
      · rcases List.mem_cons.mp hex' with rfl | hex'
        · exact Or.inl (Or.inr h)
        · exact Or.inr ⟨ex', hex', h⟩

theorem exprs_fold_length_mono (i j size : Nat) :
    ∀ (exprs : List (Expression Key)) (st : List (InvertedIndex Key)),
      st.length ≤ (exprs.foldl
        (fun acc ex => buildAddExpr acc (Entry.make i j ex.positive) size ex) st).length := by
  intro exprs
  induction exprs with
  | nil => intro st; exact Nat.le_refl _
  | cons ex exs ih =>
    intro st
    rw [List.foldl_cons]
    have h1 := ih (buildAddExpr st (Entry.make i j ex.positive) size ex)
    rw [buildAddExpr_length] at h1
    omega

theorem exprs_fold_length_ge (i j size : Nat) :
    ∀ (exprs : List (Expression Key)) (st : List (InvertedIndex Key)), exprs ≠ [] →
      size + 1 ≤ (exprs.foldl
        (fun acc ex => buildAddExpr acc (Entry.make i j ex.positive) size ex) st).length := by
  intro exprs
  induction exprs with
  | nil => intro st h; exact absurd rfl h
  | cons ex exs ih =>
    intro st _
    rw [List.foldl_cons]
    have h1 := exprs_fold_length_mono i j size exs
      (buildAddExpr st (Entry.make i j ex.positive) size ex)
    rw [buildAddExpr_length] at h1
    omega

theorem buildAddConjunction_fst (st : List (InvertedIndex Key) × List Entry) (i j : Nat)
    (c : Conjunction Key) :
    (buildAddConjunction st i j c).1 = c.expressions.foldl
      (fun acc ex => buildAddExpr acc (Entry.make i j ex.positive) (getConjunctionSize c) ex)
      st.1 := rfl

theorem buildAddConjunction_snd (st : List (InvertedIndex Key) × List Entry) (i j : Nat)
    (c : Conjunction Key) :
    (buildAddConjunction st i j c).2 =
      if getConjunctionSize c = 0 then st.2 ++ [Entry.make i j true] else st.2 := rfl

theorem stLookup_conjs_fold (i : Nat) (k : Nat) (key : Key) (v : Sum String Int) (e : Entry) :
    ∀ (conjs : List (Conjunction Key)) (n : Nat) (st : List (InvertedIndex Key) × List Entry),
      e ∈ stLookup ((conjs.enumFrom n).foldl
          (fun st2 q => buildAddConjunction st2 i q.1 q.2) st).1 k key v ↔
        e ∈ stLookup st.1 k key v ∨
          ∃ j, ∃ _ : j < conjs.length, ∃ ex ∈ (conjs.getD j emptyConj).expressions,
            getConjunctionSize (conjs.getD j emptyConj) = k ∧ ex.key = key ∧
              v ∈ exprVals ex.values ∧ e = Entry.make i (n + j) ex.positive := by
  intro conjs
  induction conjs with
  | nil =>
    intro n st
    simp
  | cons c cs ih =>
    intro n st
    rw [List.enumFrom_cons, List.foldl_cons, ih]
    rw [show (buildAddConjunction st i n c).1 = _ from buildAddConjunction_fst st i n c]
    rw [stLookup_exprs_fold]
    constructor
    · rintro ((h | ⟨ex, hex, h1, h2, h3, h4⟩) | ⟨j, hj, ex, hex, h⟩)
      · exact Or.inl h
      · refine Or.inr ⟨0, by simp, ex, ?_, ?_, h2, h3, ?_⟩
        · simpa using hex
        · simpa using h1.symm
        · simpa using h4
      · refine Or.inr ⟨j + 1, by simpa using Nat.succ_lt_succ hj, ex, ?_, ?_⟩
        · simpa using hex
        · have hidx : n + (j + 1) = n + 1 + j := by omega
          rw [hidx]
          simpa using h
    · rintro (h | ⟨j, hj, ex, hex, h1, h2, h3, h4⟩)
      · exact Or.inl (Or.inl h)
      · match j with
        | 0 =>
          refine Or.inl (Or.inr ⟨ex, by simpa using hex, by simpa using h1.symm, h2, h3, ?_⟩)
          simpa using h4
        | j + 1 =>
          refine Or.inr ⟨j, by simpa using Nat.lt_of_succ_lt_succ hj, ex, by simpa using hex,
            ?_⟩
          have hidx : n + 1 + j = n + (j + 1) := by omega
          rw [hidx]
          exact ⟨by simpa using h1, h2, h3, h4⟩

theorem z_conjs_fold (i : Nat) (e : Entry) :
    ∀ (conjs : List (Conjunction Key)) (n : Nat) (st : List (InvertedIndex Key) × List Entry),
      e ∈ ((conjs.enumFrom n).foldl
          (fun st2 q => buildAddConjunction st2 i q.1 q.2) st).2 ↔
        e ∈ st.2 ∨
          ∃ j, ∃ _ : j < conjs.length, getConjunctionSize (conjs.getD j emptyConj) = 0 ∧
            e = Entry.make i (n + j) true := by
  intro conjs
  induction conjs with
  | nil =>
    intro n st
    simp
  | cons c cs ih =>
    intro n st
    rw [List.enumFrom_cons, List.foldl_cons, ih]
    rw [show (buildAddConjunction st i n c).2 = _ from buildAddConjunction_snd st i n c]
    by_cases hc : getConjunctionSize c = 0
    · rw [if_pos hc]
      constructor
      · rintro (h | ⟨j, hj, h1, h2⟩)
        · rcases List.mem_append.mp h with h | h
          · exact Or.inl h
          · refine Or.inr ⟨0, by simp, by simpa using hc, ?_⟩
            simpa using List.mem_singleton.mp h
        · refine Or.inr ⟨j + 1, by simpa using Nat.succ_lt_succ hj, by simpa using h1, ?_⟩
          have hidx : n + (j + 1) = n + 1 + j := by omega
          rw [hidx]
          exact h2
      · rintro (h | ⟨j, hj, h1, h2⟩)
        · exact Or.inl (List.mem_append_left _ h)
        · match j with
          | 0 =>
            refine Or.inl (List.mem_append_right _ ?_)
            simpa using h2
          | j + 1 =>
            refine Or.inr ⟨j, by simpa using Nat.lt_of_succ_lt_succ hj, by simpa using h1, ?_⟩
            have hidx : n + 1 + j = n + (j + 1) := by omega
            rw [hidx]
            exact h2
    · rw [if_neg hc]
      constructor
      · rintro (h | ⟨j, hj, h1, h2⟩)
        · exact Or.inl h
        · refine Or.inr ⟨j + 1, by simpa using Nat.succ_lt_succ hj, by simpa using h1, ?_⟩
          have hidx : n + (j + 1) = n + 1 + j := by omega
          rw [hidx]
          exact h2
      · rintro (h | ⟨j, hj, h1, h2⟩)
        · exact Or.inl h
        · match j with
          | 0 => exact absurd (by simpa using h1) hc
          | j + 1 =>
            refine Or.inr ⟨j, by simpa using Nat.lt_of_succ_lt_succ hj, by simpa using h1, ?_⟩
            have hidx : n + 1 + j = n + (j + 1) := by omega
            rw [hidx]
            exact h2

theorem conjs_fold_length_mono (i : Nat) :
    ∀ (pairs : List (Nat × Conjunction Key)) (st : List (InvertedIndex Key) × List Entry),
      st.1.length ≤ (pairs.foldl (fun st2 q => buildAddConjunction st2 i q.1 q.2) st).1.length := by
  intro pairs
  induction pairs with
  | nil => intro st; exact Nat.le_refl _
  | cons q qs ih =>
    intro st
    rw [List.foldl_cons]
    refine le_trans ?_ (ih _)
    rw [buildAddConjunction_fst]
    exact exprs_fold_length_mono i q.1 (getConjunctionSize q.2) q.2.expressions st.1

theorem conjs_fold_length_ge (i : Nat) :
    ∀ (conjs : List (Conjunction Key)) (n : Nat) (st : List (InvertedIndex Key) × List Entry)
      (j : Nat), j < conjs.length → (conjs.getD j emptyConj).expressions ≠ [] →
      getConjunctionSize (conjs.getD j emptyConj) + 1 ≤
        ((conjs.enumFrom n).foldl (fun st2 q => buildAddConjunction st2 i q.1 q.2) st).1.length := by
  intro conjs
  induction conjs with
  | nil => intro n st j hj; cases hj
  | cons c cs ih =>
    intro n st j hj hne
    rw [List.enumFrom_cons, List.foldl_cons]
    match j with
    | 0 =>
      refine le_trans ?_ (conjs_fold_length_mono i _ _)
      rw [buildAddConjunction_fst]
      exact exprs_fold_length_ge i n (getConjunctionSize c) c.expressions st.1
        (by simpa using hne)
    | j + 1 =>
      exact ih (n + 1) _ j (by simpa using Nat.lt_of_succ_lt_succ hj) (by simpa using hne)

theorem stLookup_docs_fold (k : Nat) (key : Key) (v : Sum String Int) (e : Entry) :
    ∀ (docs : List (Document Key)) (n : Nat) (st : List (InvertedIndex Key) × List Entry),
      e ∈ stLookup ((docs.enumFrom n).foldl
          (fun st p => p.2.conjunctions.enum.foldl
            (fun st2 q => buildAddConjunction st2 p.1 q.1 q.2) st) st).1 k key v ↔
        e ∈ stLookup st.1 k key v ∨
          ∃ i, ∃ _ : i < docs.length, ∃ j,
            ∃ _ : j < (docs.getD i emptyDoc).conjunctions.length,
            ∃ ex ∈ ((docs.getD i emptyDoc).conjunctions.getD j emptyConj).expressions,
              getConjunctionSize ((docs.getD i emptyDoc).conjunctions.getD j emptyConj) = k ∧
                ex.key = key ∧ v ∈ exprVals ex.values ∧ e = Entry.make (n + i) j ex.positive := by
  intro docs
  induction docs with
  | nil =>
    intro n st
    simp
  | cons doc ds ih =>
    intro n st
    rw [List.enumFrom_cons, List.foldl_cons, ih]
    rw [show (doc.conjunctions.enum.foldl
        (fun st2 q => buildAddConjunction st2 n q.1 q.2) st) =
      ((doc.conjunctions.enumFrom 0).foldl
        (fun st2 q => buildAddConjunction st2 n q.1 q.2) st) from rfl]
    rw [stLookup_conjs_fold]
    constructor
    · rintro ((h | ⟨j, hj, ex, hex, h1, h2, h3, h4⟩) | ⟨i, hi, j, hj, ex, hex, h⟩)
      · exact Or.inl h
      · refine Or.inr ⟨0, by simp, j, by simpa using hj, ex, by simpa using hex,
          by simpa using h1, h2, h3, ?_⟩
        simpa using h4
      · refine Or.inr ⟨i + 1, by simpa using Nat.succ_lt_succ hi, j, by simpa using hj, ex,
          by simpa using hex, ?_⟩
        have hidx : n + (i + 1) = n + 1 + i := by omega
        rw [hidx]
        simpa using h
    · rintro (h | ⟨i, hi, j, hj, ex, hex, h1, h2, h3, h4⟩)
      · exact Or.inl (Or.inl h)
      · match i with
        | 0 =>
          refine Or.inl (Or.inr ⟨j, by simpa using hj, ex, by simpa using hex,
            by simpa using h1, h2, h3, ?_⟩)
          simpa using h4
        | i + 1 =>
          refine Or.inr ⟨i, by simpa using Nat.lt_of_succ_lt_succ hi, j, by simpa using hj,
            ex, by simpa using hex, by simpa using h1, h2, h3, ?_⟩
          have hidx : n + 1 + i = n + (i + 1) := by omega
          rw [hidx]
          simpa using h4

theorem z_docs_fold (e : Entry) :
    ∀ (docs : List (Document Key)) (n : Nat) (st : List (InvertedIndex Key) × List Entry),
      e ∈ ((docs.enumFrom n).foldl
          (fun st p => p.2.conjunctions.enum.foldl
            (fun st2 q => buildAddConjunction st2 p.1 q.1 q.2) st) st).2 ↔
        e ∈ st.2 ∨
          ∃ i, ∃ _ : i < docs.length, ∃ j,
            ∃ _ : j < (docs.getD i emptyDoc).conjunctions.length,
            getConjunctionSize ((docs.getD i emptyDoc).conjunctions.getD j emptyConj) = 0 ∧
              e = Entry.make (n + i) j true := by
  intro docs
  induction docs with
  | nil =>
    intro n st
    simp
  | cons doc ds ih =>
    intro n st
    rw [List.enumFrom_cons, List.foldl_cons, ih]
    rw [show (doc.conjunctions.enum.foldl
        (fun st2 q => buildAddConjunction st2 n q.1 q.2) st) =
      ((doc.conjunctions.enumFrom 0).foldl
        (fun st2 q => buildAddConjunction st2 n q.1 q.2) st) from rfl]
    rw [z_conjs_fold]
    constructor
    · rintro ((h | ⟨j, hj, h1, h2⟩) | ⟨i, hi, j, hj, h1, h2⟩)
      · exact Or.inl h
      · refine Or.inr ⟨0, by simp, j, by simpa using hj, by simpa using h1, ?_⟩
        simpa using h2
      · refine Or.inr ⟨i + 1, by simpa using Nat.succ_lt_succ hi, j, by simpa using hj,
          by simpa using h1, ?_⟩
        have hidx : n + (i + 1) = n + 1 + i := by omega
        rw [hidx]
        exact h2
    · rintro (h | ⟨i, hi, j, hj, h1, h2⟩)
      · exact Or.inl (Or.inl h)
      · match i with
        | 0 =>
          refine Or.inl (Or.inr ⟨j, by simpa using hj, by simpa using h1, ?_⟩)
          simpa using h2
        | i + 1 =>
          refine Or.inr ⟨i, by simpa using Nat.lt_of_succ_lt_succ hi, j, by simpa using hj,
            by simpa using h1, ?_⟩
          have hidx : n + 1 + i = n + (i + 1) := by omega
          rw [hidx]
          exact h2

theorem docs_fold_length_mono_aux :
    ∀ (docs : List (Document Key)) (n : Nat) (st : List (InvertedIndex Key) × List Entry),
      st.1.length ≤ ((docs.enumFrom n).foldl
        (fun st p => p.2.conjunctions.enum.foldl
          (fun st2 q => buildAddConjunction st2 p.1 q.1 q.2) st) st).1.length := by
  intro docs
  induction docs with
  | nil => intro n st; exact Nat.le_refl _
  | cons doc ds ih =>
    intro n st
    rw [List.enumFrom_cons, List.foldl_cons]
    refine le_trans ?_ (ih (n + 1) _)
    exact conjs_fold_length_mono n doc.conjunctions.enum st

theorem docs_fold_length_ge :
    ∀ (docs : List (Document Key)) (n : Nat) (st : List (InvertedIndex Key) × List Entry)
      (i j : Nat), i < docs.length → j < (docs.getD i emptyDoc).conjunctions.length →
      ((docs.getD i emptyDoc).conjunctions.getD j emptyConj).expressions ≠ [] →
      getConjunctionSize ((docs.getD i emptyDoc).conjunctions.getD j emptyConj) + 1 ≤
        ((docs.enumFrom n).foldl
          (fun st p => p.2.conjunctions.enum.foldl
            (fun st2 q => buildAddConjunction st2 p.1 q.1 q.2) st) st).1.length := by
  intro docs
  induction docs with
  | nil => intro n st i j hi; cases hi
  | cons doc ds ih =>
    intro n st i j hi hj hne
    rw [List.enumFrom_cons, List.foldl_cons]
    match i with
    | 0 =>
      refine le_trans ?_ (docs_fold_length_mono_aux ds (n + 1) _)
      rw [show (doc.conjunctions.enum.foldl
          (fun st2 q => buildAddConjunction st2 n q.1 q.2) st) =
        ((doc.conjunctions.enumFrom 0).foldl
          (fun st2 q => buildAddConjunction st2 n q.1 q.2) st) from rfl]
      exact conjs_fold_length_ge n doc.conjunctions 0 st j (by simpa using hj)
        (by simpa using hne)
    | i + 1 =>
      exact ih (n + 1) _ i j (by simpa using Nat.lt_of_succ_lt_succ hi) (by simpa using hj)
        (by simpa using hne)

theorem insertionSort_value_sorted (l : List Entry) :
    (l.insertionSort fun a b => a.value ≤ b.value).Pairwise fun a b : Entry =>
      a.value ≤ b.value := by
  haveI : IsTotal Entry fun a b => a.value ≤ b.value := ⟨fun a b => Nat.le_total _ _⟩
  haveI : IsTrans Entry fun a b => a.value ≤ b.value :=
    ⟨fun a b c hab hbc => Nat.le_trans hab hbc⟩
  exact List.sorted_insertionSort _ l

theorem stLookup_build (docs : List (Document Key)) (k : Nat) (key : Key)
    (v : Sum String Int) :
    stLookup (Indexer.build docs).indexs k key v =
      (stLookup (buildFold docs).1 k key v).insertionSort fun a b => a.value ≤ b.value := by
  rw [build_eq_buildFold]
  unfold stLookup
  by_cases hk : k < (buildFold docs).1.length
  · rw [List.getD_eq_getElem?_getD ((buildFold docs).1.map InvertedIndex.buildSort),
      List.getElem?_map, List.getElem?_eq_getElem hk]
    rw [List.getD_eq_getElem?_getD ((buildFold docs).1), List.getElem?_eq_getElem hk]
    show ((buildFold docs).1[k].buildSort).lookupVal key v = _
    cases v <;> rfl
  · rw [List.getD_eq_getElem?_getD ((buildFold docs).1.map InvertedIndex.buildSort),
      List.getElem?_eq_none (by simpa using hk)]
    rw [List.getD_eq_getElem?_getD ((buildFold docs).1),
      List.getElem?_eq_none (by omega)]
    show InvertedIndex.emptyIdx.lookupVal key v =
      ((InvertedIndex.emptyIdx.lookupVal key v).insertionSort fun a b => a.value ≤ b.value)
    rw [emptyIdx_lookupVal]
    rfl

theorem build_lookup_sorted (docs : List (Document Key)) (k : Nat) (key : Key)
    (v : Sum String Int) :
    (stLookup (Indexer.build docs).indexs k key v).Pairwise fun a b : Entry =>
      a.value ≤ b.value := by
  rw [stLookup_build]
  exact insertionSort_value_sorted _

theorem mem_build_lookup (docs : List (Document Key)) (k : Nat) (key : Key)
    (v : Sum String Int) (e : Entry) :
    e ∈ stLookup (Indexer.build docs).indexs k key v ↔ entrySpec docs k key v e := by
  rw [stLookup_build, List.mem_insertionSort]
  have h := stLookup_docs_fold k key v e docs 0 ([], [])
  have hfold : buildFold docs = (docs.enumFrom 0).foldl
      (fun st p => p.2.conjunctions.enum.foldl
        (fun st2 q => buildAddConjunction st2 p.1 q.1 q.2) st) ([], []) := rfl
  rw [hfold, h]
  have hnil : e ∈ stLookup (([], ([] : List Entry)) :
      List (InvertedIndex Key) × List Entry).1 k key v ↔ False := by
    unfold stLookup
    rw [show (([], ([] : List Entry)) :
      List (InvertedIndex Key) × List Entry).1.getD k InvertedIndex.emptyIdx =
      InvertedIndex.emptyIdx from by cases k <;> rfl]
    rw [emptyIdx_lookupVal]
    simp
  rw [hnil]
  unfold entrySpec conjAt
  simp only [Nat.zero_add, false_or]

theorem mem_build_z (docs : List (Document Key)) (e : Entry) :
    e ∈ (Indexer.build docs).z ↔ zSpec docs e := by
  rw [build_eq_buildFold]
  show e ∈ ((buildFold docs).2.insertionSort fun a b => a.value ≤ b.value) ↔ _
  rw [List.mem_insertionSort]
  have h := z_docs_fold e docs 0 ([], [])
  have hfold : buildFold docs = (docs.enumFrom 0).foldl
      (fun st p => p.2.conjunctions.enum.foldl
        (fun st2 q => buildAddConjunction st2 p.1 q.1 q.2) st) ([], []) := rfl
  rw [hfold, h]
  unfold zSpec conjAt
  simp only [Nat.zero_add, List.not_mem_nil, false_or]

theorem build_z_sorted (docs : List (Document Key)) :
    ((Indexer.build docs).z).Pairwise fun a b : Entry => a.value ≤ b.value := by
  rw [build_eq_buildFold]
  exact insertionSort_value_sorted _

theorem build_indexs_length_ge (docs : List (Document Key)) (i j : Nat)
    (hi : i < docs.length) (hj : j < (docs.getD i emptyDoc).conjunctions.length)
    (hne : (conjAt docs i j).expressions ≠ []) :
    getConjunctionSize (conjAt docs i j) + 1 ≤ (Indexer.build docs).indexs.length := by
  rw [build_eq_buildFold]
  show _ ≤ ((buildFold docs).1.map InvertedIndex.buildSort).length
  rw [List.length_map]
  have hfold : buildFold docs = (docs.enumFrom 0).foldl
      (fun st p => p.2.conjunctions.enum.foldl
        (fun st2 q => buildAddConjunction st2 p.1 q.1 q.2) st) ([], []) := rfl
  rw [hfold]
  exact docs_fold_length_ge docs 0 ([], []) i j hi hj hne

theorem entrySpec_length {docs : List (Document Key)} {k : Nat} {key : Key}
    {v : Sum String Int} {e : Entry} (h : entrySpec docs k key v e) :
    k < (Indexer.build docs).indexs.length := by
  obtain ⟨i, hi, j, hj, ex, hex, hsize, _⟩ := h
  have hne : (conjAt docs i j).expressions ≠ [] := by
    intro hnil
    rw [hnil] at hex
    cases hex
  have := build_indexs_length_ge docs i j hi hj hne
  omega

end BuildChar

/-! ### Characterisation of `Indexer::getPostingLists` -/

section GPLChar

variable {Key : Type} [DecidableEq Key]

theorem foldl_keep_nonempty (f : (Key × Sum (List String) (List Int)) → PostingListGroup) :
    ∀ (prs : List (Key × Sum (List String) (List Int))) (acc : List PostingListGroup),
      prs.foldl (fun acc pr => if (f pr).empty then acc else acc ++ [f pr]) acc
        = acc ++ (prs.map f).filter fun g => !g.empty := by
  intro prs
  induction prs with
  | nil => intro acc; simp
  | cons pr rest ih =>
    intro acc
    rw [List.foldl_cons, List.map_cons, List.filter_cons]
    by_cases h : (f pr).empty
    · rw [if_pos h, ih]
      simp [h]
    · rw [if_neg h, ih (acc ++ [f pr])]
      simp [h]

theorem getPostingLists_eq (idx : Indexer Key) (k : Nat) (s : Assignment Key) :
    idx.getPostingLists k s =
      ((s.pairs.map fun pr => (idx.indexs.getD k InvertedIndex.emptyIdx).trigger
          PostingListGroup.new pr.1 pr.2).filter fun g => !g.empty)
        ++ (if k = 0 ∧ idx.z ≠ [] then
            [PostingListGroup.new.add (PostingList.ofList idx.z)] else []) := by
  unfold Indexer.getPostingLists
  have h := foldl_keep_nonempty
    (fun pr => (idx.indexs.getD k InvertedIndex.emptyIdx).trigger PostingListGroup.new pr.1 pr.2)
    s.pairs []
  rw [List.nil_append] at h
  rw [h]

theorem new_no_remMem (e : Entry) : ¬ PostingListGroup.new.remMem e := by
  rintro ⟨p, hp, _⟩
  cases hp

theorem remMem_add_ofList (g : PostingListGroup) (l : List Entry) (e : Entry) :
    (g.add (PostingList.ofList l)).remMem e ↔ g.remMem e ∨ e ∈ l := by
  unfold PostingListGroup.add
  by_cases hpe : (PostingList.ofList l).empty
  · rw [if_pos hpe]
    have hl : l = [] := by
      unfold PostingList.empty PostingList.ofList at hpe
      simp only [decide_eq_true_eq] at hpe
      exact List.length_eq_zero.mp (Nat.le_zero.mp hpe)
    subst hl
    simp
  · rw [if_neg hpe]
    unfold PostingListGroup.remMem
    constructor
    · rintro ⟨p, hp, hep⟩
      rcases List.mem_append.mp hp with hp | hp
      · exact Or.inl ⟨p, hp, hep⟩
      · rw [List.mem_singleton.mp hp] at hep
        exact Or.inr (by simpa [PostingList.rem, PostingList.ofList] using hep)
    · rintro (⟨p, hp, hep⟩ | he)
      · exact ⟨p, List.mem_append.mpr (Or.inl hp), hep⟩
      · exact ⟨PostingList.ofList l, List.mem_append.mpr (Or.inr (List.mem_singleton.mpr rfl)),
          by simpa [PostingList.rem, PostingList.ofList] using he⟩

theorem remMem_trigger {T : Type} (idx : InvertedIndexImpl Key T) (key : Key) (e : Entry) :
    ∀ (vals : List T) (g : PostingListGroup),
      (idx.trigger g key vals).remMem e ↔ g.remMem e ∨ ∃ v ∈ vals, e ∈ idx key v := by
  intro vals
  induction vals with
  | nil =>
    intro g
    simp [InvertedIndexImpl.trigger]
  | cons v vs ih =>
    intro g
    have hstep : idx.trigger g key (v :: vs) =
        idx.trigger (g.add (PostingList.ofList (idx key v))) key vs := rfl
    rw [hstep, ih, remMem_add_ofList]
    constructor
    · rintro ((hg | hv) | ⟨v', hv', he'⟩)
      · exact Or.inl hg
      · exact Or.inr ⟨v, List.mem_cons_self v vs, hv⟩
      · exact Or.inr ⟨v', List.mem_cons_of_mem v hv', he'⟩
    · rintro (hg | ⟨v', hv', he'⟩)
      · exact Or.inl (Or.inl hg)
      · rcases List.mem_cons.mp hv' with rfl | hv'
        · exact Or.inl (Or.inr he')
        · exact Or.inr ⟨v', hv', he'⟩

/-- Remaining membership in the group `trigger` builds for one binding
`(key, values)`: exactly the entries of the looked-up posting vectors. -/
theorem remMem_trigger_idx (idx : InvertedIndex Key) (key : Key)
    (values : Sum (List String) (List Int)) (e : Entry) :
    (idx.trigger PostingListGroup.new key values).remMem e ↔
      ∃ v ∈ exprVals values, e ∈ idx.lookupVal key v := by
  cases values with
  | inl svals =>
    show (idx.stringIndex.trigger PostingListGroup.new key svals).remMem e ↔ _
    rw [remMem_trigger]
    constructor
    · rintro (hg | ⟨v, hv, he⟩)
      · exact absurd hg (new_no_remMem e)
      · exact ⟨Sum.inl v, by simpa [exprVals] using hv, he⟩
    · rintro ⟨v, hv, he⟩
      simp only [exprVals, List.mem_map] at hv
      obtain ⟨sv, hsv, rfl⟩ := hv
      exact Or.inr ⟨sv, hsv, he⟩
  | inr ivals =>
    show (idx.intIndex.trigger PostingListGroup.new key ivals).remMem e ↔ _
    rw [remMem_trigger]
    constructor
    · rintro (hg | ⟨v, hv, he⟩)
      · exact absurd hg (new_no_remMem e)
      · exact ⟨Sum.inr v, by simpa [exprVals] using hv, he⟩
    · rintro ⟨v, hv, he⟩
      simp only [exprVals, List.mem_map] at hv
      obtain ⟨iv, hiv, rfl⟩ := hv
      exact Or.inr ⟨iv, hiv, he⟩

theorem WF_trigger {T : Type} (idx : InvertedIndexImpl Key T) (key : Key)
    (hgood : ∀ v : T, (idx key v).Pairwise (fun a b => a.value ≤ b.value) ∧
      ∀ e ∈ idx key v, e.value < Entry.max.value) :
    ∀ (vals : List T) (g : PostingListGroup), g.WF → (idx.trigger g key vals).WF := by
  intro vals
  induction vals with
  | nil => intro g h; exact h
  | cons v vs ih =>
    intro g hg
    exact ih _ (PostingListGroup.WF_add hg ⟨(hgood v).1, Nat.zero_le _, (hgood v).2⟩)

theorem WF_trigger_idx (idx : InvertedIndex Key) (key : Key)
    (values : Sum (List String) (List Int))
    (hgood : ∀ v : Sum String Int,
      (idx.lookupVal key v).Pairwise (fun a b => a.value ≤ b.value) ∧
        ∀ e ∈ idx.lookupVal key v, e.value < Entry.max.value) :
    (idx.trigger PostingListGroup.new key values).WF := by
  cases values with
  | inl svals =>
    exact WF_trigger idx.stringIndex key (fun v => hgood (Sum.inl v)) svals
      PostingListGroup.new PostingListGroup.WF_new
  | inr ivals =>
    exact WF_trigger idx.intIndex key (fun v => hgood (Sum.inr v)) ivals
      PostingListGroup.new PostingListGroup.WF_new

/-- An exhausted well-formed group holds no remaining entry. -/
theorem empty_no_remMem {g : PostingListGroup} (hwf : g.WF) (hemp : g.empty = true)
    (e : Entry) : ¬ g.remMem e := by
  intro hrem
  have h1 := PostingListGroup.current_le_remMem hwf hrem
  obtain ⟨p, hp, hep⟩ := hrem
  have h2 : e.value < Entry.max.value :=
    (hwf.2 p hp).2.2 e (List.mem_of_mem_drop hep)
  unfold PostingListGroup.empty at hemp
  rw [decide_eq_true_iff] at hemp
  rw [hemp] at h1
  omega

theorem not_empty_of_remMem {g : PostingListGroup} (hwf : g.WF) {e : Entry}
    (h : g.remMem e) : g.empty = false := by
  cases hge : g.empty
  · rfl
  · exact absurd h (empty_no_remMem hwf hge e)

theorem hasRemId_empty_false {g : PostingListGroup} (hwf : g.WF) (hemp : g.empty = true)
    (Y : Nat) : hasRemId Y g = false := by
  rw [Bool.eq_false_iff]
  intro h
  obtain ⟨e, hrem, _⟩ := (hasRemId_iff Y g).mp h
  exact empty_no_remMem hwf hemp e hrem

theorem hasRemNegId_empty_false {g : PostingListGroup} (hwf : g.WF) (hemp : g.empty = true)
    (Y : Nat) : hasRemNegId Y g = false := by
  rw [Bool.eq_false_iff]
  intro h
  obtain ⟨e, hrem, _⟩ := (hasRemNegId_iff Y g).mp h
  exact empty_no_remMem hwf hemp e hrem

theorem countP_filter_eq {α : Type _} (p q : α → Bool) (l : List α)
    (h : ∀ a ∈ l, p a = true → q a = true) :
    (l.filter q).countP p = l.countP p := by
  induction l with
  | nil => rfl
  | cons x xs ih =>
    rw [List.filter_cons, List.countP_cons]
    by_cases hq : q x = true
    · rw [if_pos hq, List.countP_cons, ih fun a ha => h a (List.mem_cons_of_mem x ha)]
    · rw [if_neg hq]
      have hp : p x = false := by
        cases hpx : p x
        · rfl
        · exact absurd (h x (List.mem_cons_self x xs) hpx) hq
      rw [ih fun a ha => h a (List.mem_cons_of_mem x ha), hp]
      simp

/-- Pigeonhole over distinct keys: if at least `|P|` of the distinct-keyed
inputs each point (preserving the key) at some satisfied member of the
distinct-keyed list `P`, every member of `P` is satisfied. -/
theorem all_of_countP_ge {α β K : Type _} [DecidableEq K] (keyA : α → K) (keyB : β → K)
    (R : β → Prop) (prs : List α) (P : List β) (Q : α → Bool)
    (hkA : (prs.map keyA).Nodup) (hkB : (P.map keyB).Nodup)
    (hlen : P.length ≤ prs.countP Q)
    (himp : ∀ a ∈ prs, Q a = true → ∃ b ∈ P, keyB b = keyA a ∧ R b) :
    ∀ b ∈ P, R b := by
  classical
  have hhitNodup : ((prs.filter Q).map keyA).Nodup :=
    hkA.sublist ((List.filter_sublist prs).map keyA)
  have hhitLen : ((prs.filter Q).map keyA).length = prs.countP Q := by
    rw [List.length_map, ← List.countP_eq_length_filter]
  have hsub : ((prs.filter Q).map keyA).toFinset ⊆ (P.map keyB).toFinset := by
    intro x hx
    rw [List.mem_toFinset, List.mem_map] at hx
    obtain ⟨a, ha, rfl⟩ := hx
    obtain ⟨hamem, haQ⟩ := List.mem_filter.mp ha
    obtain ⟨b, hb, hkb, _⟩ := himp a hamem haQ
    rw [List.mem_toFinset, List.mem_map]
    exact ⟨b, hb, hkb⟩
  have hcardP : (P.map keyB).toFinset.card = P.length := by
    rw [List.toFinset_card_of_nodup hkB, List.length_map]
  have hcardHit : ((prs.filter Q).map keyA).toFinset.card = prs.countP Q := by
    rw [List.toFinset_card_of_nodup hhitNodup, hhitLen]
  have heq : ((prs.filter Q).map keyA).toFinset = (P.map keyB).toFinset :=
    Finset.eq_of_subset_of_card_le hsub (by omega)
  intro b hb
  have hkey : keyB b ∈ ((prs.filter Q).map keyA).toFinset := by
    rw [heq, List.mem_toFinset, List.mem_map]
    exact ⟨b, hb, rfl⟩
  rw [List.mem_toFinset, List.mem_map] at hkey
  obtain ⟨a, ha, hka⟩ := hkey
  obtain ⟨hamem, haQ⟩ := List.mem_filter.mp ha
  obtain ⟨b', hb', hkb', hRb'⟩ := himp a hamem haQ
  have : b' = b := List.inj_on_of_nodup_map hkB hb' hb (by rw [hkb', hka])
  rw [← this]
  exact hRb'

/-- Distinct keys each covered by a `Q`-satisfying input give a lower bound on
the `Q`-count. -/
theorem countP_ge_of_keys {α K : Type _} [DecidableEq K] (keyA : α → K) (prs : List α)
    (Q : α → Bool) (ks : List K) (hks : ks.Nodup) (hkA : (prs.map keyA).Nodup)
    (hmem : ∀ x ∈ ks, ∃ a ∈ prs, keyA a = x)
    (himp : ∀ a ∈ prs, keyA a ∈ ks → Q a = true) :
    ks.length ≤ prs.countP Q := by
  classical
  have hhitNodup : ((prs.filter Q).map keyA).Nodup :=
    hkA.sublist ((List.filter_sublist prs).map keyA)
  have hhitLen : ((prs.filter Q).map keyA).length = prs.countP Q := by
    rw [List.length_map, ← List.countP_eq_length_filter]
  have hsub : ks.toFinset ⊆ ((prs.filter Q).map keyA).toFinset := by
    intro x hx
    rw [List.mem_toFinset] at hx
    obtain ⟨a, ha, rfl⟩ := hmem x hx
    rw [List.mem_toFinset, List.mem_map]
    exact ⟨a, List.mem_filter.mpr ⟨ha, himp a ha hx⟩, rfl⟩
  have h1 : ks.toFinset.card = ks.length := List.toFinset_card_of_nodup hks
  have h2 : ((prs.filter Q).map keyA).toFinset.card = prs.countP Q := by
    rw [List.toFinset_card_of_nodup hhitNodup, hhitLen]
  have := Finset.card_le_card hsub
  omega

theorem valsOf_sound {s : Assignment Key} {kk : Key} {v : Sum String Int}
    (h : v ∈ s.valsOf kk) : ∃ pr ∈ s.pairs, pr.1 = kk ∧ v ∈ exprVals pr.2 := by
  unfold Assignment.valsOf at h
  split at h
  next pr hfind =>
    exact ⟨pr, List.mem_of_find?_eq_some hfind,
      by simpa using List.find?_some hfind, h⟩
  next => cases h

/-- Strictly inside the claimed bounds (corpus smaller than `2^47`,
conjunction index below `2^16`) the packed word stays below the sentinel. -/
theorem make_value_lt_max {i j : Nat} (p : Bool) (hi : i + 1 < 2 ^ 47) (hj : j < 2 ^ 16) :
    (Entry.make i j p).value < Entry.max.value := by
  rw [Entry.make_value i j p (by omega) hj]
  show _ < 2 ^ 64 - 1
  have hb : (if p then (1 : Nat) else 0) ≤ 1 := by cases p <;> norm_num
  omega

theorem make_id_shift {i j : Nat} (p : Bool) (hi : i < 2 ^ 47) (hj : j < 2 ^ 16) :
    (Entry.make i j p).id >>> 16 = i := by
  rw [Entry.make_id i j p hi hj, Nat.shiftRight_eq_div_pow]
  omega

theorem getD_mem_of_lt {α : Type _} (l : List α) (i : Nat) (d : α) (h : i < l.length) :
    l.getD i d ∈ l := by
  have h1 : l.getD i d = l[i] := by
    rw [List.getD_eq_getElem?_getD, List.getElem?_eq_getElem h]
    rfl
  rw [h1]
  exact List.getElem_mem h

theorem conj_index_lt {docs : List (Document Key)} {i j : Nat}
    (hcj : ∀ doc ∈ docs, doc.conjunctions.length ≤ 2 ^ 16)
    (hi : i < docs.length) (hj : j < (docs.getD i emptyDoc).conjunctions.length) :
    j < 2 ^ 16 := by
  have := hcj (docs.getD i emptyDoc) (getD_mem_of_lt docs i emptyDoc hi)
  omega

theorem entry_value_lt {docs : List (Document Key)} (hdocs : docs.length < 2 ^ 47)
    (hcj : ∀ doc ∈ docs, doc.conjunctions.length ≤ 2 ^ 16) {k : Nat} {key : Key}
    {v : Sum String Int} {e : Entry} (h : entrySpec docs k key v e) :
    e.value < Entry.max.value := by
  obtain ⟨i, hi, j, hj, ex, hex, hsize, hkey, hv, rfl⟩ := h
  exact make_value_lt_max _ (by omega) (conj_index_lt hcj hi hj)

theorem z_value_lt {docs : List (Document Key)} (hdocs : docs.length < 2 ^ 47)
    (hcj : ∀ doc ∈ docs, doc.conjunctions.length ≤ 2 ^ 16) {e : Entry}
    (h : zSpec docs e) : e.value < Entry.max.value := by
  obtain ⟨i, hi, j, hj, hsize, rfl⟩ := h
  exact make_value_lt_max _ (by omega) (conj_index_lt hcj hi hj)

theorem build_lookup_good (docs : List (Document Key)) (hdocs : docs.length < 2 ^ 47)
    (hcj : ∀ doc ∈ docs, doc.conjunctions.length ≤ 2 ^ 16) (k : Nat) (key : Key)
    (v : Sum String Int) :
    (stLookup (Indexer.build docs).indexs k key v).Pairwise
        (fun a b : Entry => a.value ≤ b.value) ∧
      ∀ e ∈ stLookup (Indexer.build docs).indexs k key v, e.value < Entry.max.value :=
  ⟨build_lookup_sorted docs k key v,
    fun e he => entry_value_lt hdocs hcj ((mem_build_lookup docs k key v e).mp he)⟩

/-- Under the corpus bounds every group `getPostingLists` hands to the merge is
well-formed. -/
theorem getPostingLists_WF (docs : List (Document Key)) (s : Assignment Key) (k : Nat)
    (hdocs : docs.length < 2 ^ 47)
    (hcj : ∀ doc ∈ docs, doc.conjunctions.length ≤ 2 ^ 16) :
    ∀ g ∈ (Indexer.build docs).getPostingLists k s, g.WF := by
  rw [getPostingLists_eq]
  intro g hg
  rcases List.mem_append.mp hg with hg | hg
  · obtain ⟨hmem, _⟩ := List.mem_filter.mp hg
    obtain ⟨pr, _, rfl⟩ := List.mem_map.mp hmem
    exact WF_trigger_idx _ pr.1 pr.2 fun v => build_lookup_good docs hdocs hcj k pr.1 v
  · by_cases hz : k = 0 ∧ (Indexer.build docs).z ≠ []
    · rw [if_pos hz] at hg
      rw [List.mem_singleton.mp hg]
      exact PostingListGroup.WF_add PostingListGroup.WF_new
        ⟨build_z_sorted docs, Nat.zero_le _,
          fun e he => z_value_lt hdocs hcj ((mem_build_z docs e).mp he)⟩
    · rw [if_neg hz] at hg
      cases hg

/-- The `k`-th round of the outer loop adds exactly the right-shifted ids that
the inner merge's emission condition accepts over the collected groups. -/
theorem sizeIter_spec (docs : List (Document Key)) (s : Assignment Key) (k : Nat)
    (hdocs : docs.length < 2 ^ 47)
    (hcj : ∀ doc ∈ docs, doc.conjunctions.length ≤ 2 ^ 16) (d : Nat) :
    d ∈ Indexer.sizeIter (Indexer.build docs) s k ∅ ↔
      (if k = 0 then 1 else k) ≤ ((Indexer.build docs).getPostingLists k s).length ∧
        ∃ Y, emitOK (if k = 0 then 1 else k) ((Indexer.build docs).getPostingLists k s) Y ∧
          d = Y >>> 16 := by
  have hreq : 1 ≤ (if k = 0 then 1 else k) := by split <;> omega
  unfold Indexer.sizeIter
  by_cases hlen : ((Indexer.build docs).getPostingLists k s).length < (if k = 0 then 1 else k)
  · rw [if_pos hlen]
    simp only [Finset.not_mem_empty, false_iff]
    rintro ⟨h, -⟩
    omega
  · rw [if_neg hlen]
    constructor
    · intro hd
      rcases innerLoop_sound (if k = 0 then 1 else k) hreq _ _ ∅
          (getPostingLists_WF docs s k hdocs hcj) (by omega) d hd with h | ⟨Y, hok, rfl⟩
      · exact absurd h (Finset.not_mem_empty d)
      · exact ⟨by omega, Y, hok, rfl⟩
    · rintro ⟨-, Y, hok, rfl⟩
      exact innerLoop_complete (if k = 0 then 1 else k) hreq _ _ ∅ Y
        (getPostingLists_WF docs s k hdocs hcj) (by omega) hok (Nat.lt_succ_self _)

/-- The group `trigger` builds against the size-`k` index of a built corpus
for one assignment binding. -/
def pairGroup (docs : List (Document Key)) (k : Nat)
    (pr : Key × Sum (List String) (List Int)) : PostingListGroup :=
  ((Indexer.build docs).indexs.getD k InvertedIndex.emptyIdx).trigger
    PostingListGroup.new pr.1 pr.2

theorem getPostingLists_build_eq (docs : List (Document Key)) (k : Nat)
    (s : Assignment Key) :
    (Indexer.build docs).getPostingLists k s =
      ((s.pairs.map (pairGroup docs k)).filter fun g => !g.empty)
        ++ (if k = 0 ∧ (Indexer.build docs).z ≠ [] then
            [PostingListGroup.new.add (PostingList.ofList (Indexer.build docs).z)]
          else []) :=
  getPostingLists_eq (Indexer.build docs) k s

theorem pairGroup_WF (docs : List (Document Key)) (hdocs : docs.length < 2 ^ 47)
    (hcj : ∀ doc ∈ docs, doc.conjunctions.length ≤ 2 ^ 16) (k : Nat)
    (pr : Key × Sum (List String) (List Int)) : (pairGroup docs k pr).WF :=
  WF_trigger_idx _ pr.1 pr.2 fun v => build_lookup_good docs hdocs hcj k pr.1 v

theorem pairGroup_mem (docs : List (Document Key)) (k : Nat) (s : Assignment Key)
    {pr : Key × Sum (List String) (List Int)} (hpr : pr ∈ s.pairs)
    (hne : (pairGroup docs k pr).empty = false) :
    pairGroup docs k pr ∈ (Indexer.build docs).getPostingLists k s := by
  rw [getPostingLists_build_eq]
  refine List.mem_append.mpr (Or.inl (List.mem_filter.mpr
    ⟨List.mem_map.mpr ⟨pr, hpr, rfl⟩, ?_⟩))
  rw [hne]
  rfl

/-- Remaining entries of a binding's group are exactly the build-distributed
entries of the bound values. -/
theorem pair_group_entry {docs : List (Document Key)} {k : Nat}
    {pr : Key × Sum (List String) (List Int)} {e : Entry}
    (hrem : (pairGroup docs k pr).remMem e) :
    ∃ v ∈ exprVals pr.2, entrySpec docs k pr.1 v e := by
  unfold pairGroup at hrem
  rw [remMem_trigger_idx] at hrem
  obtain ⟨v, hv, he⟩ := hrem
  exact ⟨v, hv, (mem_build_lookup docs k pr.1 v e).mp he⟩

theorem pair_group_entry_rev {docs : List (Document Key)} {k : Nat}
    {pr : Key × Sum (List String) (List Int)} {e : Entry} {v : Sum String Int}
    (hv : v ∈ exprVals pr.2) (hspec : entrySpec docs k pr.1 v e) :
    (pairGroup docs k pr).remMem e := by
  unfold pairGroup
  rw [remMem_trigger_idx]
  exact ⟨v, hv, (mem_build_lookup docs k pr.1 v e).mpr hspec⟩

theorem valsOf_of_mem' (s : Assignment Key) (hnodup : (s.pairs.map Prod.fst).Nodup)
    {pr : Key × Sum (List String) (List Int)} (hpr : pr ∈ s.pairs) :
    s.valsOf pr.1 = exprVals pr.2 :=
  valsOf_of_mem hnodup hpr

/-- The count of groups holding a remaining id-`Y` entry, pushed through the
non-empty filter onto the raw bindings. -/
theorem countP_gps (docs : List (Document Key)) (s : Assignment Key) (k : Nat)
    (hdocs : docs.length < 2 ^ 47)
    (hcj : ∀ doc ∈ docs, doc.conjunctions.length ≤ 2 ^ 16) (Y : Nat) :
    ((Indexer.build docs).getPostingLists k s).countP (hasRemId Y) =
      s.pairs.countP (fun pr => hasRemId Y (pairGroup docs k pr)) +
        (if k = 0 ∧ (Indexer.build docs).z ≠ [] then
            [PostingListGroup.new.add (PostingList.ofList (Indexer.build docs).z)]
          else []).countP (hasRemId Y) := by
  rw [getPostingLists_build_eq, List.countP_append]
  have hdrop : ∀ g ∈ s.pairs.map (pairGroup docs k), hasRemId Y g = true →
      (!g.empty) = true := by
    intro g hg hid
    obtain ⟨pr, _, rfl⟩ := List.mem_map.mp hg
    obtain ⟨e, hrem, _⟩ := (hasRemId_iff Y _).mp hid
    rw [not_empty_of_remMem (pairGroup_WF docs hdocs hcj k pr) hrem]
    rfl
  rw [countP_filter_eq _ _ _ hdrop, List.countP_map]
  rfl

/-- Any remaining id-`Y` entry of any collected group decodes `Y` to a
document/conjunction position whose conjunction size is the round's `k`. -/
theorem decode_Y {docs : List (Document Key)} {s : Assignment Key} {k Y : Nat}
    (hdocs : docs.length < 2 ^ 47)
    (hcj : ∀ doc ∈ docs, doc.conjunctions.length ≤ 2 ^ 16)
    {g : PostingListGroup} (hg : g ∈ (Indexer.build docs).getPostingLists k s)
    (hid : hasRemId Y g = true) :
    ∃ i, ∃ _ : i < docs.length, ∃ j, ∃ _ : j < (docs.getD i emptyDoc).conjunctions.length,
      Y = i * 2 ^ 16 + j ∧ getConjunctionSize (conjAt docs i j) = k := by
  rw [getPostingLists_build_eq] at hg
  obtain ⟨e, hrem, hide⟩ := (hasRemId_iff Y g).mp hid
  rcases List.mem_append.mp hg with hg | hg
  · obtain ⟨hmem, _⟩ := List.mem_filter.mp hg
    obtain ⟨pr, hpr, rfl⟩ := List.mem_map.mp hmem
    obtain ⟨v, hv, hspec⟩ := pair_group_entry hrem
    obtain ⟨i, hi, j, hj, ex, hex, hsize, hkey, hv2, rfl⟩ := hspec
    refine ⟨i, hi, j, hj, ?_, hsize⟩
    rw [← hide, Entry.make_id i j ex.positive (by omega) (conj_index_lt hcj hi hj)]
  · by_cases hzc : k = 0 ∧ (Indexer.build docs).z ≠ []
    · rw [if_pos hzc] at hg
      rw [List.mem_singleton.mp hg] at hrem
      rw [remMem_add_ofList] at hrem
      rcases hrem with hrem | hez
      · exact absurd hrem (new_no_remMem e)
      · obtain ⟨i, hi, j, hj, hsize, rfl⟩ := (mem_build_z docs e).mp hez
        refine ⟨i, hi, j, hj, ?_, by rw [hsize, hzc.1]⟩
        rw [← hide, Entry.make_id i j true (by omega) (conj_index_lt hcj hi hj)]
    · rw [if_neg hzc] at hg
      cases hg

/-- When the merge's no-remaining-negative condition holds at
`Y = i * 2^16 + j`, every negative predicate of conjunction `(i, j)` is
satisfied: a violating assigned value would have put the conjunction's
negative entry into the violated binding's collected group. -/
theorem neg_ok (docs : List (Document Key)) (s : Assignment Key) (k : Nat)
    (hdocs : docs.length < 2 ^ 47)
    (hcj : ∀ doc ∈ docs, doc.conjunctions.length ≤ 2 ^ 16)
    {i j : Nat} (hi : i < docs.length)
    (hj : j < (docs.getD i emptyDoc).conjunctions.length)
    (hsize : getConjunctionSize (conjAt docs i j) = k)
    (hnoneg : ∀ g ∈ (Indexer.build docs).getPostingLists k s,
      hasRemNegId (i * 2 ^ 16 + j) g = false)
    {ex : Expression Key} (hex : ex ∈ (conjAt docs i j).expressions)
    (hneg : ex.positive = false) : exprSatisfied s ex := by
  unfold exprSatisfied
  rw [if_neg (by simp [hneg])]
  intro v hv hvmem
  obtain ⟨pr, hpr, hprk, hvpr⟩ := valsOf_sound hv
  have hspec : entrySpec docs k pr.1 v (Entry.make i j ex.positive) :=
    ⟨i, hi, j, hj, ex, hex, hsize, hprk.symm, hvmem, rfl⟩
  have hrem : (pairGroup docs k pr).remMem (Entry.make i j ex.positive) :=
    pair_group_entry_rev hvpr hspec
  have hne := not_empty_of_remMem (pairGroup_WF docs hdocs hcj k pr) hrem
  have hmem := pairGroup_mem docs k s hpr hne
  have hfalse := hnoneg _ hmem
  have htrue : hasRemNegId (i * 2 ^ 16 + j) (pairGroup docs k pr) = true := by
    refine (hasRemNegId_iff _ _).mpr ⟨Entry.make i j ex.positive, hrem, ?_, ?_⟩
    · exact Entry.make_id i j ex.positive (by omega) (conj_index_lt hcj hi hj)
    · rw [Entry.make_isNegative i j ex.positive (by omega) (conj_index_lt hcj hi hj), hneg]
      rfl
  rw [htrue] at hfalse
  cases hfalse

/-- When at least `k` groups hold a remaining id-`Y` entry and none holds a
negative one, every positive predicate of conjunction `(i, j)` (of size `k`,
with distinct positive keys) is satisfied, by pigeonhole over the distinct
assignment keys. -/
theorem pos_ok (docs : List (Document Key)) (s : Assignment Key) (k : Nat)
    (hdocs : docs.length < 2 ^ 47)
    (hcj : ∀ doc ∈ docs, doc.conjunctions.length ≤ 2 ^ 16)
    (hkeys : (s.pairs.map Prod.fst).Nodup) (hk : k ≠ 0)
    {i j : Nat} (hi : i < docs.length)
    (hj : j < (docs.getD i emptyDoc).conjunctions.length)
    (hsize : getConjunctionSize (conjAt docs i j) = k)
    (hposkeys : (((conjAt docs i j).expressions.filter fun e => e.positive).map
      fun e => e.key).Nodup)
    (hcount : k ≤ ((Indexer.build docs).getPostingLists k s).countP
      (hasRemId (i * 2 ^ 16 + j)))
    (hnoneg : ∀ g ∈ (Indexer.build docs).getPostingLists k s,
      hasRemNegId (i * 2 ^ 16 + j) g = false)
    {ex : Expression Key} (hex : ex ∈ (conjAt docs i j).expressions)
    (hpos : ex.positive = true) : exprSatisfied s ex := by
  have hcnt2 : k ≤ s.pairs.countP
      (fun pr => hasRemId (i * 2 ^ 16 + j) (pairGroup docs k pr)) := by
    rw [countP_gps docs s k hdocs hcj] at hcount
    rw [if_neg (by simp [hk])] at hcount
    simpa using hcount
  have hall := all_of_countP_ge Prod.fst (fun e : Expression Key => e.key)
    (fun ex' : Expression Key => ∃ v ∈ exprVals ex'.values, v ∈ s.valsOf ex'.key)
    s.pairs ((conjAt docs i j).expressions.filter fun e => e.positive)
    (fun pr => hasRemId (i * 2 ^ 16 + j) (pairGroup docs k pr))
    hkeys hposkeys
    (by
      unfold getConjunctionSize at hsize
      omega)
    (by
      intro pr hpr hQ
      obtain ⟨e, hrem, hide⟩ := (hasRemId_iff _ _).mp hQ
      obtain ⟨v, hv, hspec⟩ := pair_group_entry hrem
      obtain ⟨i', hi', j', hj', ex', hex', hsize', hkey', hv2, rfl⟩ := hspec
      have hids : (Entry.make i' j' ex'.positive).id = (Entry.make i j true).id := by
        rw [hide, Entry.make_id i j true (by omega) (conj_index_lt hcj hi hj)]
      obtain ⟨rfl, rfl⟩ := Entry.id_inj (by omega) (conj_index_lt hcj hi' hj') (by omega)
        (conj_index_lt hcj hi hj) hids
      have hgmem := pairGroup_mem docs k s hpr
        (not_empty_of_remMem (pairGroup_WF docs hdocs hcj k pr) hrem)
      have hnn := hnoneg _ hgmem
      have hposE : ex'.positive = true := by
        cases hpE : ex'.positive
        · have : hasRemNegId (i' * 2 ^ 16 + j') (pairGroup docs k pr) = true := by
            refine (hasRemNegId_iff _ _).mpr ⟨Entry.make i' j' ex'.positive, hrem, hide, ?_⟩
            rw [Entry.make_isNegative i' j' ex'.positive (by omega)
              (conj_index_lt hcj hi' hj'), hpE]
            rfl
          rw [this] at hnn
          cases hnn
        · rfl
      refine ⟨ex', List.mem_filter.mpr ⟨hex', hposE⟩, hkey', v, hv2, ?_⟩
      rw [hkey', valsOf_of_mem' s hkeys hpr]
      exact hv)
  have := hall ex (List.mem_filter.mpr ⟨hex, hpos⟩)
  unfold exprSatisfied
  rw [if_pos hpos]
  exact this

/-- Soundness of one outer round: an accepted id under the emission condition
is a real document one of whose conjunctions is satisfied. -/
theorem emit_to_sem (docs : List (Document Key)) (s : Assignment Key) (k Y : Nat)
    (hdocs : docs.length < 2 ^ 47)
    (hcj : ∀ doc ∈ docs, doc.conjunctions.length ≤ 2 ^ 16)
    (hkeys : (s.pairs.map Prod.fst).Nodup)
    (hposkeys : ∀ i, i < docs.length → ∀ j, j < (docs.getD i emptyDoc).conjunctions.length →
      (((conjAt docs i j).expressions.filter fun e => e.positive).map
        fun e => e.key).Nodup)
    (hok : emitOK (if k = 0 then 1 else k) ((Indexer.build docs).getPostingLists k s) Y) :
    Y >>> 16 < docs.length ∧ docMatches s (docs.getD (Y >>> 16) emptyDoc) := by
  obtain ⟨hcount, hnoneg⟩ := hok
  have hposc : 0 < ((Indexer.build docs).getPostingLists k s).countP (hasRemId Y) := by
    have h1 : 1 ≤ (if k = 0 then 1 else k) := by split <;> omega
    omega
  obtain ⟨g₀, hg₀, hid₀⟩ := List.countP_pos_iff.mp hposc
  obtain ⟨i, hi, j, hj, hYij, hsize⟩ := decode_Y hdocs hcj hg₀ hid₀
  subst hYij
  have hjlt := conj_index_lt hcj hi hj
  have hshift : (i * 2 ^ 16 + j) >>> 16 = i := by
    rw [Nat.shiftRight_eq_div_pow]
    omega
  rw [hshift]
  refine ⟨hi, conjAt docs i j, getD_mem_of_lt _ j emptyConj hj, ?_⟩
  intro ex hex
  cases hpE : ex.positive
  · exact neg_ok docs s k hdocs hcj hi hj hsize hnoneg hex hpE
  · by_cases hk0 : k = 0
    · exfalso
      have hmemf : ex ∈ (conjAt docs i j).expressions.filter fun e => e.positive :=
        List.mem_filter.mpr ⟨hex, hpE⟩
      have h1 : 0 < ((conjAt docs i j).expressions.filter fun e => e.positive).length :=
        List.length_pos.mpr (List.ne_nil_of_mem hmemf)
      unfold getConjunctionSize at hsize
      omega
    · refine pos_ok docs s k hdocs hcj hkeys hk0 hi hj hsize (hposkeys i hi j hj) ?_
        hnoneg hex hpE
      have : (if k = 0 then 1 else k) = k := if_neg hk0
      omega

/-- Completeness of one outer round: a satisfied conjunction of size `k`
forces the emission condition at its packed id, with enough collected
groups. -/
theorem sem_to_emit (docs : List (Document Key)) (s : Assignment Key) (d j k : Nat)
    (hdocs : docs.length < 2 ^ 47)
    (hcj : ∀ doc ∈ docs, doc.conjunctions.length ≤ 2 ^ 16)
    (hkeys : (s.pairs.map Prod.fst).Nodup)
    (hd : d < docs.length) (hj : j < (docs.getD d emptyDoc).conjunctions.length)
    (hposkeys : (((conjAt docs d j).expressions.filter fun e => e.positive).map
      fun e => e.key).Nodup)
    (hk : getConjunctionSize (conjAt docs d j) = k)
    (hsat : conjSatisfied s (conjAt docs d j)) :
    emitOK (if k = 0 then 1 else k) ((Indexer.build docs).getPostingLists k s)
        (d * 2 ^ 16 + j) ∧
      (if k = 0 then 1 else k) ≤ ((Indexer.build docs).getPostingLists k s).length ∧
      k ≤ s.pairs.length := by
  have hjlt := conj_index_lt hcj hd hj
  have hQ : ∀ pr ∈ s.pairs,
      pr.1 ∈ ((conjAt docs d j).expressions.filter fun e => e.positive).map
        (fun e => e.key) →
      hasRemId (d * 2 ^ 16 + j) (pairGroup docs k pr) = true := by
    intro pr hpr hkey
    obtain ⟨ex, hexP, hexk⟩ := List.mem_map.mp hkey
    obtain ⟨hex, hpos⟩ := List.mem_filter.mp hexP
    have hsat' := hsat ex hex
    unfold exprSatisfied at hsat'
    rw [if_pos hpos] at hsat'
    obtain ⟨v, hvex, hvals⟩ := hsat'
    have hvpr : v ∈ exprVals pr.2 := by
      rw [← valsOf_of_mem' s hkeys hpr, ← hexk]
      exact hvals
    have hspec : entrySpec docs k pr.1 v (Entry.make d j true) := by
      refine ⟨d, hd, j, hj, ex, hex, hk, hexk, hvex, ?_⟩
      rw [hpos]
    have hrem := pair_group_entry_rev hvpr hspec
    refine (hasRemId_iff _ _).mpr ⟨Entry.make d j true, hrem, ?_⟩
    exact Entry.make_id d j true (by omega) hjlt
  have hkmem : ∀ x ∈ ((conjAt docs d j).expressions.filter fun e => e.positive).map
      (fun e => e.key), ∃ pr ∈ s.pairs, pr.1 = x := by
    intro x hx
    obtain ⟨ex, hexP, rfl⟩ := List.mem_map.mp hx
    obtain ⟨hex, hpos⟩ := List.mem_filter.mp hexP
    have hsat' := hsat ex hex
    unfold exprSatisfied at hsat'
    rw [if_pos hpos] at hsat'
    obtain ⟨v, hvex, hvals⟩ := hsat'
    obtain ⟨pr, hpr, hprk, _⟩ := valsOf_sound hvals
    exact ⟨pr, hpr, hprk⟩
  have hkcount : k ≤ s.pairs.countP
      (fun pr => hasRemId (d * 2 ^ 16 + j) (pairGroup docs k pr)) := by
    have hle := countP_ge_of_keys Prod.fst s.pairs
      (fun pr => hasRemId (d * 2 ^ 16 + j) (pairGroup docs k pr))
      (((conjAt docs d j).expressions.filter fun e => e.positive).map fun e => e.key)
      hposkeys hkeys hkmem hQ
    rw [List.length_map] at hle
    unfold getConjunctionSize at hk
    omega
  have hnoneg : ∀ g ∈ (Indexer.build docs).getPostingLists k s,
      hasRemNegId (d * 2 ^ 16 + j) g = false := by
    intro g hg
    rw [Bool.eq_false_iff]
    intro hneg
    obtain ⟨e, hrem, hide, hneg'⟩ := (hasRemNegId_iff _ g).mp hneg
    rw [getPostingLists_build_eq] at hg
    rcases List.mem_append.mp hg with hg | hg
    · obtain ⟨hmem, _⟩ := List.mem_filter.mp hg
      obtain ⟨pr, hpr, rfl⟩ := List.mem_map.mp hmem
      obtain ⟨v, hv, hspec⟩ := pair_group_entry hrem
      obtain ⟨i', hi', j', hj', ex', hex', hsize', hkey', hv2, he⟩ := hspec
      subst he
      have hids : (Entry.make i' j' ex'.positive).id = (Entry.make d j true).id := by
        rw [hide, Entry.make_id d j true (by omega) hjlt]
      obtain ⟨rfl, rfl⟩ := Entry.id_inj (by omega) (conj_index_lt hcj hi' hj') (by omega)
        hjlt hids
      have hposf : ex'.positive = false := by
        rw [Entry.make_isNegative i' j' ex'.positive (by omega)
          (conj_index_lt hcj hi' hj')] at hneg'
        simpa using hneg'
      have hsat' := hsat ex' hex'
      unfold exprSatisfied at hsat'
      rw [if_neg (by simp [hposf])] at hsat'
      exact hsat' v (by rw [hkey', valsOf_of_mem' s hkeys hpr]; exact hv) hv2
    · by_cases hzc : k = 0 ∧ (Indexer.build docs).z ≠ []
      · rw [if_pos hzc] at hg
        rw [List.mem_singleton.mp hg] at hrem
        rw [remMem_add_ofList] at hrem
        rcases hrem with hrem | hez
        · exact absurd hrem (new_no_remMem e)
        · obtain ⟨i', hi', j', hj', hsize', rfl⟩ := (mem_build_z docs e).mp hez
          rw [Entry.make_isNegative i' j' true (by omega)
            (conj_index_lt hcj hi' hj')] at hneg'
          simp at hneg'
      · rw [if_neg hzc] at hg
        cases hg
  have hcnt : (if k = 0 then 1 else k) ≤
      ((Indexer.build docs).getPostingLists k s).countP (hasRemId (d * 2 ^ 16 + j)) := by
    rw [countP_gps docs s k hdocs hcj]
    by_cases hk0 : k = 0
    · have hzmem : Entry.make d j true ∈ (Indexer.build docs).z :=
        (mem_build_z docs _).mpr ⟨d, hd, j, hj, by omega, rfl⟩
      have hzne : (Indexer.build docs).z ≠ [] := List.ne_nil_of_mem hzmem
      have hc : k = 0 ∧ (Indexer.build docs).z ≠ [] := ⟨hk0, hzne⟩
      rw [if_pos hc, if_pos hk0]
      have hz1 : hasRemId (d * 2 ^ 16 + j)
          (PostingListGroup.new.add (PostingList.ofList (Indexer.build docs).z)) = true := by
        refine (hasRemId_iff _ _).mpr ⟨Entry.make d j true, ?_, ?_⟩
        · rw [remMem_add_ofList]
          exact Or.inr hzmem
        · exact Entry.make_id d j true (by omega) hjlt
      have : ([PostingListGroup.new.add
          (PostingList.ofList (Indexer.build docs).z)].countP
            (hasRemId (d * 2 ^ 16 + j))) = 1 := by
        rw [List.countP_cons, hz1]
        rfl
      omega
    · rw [if_neg hk0]
      have hz : (0 : Nat) ≤ (if k = 0 ∧ (Indexer.build docs).z ≠ [] then
          [PostingListGroup.new.add (PostingList.ofList (Indexer.build docs).z)]
        else []).countP (hasRemId (d * 2 ^ 16 + j)) := Nat.zero_le _
      omega
  refine ⟨⟨hcnt, hnoneg⟩, ?_, ?_⟩
  · exact le_trans hcnt (List.countP_le_length _)
  · exact le_trans hkcount (List.countP_le_length _)

/-- A corpus holding at least one conjunction with at least one expression
forces a non-trivial per-size index vector. -/
theorem indexs_length_pos_of_expr {docs : List (Document Key)}
    (h : ∃ doc ∈ docs, ∃ c ∈ doc.conjunctions, 0 < c.expressions.length) :
    1 ≤ (Indexer.build docs).indexs.length := by
  obtain ⟨doc, hdoc, c, hc, hne⟩ := h
  obtain ⟨i, hi, hieq⟩ := List.mem_iff_getElem.mp hdoc
  obtain ⟨j, hj, hjeq⟩ := List.mem_iff_getElem.mp hc
  have hgetD : docs.getD i emptyDoc = doc := by
    rw [List.getD_eq_getElem?_getD, List.getElem?_eq_getElem hi]
    exact hieq
  have hj' : j < (docs.getD i emptyDoc).conjunctions.length := by
    rw [hgetD]
    exact hj
  have hconj : conjAt docs i j = c := by
    unfold conjAt
    rw [hgetD, List.getD_eq_getElem?_getD, List.getElem?_eq_getElem hj]
    exact hjeq
  have := build_indexs_length_ge docs i j hi hj'
    (by rw [hconj]; exact List.length_pos.mp hne)
  omega

end GPLChar

/-! ### C1 and C3: functional correctness of `retrieve` -/

section Claims13

variable {Key : Type} [DecidableEq Key]

/-- C1, counterexample to "retrieve adds exactly the matching document ids":
a conjunction with two positive predicates on the same key is semantically
satisfied by an assignment binding that key to both value sets, yet the
engine counts groups per distinct assignment key, finds `1 < 2 = size`, and
never emits the document. -/
theorem claim_C1_counterexample :
    docMatches (⟨[(0, Sum.inr [1, 2])]⟩ : Assignment Nat)
        ⟨[⟨[⟨0, Sum.inr [1], true⟩, ⟨0, Sum.inr [2], true⟩]⟩]⟩ ∧
      (0 : Nat) ∉ (Indexer.create
        ([⟨[⟨[⟨0, Sum.inr [1], true⟩, ⟨0, Sum.inr [2], true⟩]⟩]⟩] :
          List (Document Nat))).retrieve ∅ ⟨[(0, Sum.inr [1, 2])]⟩ :=
  ⟨by decide, by decide⟩

/-- C1 (amended): for a corpus strictly inside the packing bounds (fewer than
`2^47` documents, at most `2^16` conjunctions per document), an assignment
with pairwise-distinct keys, conjunctions whose positive predicates carry
pairwise-distinct keys, and a corpus that is not purely expressionless (if
some document has a conjunction, some conjunction has an expression),
`retrieve` into an empty result set returns exactly the ids of the documents
one of whose conjunctions is satisfied: every positive predicate has some
assigned value in its value set, and no negative predicate has any. -/
theorem claim_C1_amended (docs : List (Document Key)) (s : Assignment Key)
    (hdocs : docs.length < 2 ^ 47)
    (hcj : ∀ doc ∈ docs, doc.conjunctions.length ≤ 2 ^ 16)
    (hkeys : (s.pairs.map Prod.fst).Nodup)
    (hposkeys : ∀ i, i < docs.length → ∀ j, j < (docs.getD i emptyDoc).conjunctions.length →
      (((conjAt docs i j).expressions.filter fun e => e.positive).map fun e => e.key).Nodup)
    (hdeg : (∃ doc ∈ docs, 0 < doc.conjunctions.length) →
      ∃ doc ∈ docs, ∃ c ∈ doc.conjunctions, 0 < c.expressions.length) :
    (Indexer.create docs).retrieve ∅ s =
      (Finset.range docs.length).filter fun d => docMatches s (docs.getD d emptyDoc) := by
  apply Finset.ext
  intro d
  rw [Finset.mem_filter, Finset.mem_range,
    show Indexer.create docs = Indexer.build docs from rfl, retrieve_spec]
  constructor
  · rintro ⟨hne, k, hkle, hd⟩
    rw [sizeIter_spec docs s k hdocs hcj] at hd
    obtain ⟨hlen, Y, hok, rfl⟩ := hd
    exact emit_to_sem docs s k Y hdocs hcj hkeys hposkeys hok
  · rintro ⟨hdlt, hmatch⟩
    unfold docMatches at hmatch
    obtain ⟨c, hc, hsat⟩ := hmatch
    obtain ⟨j, hj, hjeq⟩ := List.mem_iff_getElem.mp hc
    have hconjAt : conjAt docs d j = c := by
      unfold conjAt
      rw [List.getD_eq_getElem?_getD, List.getElem?_eq_getElem hj]
      exact hjeq
    obtain ⟨hok, hlen, hks⟩ := sem_to_emit docs s d j
      (getConjunctionSize (conjAt docs d j)) hdocs hcj hkeys hdlt hj
      (hposkeys d hdlt j hj) rfl (by rw [hconjAt]; exact hsat)
    have hlen1 : getConjunctionSize (conjAt docs d j) + 1 ≤
        (Indexer.build docs).indexs.length := by
      by_cases hce : (conjAt docs d j).expressions = []
      · have hk0 : getConjunctionSize (conjAt docs d j) = 0 := by
          unfold getConjunctionSize
          rw [hce]
          rfl
        have h1 := indexs_length_pos_of_expr (hdeg ⟨docs.getD d emptyDoc,
          getD_mem_of_lt docs d emptyDoc hdlt, by omega⟩)
        omega
      · exact build_indexs_length_ge docs d j hdlt hj hce
    refine ⟨by omega, getConjunctionSize (conjAt docs d j), ?_, ?_⟩
    · have hsz : s.size = s.pairs.length := rfl
      omega
    · rw [sizeIter_spec docs s _ hdocs hcj]
      refine ⟨hlen, d * 2 ^ 16 + j, hok, ?_⟩
      rw [Nat.shiftRight_eq_div_pow]
      have := conj_index_lt hcj hdlt hj
      omega

/-- Witness for C1 (amended): the one-document, one-predicate corpus of the
bundled example, retrieved with the matching assignment. -/
theorem claim_C1_amended_witness :
    (Indexer.create ([⟨[⟨[⟨0, Sum.inr [7], true⟩]⟩]⟩] : List (Document Nat))).retrieve ∅
        ⟨[(0, Sum.inr [7])]⟩ =
      (Finset.range ([⟨[⟨[⟨0, Sum.inr [7], true⟩]⟩]⟩] : List (Document Nat)).length).filter
        fun d => docMatches (⟨[(0, Sum.inr [7])]⟩ : Assignment Nat)
          (([⟨[⟨[⟨0, Sum.inr [7], true⟩]⟩]⟩] : List (Document Nat)).getD d emptyDoc) :=
  claim_C1_amended _ _ (by norm_num) (by decide) (by decide) (by decide) (by decide)

/-- C3, counterexample to "a document with an empty conjunction matches every
assignment": the one-document corpus whose only conjunction is empty builds
an empty per-size index vector (`indexs_` never grows without an expression),
so the outer loop of `retrieve` starts at `-1` and never runs, and the
document is not returned. -/
theorem claim_C3_counterexample :
    docMatches (⟨[]⟩ : Assignment Nat) (⟨[⟨[]⟩]⟩ : Document Nat) ∧
      (0 : Nat) ∉ (Indexer.create ([⟨[⟨[]⟩]⟩] : List (Document Nat))).retrieve ∅ ⟨[]⟩ :=
  ⟨by decide, by decide⟩

/-- C3 (amended): under the corpus bounds and distinct assignment keys, a
document with an empty conjunction is returned on every retrieve, provided
the corpus is not purely expressionless (some conjunction somewhere has an
expression, so the size-0 round is actually reached). -/
theorem claim_C3_amended (docs : List (Document Key)) (s : Assignment Key) (i j : Nat)
    (hdocs : docs.length < 2 ^ 47)
    (hcj : ∀ doc ∈ docs, doc.conjunctions.length ≤ 2 ^ 16)
    (hkeys : (s.pairs.map Prod.fst).Nodup)
    (hi : i < docs.length) (hj : j < (docs.getD i emptyDoc).conjunctions.length)
    (hempty : (conjAt docs i j).expressions = [])
    (hdeg : ∃ doc ∈ docs, ∃ c ∈ doc.conjunctions, 0 < c.expressions.length) :
    i ∈ (Indexer.create docs).retrieve ∅ s := by
  have hk0 : getConjunctionSize (conjAt docs i j) = 0 := by
    unfold getConjunctionSize
    rw [hempty]
    rfl
  have hposkeys0 : (((conjAt docs i j).expressions.filter fun e => e.positive).map
      fun e => e.key).Nodup := by
    rw [hempty]
    exact List.nodup_nil
  have hsat : conjSatisfied s (conjAt docs i j) := by
    intro ex hex
    rw [hempty] at hex
    cases hex
  obtain ⟨hok, hlen, -⟩ := sem_to_emit docs s i j 0 hdocs hcj hkeys hi hj hposkeys0 hk0 hsat
  have hlen1 := indexs_length_pos_of_expr hdeg
  rw [show Indexer.create docs = Indexer.build docs from rfl, retrieve_spec]
  refine ⟨by omega, 0, Nat.zero_le _, ?_⟩
  rw [sizeIter_spec docs s 0 hdocs hcj]
  refine ⟨hlen, i * 2 ^ 16 + j, hok, ?_⟩
  rw [Nat.shiftRight_eq_div_pow]
  have := conj_index_lt hcj hi hj
  omega

/-- Witness for C3 (amended): an empty conjunction next to a one-predicate
document, retrieved under the empty assignment. -/
theorem claim_C3_amended_witness :
    (0 : Nat) ∈ (Indexer.create ([⟨[⟨[]⟩]⟩, ⟨[⟨[⟨5, Sum.inr [9], true⟩]⟩]⟩] :
        List (Document Nat))).retrieve ∅ ⟨[]⟩ :=
  claim_C3_amended _ _ 0 0 (by norm_num) (by decide) (by decide) (by decide) (by decide)
    rfl (by decide)

end Claims13

end Indexing
